import Mathlib

/-!
Heliosub: the RAM audio cache (`libaegisub/audio/provider_ram.cpp`).

A shallow embedding of `RAMAudioProvider`: its constructor, the decoder thread
that fills the block cache, and the reader `FillBuffer`; and, further down, of
`agi::charset::Detect` (`libaegisub/common/charset.cpp`) and
`agi::fs::HasExtension` (`libaegisub/common/fs.cpp`).

Conventions of the embedding.
* `int64_t` values are `Int`; signed 64-bit arithmetic is taken exact (signed
  overflow has no defined meaning in C++).  Conversions that C++ does define
  are explicit: `toInt32` for a narrowing to `int`, `toUInt64` for a conversion
  to `size_t`, `toInt64` for the conversion back to `int64_t`.
* `/` and `%` of C++ truncate towards zero: `Int.tdiv`, `Int.tmod`.
* A `char` is a `Byte`; memory regions (a cache block, the caller's buffer) are
  functions from a byte offset to a `Byte`.
* Undefined behaviour (division by zero, indexing outside `blockcache` or
  outside a block, a negative length handed to `memcpy`/`memset`) is the
  result `Result.fault`.
-/

namespace Heliosub

/-! ## Machine integers -/

/-- Conversion of an integer value to the 32-bit type `int` (two's complement). -/
def toInt32 (x : Int) : Int := (x + 2 ^ 31) % 2 ^ 32 - 2 ^ 31

/-- Conversion of an integer value to `int64_t` (two's complement). -/
def toInt64 (x : Int) : Int := (x + 2 ^ 63) % 2 ^ 64 - 2 ^ 63

/-- Conversion of an integer value to the unsigned 64-bit type `size_t`. -/
def toUInt64 (x : Int) : Int := x % 2 ^ 64

/-! ## Memory -/

/-- A `char`. -/
abbrev Byte := Nat

/-- `#define CacheBits 22` -/
def CacheBits : Nat := 22

/-- `#define CacheBlockSize (1 << CacheBits)` -/
def CacheBlockSize : Int := 2 ^ CacheBits

/-- One element of `blockcache`, a `std::array<char, CacheBlockSize>`: the byte
stored at each offset (offsets `0 .. CacheBlockSize - 1` are the valid ones). -/
abbrev Block := Int → Byte

/-- A value-initialised block, as `stable_vector::resize` creates it. -/
def zeroBlock : Block := fun _ => 0

/-- The caller's buffer `buf`: the byte at each offset, together with a count of
how many times each offset has been stored to. -/
@[ext]
structure Buffer where
  data : Int → Byte
  writes : Int → Nat

/-- A buffer nothing has been stored to yet, holding `init`. -/
def Buffer.fresh (init : Int → Byte) : Buffer := { data := init, writes := fun _ => 0 }

/-- The call `memset(buf + dst, v, n)`. -/
def Buffer.memset (b : Buffer) (dst : Int) (v : Byte) (n : Int) : Buffer :=
  { data := fun x => if dst ≤ x ∧ x < dst + n then v else b.data x
    writes := fun x => if dst ≤ x ∧ x < dst + n then b.writes x + 1 else b.writes x }

/-- The call `memcpy(buf + dst, &blk[off], n)`. -/
def Buffer.memcpy (b : Buffer) (dst : Int) (blk : Block) (off n : Int) : Buffer :=
  { data := fun x => if dst ≤ x ∧ x < dst + n then blk (off + (x - dst)) else b.data x
    writes := fun x => if dst ≤ x ∧ x < dst + n then b.writes x + 1 else b.writes x }

/-- Outcome of running a piece of code with a bound on the number of loop
iterations: a value, undefined behaviour, or the bound was reached. -/
inductive Result (α : Type) where
  | ok (a : α)
  | fault
  | timeout

/-! ## The wrapped source -/

/-- Modelled from the spec: the wrapped `AudioProvider` (`source`), whose class is
declared in `libaegisub/audio/provider.h`, not part of the sources at hand.  It
has a fixed sample count, sample width and channel count and a decode operation
that yields `count * bytes_per_sample * channels` bytes starting at sample
`start`, or signals a decode error.  `data` is the decoded stream, byte by byte;
`fails start count` tells whether the decode of that range throws. -/
structure AudioSource where
  channels : Int
  bytes_per_sample : Int
  num_samples : Int
  data : Int → Byte
  fails : Int → Int → Bool

/-- The call `source->GetAudio(buf, start, count)` for a range inside the stream:
`none` when it throws, else the bytes it stores at `buf[0 ..]`. -/
def AudioSource.GetAudio (src : AudioSource) (start count : Int) : Option (Int → Byte) :=
  if src.fails start count then none
  else some (fun off => src.data (start * (src.bytes_per_sample * src.channels) + off))

/-- The byte `j` of sample `s` in a direct decode from the source. -/
def AudioSource.sampleByte (src : AudioSource) (s j : Int) : Byte :=
  src.data (s * (src.bytes_per_sample * src.channels) + j)

/-! ## The provider -/

/-- State of the decoder thread: about to run the loop test for index `i`, returned
from its function, or ended by an exception leaving the thread function (which
calls `std::terminate`), or by undefined behaviour. -/
inductive ThreadStatus where
  | running (i : Nat)
  | finished
  | terminated
  | faulted
  deriving DecidableEq, Repr

/-- The object `RAMAudioProvider` together with its decoder thread.  The fields
`channels`, `bytes_per_sample`, `num_samples`, `decoded_samples` are those of the
base class; `calls` records the `GetAudio` calls made on the source so far, as
pairs `(start, count)`. -/
structure RAMAudioProvider where
  source : AudioSource
  channels : Int
  bytes_per_sample : Int
  num_samples : Int
  decoded_samples : Int
  blockcache : List Block
  cancelled : Bool
  decoder : ThreadStatus
  calls : List (Int × Int)

/-- Modelled from the spec: the exception types, which `libaegisub/audio/provider.h`
declares and the sources at hand only use.  `AudioProviderError` is the one the
constructor throws; `AudioDecodeError` stands for the decode failure that the
allocation failure must be distinguishable from. -/
inductive AudioError where
  | AudioProviderError (msg : String)
  | AudioDecodeError (msg : String)
  deriving DecidableEq, Repr

/-- The argument of `blockcache.resize` in the constructor:
`(num_samples * bytes_per_sample * channels + CacheBlockSize - 1) >> CacheBits`,
converted to `size_t`. -/
def blockCount (num_samples bytes_per_sample channels : Int) : Nat :=
  (toUInt64 ((num_samples * bytes_per_sample * channels + CacheBlockSize - 1) >>> CacheBits)).toNat

/-- The constructor `RAMAudioProvider(std::unique_ptr<AudioProvider> src)`.
`alloc n` tells whether `blockcache.resize(n)` succeeds (else it throws
`std::bad_alloc`).  On success the decoder thread has been created and is about
to run its loop from `i = 0`. -/
def RAMAudioProvider.new (alloc : Nat → Bool) (src : AudioSource) :
    Except AudioError RAMAudioProvider :=
  let n := blockCount src.num_samples src.bytes_per_sample src.channels
  if alloc n then
    .ok { source := src
          channels := src.channels
          bytes_per_sample := src.bytes_per_sample
          num_samples := src.num_samples
          decoded_samples := 0
          blockcache := List.replicate n zeroBlock
          cancelled := false
          decoder := .running 0
          calls := [] }
  else
    .error (.AudioProviderError "Not enough memory available to cache in RAM")

/-- The value `readsize` of the decoder thread (and `samples_per_block` of
`FillBuffer`): `CacheBlockSize / bytes_per_sample / channels`. -/
def samplesPerBlock (bytes_per_sample channels : Int) : Int :=
  (CacheBlockSize.tdiv bytes_per_sample).tdiv channels

/-- The value `actual_read` of loop iteration `i` of the decoder thread:
`std::min<int64_t>(readsize, num_samples - i * readsize)`, where `i` is a `size_t`
so that the product and the difference are computed in `size_t`. -/
def actualRead (num_samples readsize : Int) (i : Nat) : Int :=
  min readsize (toInt64 (toUInt64 (toUInt64 num_samples - toUInt64 ((i : Int) * toUInt64 readsize))))

/-- What `GetAudio(&blockcache[i][0], ...)` leaves in block `blk` when it stores the
`len` bytes `bytes` from offset 0. -/
def Block.store (blk : Block) (bytes : Int → Byte) (len : Int) : Block :=
  fun off => if 0 ≤ off ∧ off < len then bytes off else blk off

/-- One iteration of the loop of the decoder thread (the lambda given to
`std::thread`), from the loop test on.  A thread that has ended takes no step.
When `GetAudio` throws, nothing catches the exception inside the thread function:
the thread ends as `terminated` (`std::terminate`), with `decoded_samples` not
advanced; the block is taken to be as it was, and no reader looks at it, since a
reader only copies from blocks below the watermark. -/
def RAMAudioProvider.decoderStep (p : RAMAudioProvider) : RAMAudioProvider :=
  match p.decoder with
  | .running i =>
    if p.bytes_per_sample = 0 ∨ p.channels = 0 then { p with decoder := .faulted }
    else
      let readsize := samplesPerBlock p.bytes_per_sample p.channels
      if ¬ i < p.blockcache.length then { p with decoder := .finished }
      else if p.cancelled then { p with decoder := .finished }
      else
        let actual_read := actualRead p.num_samples readsize i
        let start := toInt64 (toUInt64 ((i : Int) * toUInt64 readsize))
        let calls := p.calls ++ [(start, actual_read)]
        match p.blockcache[i]?, p.source.GetAudio start actual_read with
        | none, _ => { p with decoder := .faulted }
        | some _, none => { p with decoder := .terminated, calls := calls }
        | some blk, some bytes =>
          let len := actual_read * p.bytes_per_sample * p.channels
          if len < 0 ∨ CacheBlockSize < len then { p with decoder := .faulted, calls := calls }
          else
            { p with
              blockcache := p.blockcache.set i (blk.store bytes len)
              decoded_samples := p.decoded_samples + actual_read
              decoder := .running (i + 1)
              calls := calls }
  | _ => p

/-- The destructor's `cancelled = true`. -/
def RAMAudioProvider.cancel (p : RAMAudioProvider) : RAMAudioProvider :=
  { p with cancelled := true }

/-- The decoder thread after `k` loop iterations. -/
def RAMAudioProvider.decoderRun : Nat → RAMAudioProvider → RAMAudioProvider
  | 0, p => p
  | k + 1, p => decoderRun k p.decoderStep

/-! ## The reader -/

/-- The loop variables of `FillBuffer`: the buffer, `charbuf` as an offset into it,
`bytes_remaining` and `start`. -/
structure Cursor where
  buf : Buffer
  charbuf : Int
  bytes_remaining : Int
  start : Int

/-- What one run of the loop body of `FillBuffer` does: it ends the loop with the
buffer complete, goes on with new loop variables, or runs into undefined
behaviour. -/
inductive LoopStep where
  | done (buf : Buffer)
  | next (c : Cursor)
  | fault

/-- The body of the loop of `RAMAudioProvider::FillBuffer`, run once against the
provider `p` with loop variables `c` (`bytes_remaining` is not 0). -/
def RAMAudioProvider.fillIter (p : RAMAudioProvider) (c : Cursor) : LoopStep :=
  if c.start ≥ p.decoded_samples then
    if c.bytes_remaining < 0 then .fault
    else .done (c.buf.memset c.charbuf 0 c.bytes_remaining)
  else if p.bytes_per_sample = 0 ∨ p.channels = 0 then .fault
  else
    let samples_per_block := samplesPerBlock p.bytes_per_sample p.channels
    if samples_per_block = 0 then .fault
    else
      let i := toUInt64 (c.start.tdiv samples_per_block)
      let start_offset :=
        toInt32 (c.start.tmod samples_per_block * p.bytes_per_sample * p.channels)
      let read_size :=
        min (toInt32 c.bytes_remaining)
          (toInt32 (samples_per_block * p.bytes_per_sample * p.channels - start_offset))
      match p.blockcache[i.toNat]? with
      | none => .fault
      | some blk =>
        if read_size < 0 ∨ start_offset < 0 ∨ CacheBlockSize < start_offset + read_size then
          .fault
        else
          .next
            { buf := c.buf.memcpy c.charbuf blk start_offset read_size
              charbuf := c.charbuf + read_size
              bytes_remaining := c.bytes_remaining - read_size
              start := c.start + (read_size.tdiv p.bytes_per_sample).tdiv p.channels }

/-- The loop of `RAMAudioProvider::FillBuffer`, `for (...; bytes_remaining; )`, run
for at most `fuel` iterations. -/
def RAMAudioProvider.fillLoop (p : RAMAudioProvider) : Nat → Cursor → Result Buffer
  | 0, c => if c.bytes_remaining = 0 then .ok c.buf else .timeout
  | fuel + 1, c =>
    if c.bytes_remaining = 0 then .ok c.buf
    else
      match p.fillIter c with
      | .done buf => .ok buf
      | .fault => .fault
      | .next c' => fillLoop p fuel c'

/-- The method `RAMAudioProvider::FillBuffer(buf, start, count)`, its loop bounded
by `fuel` iterations.  The provider itself is not changed (the method is `const`). -/
def RAMAudioProvider.FillBuffer (p : RAMAudioProvider) (fuel : Nat) (buf : Buffer)
    (start count : Int) : Result Buffer :=
  p.fillLoop fuel
    { buf := buf
      charbuf := 0
      bytes_remaining := count * p.bytes_per_sample * p.channels
      start := start }

/-- The loop of `FillBuffer` while the decoder thread runs alongside: run number `j`
of the loop body, counted from `j`, sees the provider as `sched j` (the counter is
read anew in every run and the cache may have changed in between). -/
def fillLoopInterleaved (sched : Nat → RAMAudioProvider) : Nat → Nat → Cursor → Result Buffer
  | 0, _, c => if c.bytes_remaining = 0 then .ok c.buf else .timeout
  | fuel + 1, j, c =>
    if c.bytes_remaining = 0 then .ok c.buf
    else
      match (sched j).fillIter c with
      | .done buf => .ok buf
      | .fault => .fault
      | .next c' => fillLoopInterleaved sched fuel (j + 1) c'

/-- A call of `FillBuffer(buf, start, count)` whose runs of the loop body see the
provider states `sched 0`, `sched 1`, ... in turn. -/
def FillBufferInterleaved (sched : Nat → RAMAudioProvider) (fuel : Nat) (buf : Buffer)
    (start count : Int) : Result Buffer :=
  fillLoopInterleaved sched fuel 0
    { buf := buf
      charbuf := 0
      bytes_remaining := count * (sched 0).bytes_per_sample * (sched 0).channels
      start := start }

/-- The provider as a reader may find it in memory while the decoder thread is in
state `p`: `q` is `p`, except that the block the thread is working on (block `i`
when `p.decoder = running i`) may hold anything, `GetAudio` being in the middle
of writing it. -/
structure MidDecode (p q : RAMAudioProvider) : Prop where
  channels : q.channels = p.channels
  bytes_per_sample : q.bytes_per_sample = p.bytes_per_sample
  decoded_samples : q.decoded_samples = p.decoded_samples
  length : q.blockcache.length = p.blockcache.length
  blocks : ∀ b : Nat, p.decoder ≠ .running b → q.blockcache[b]? = p.blockcache[b]?

/-! ## Reference behaviour of the reader -/

/-- The byte the block cache holds for byte `j` of sample `s`: offset
`(s % samples_per_block) * frame + j` of block `s / samples_per_block`, and 0 when
`blockcache` has no such block. -/
def RAMAudioProvider.cachedByte (p : RAMAudioProvider) (s j : Int) : Byte :=
  let S := samplesPerBlock p.bytes_per_sample p.channels
  match p.blockcache[(s / S).toNat]? with
  | some blk => blk (s % S * (p.bytes_per_sample * p.channels) + j)
  | none => 0

/-- The buffer a read of `nbytes` bytes from sample `start` on is meant to leave
behind, stated sample by sample: every byte of the range `dst .. dst + nbytes - 1`
is stored once, with the cached byte when its sample lies below `decoded_samples`
and with 0 otherwise; nothing else is touched. -/
def RAMAudioProvider.readSpec (p : RAMAudioProvider) (buf : Buffer) (dst start nbytes : Int) :
    Buffer :=
  let F := p.bytes_per_sample * p.channels
  { data := fun x =>
      if dst ≤ x ∧ x < dst + nbytes then
        if start + (x - dst) / F < p.decoded_samples then
          p.cachedByte (start + (x - dst) / F) ((x - dst) % F)
        else 0
      else buf.data x
    writes := fun x => if dst ≤ x ∧ x < dst + nbytes then buf.writes x + 1 else buf.writes x }

/-! ## Reachable states -/

/-- The `GetAudio` calls of the first `k` loop iterations of the decoder thread:
iteration `i` asks for the samples from `i * readsize` on, as many as `readsize`
or as are left. -/
def decodeSchedule (num_samples bytes_per_sample channels : Int) (k : Nat) : List (Int × Int) :=
  (List.range k).map fun (i : Nat) =>
    ((i : Int) * samplesPerBlock bytes_per_sample channels,
      min (samplesPerBlock bytes_per_sample channels)
        (num_samples - (i : Int) * samplesPerBlock bytes_per_sample channels))

/-- Content of block `i` once the first `k` blocks have been decoded from `src`:
the bytes of its samples if `i < k`, and zero everywhere else. -/
def decodedBlock (src : AudioSource) (k i : Nat) : Block := fun off =>
  let S := samplesPerBlock src.bytes_per_sample src.channels
  let F := src.bytes_per_sample * src.channels
  if i < k ∧ 0 ≤ off ∧ off < min S (src.num_samples - (i : Int) * S) * F then
    src.data ((i : Int) * S * F + off)
  else 0

/-- The provider was built from `src` and exactly its first `k` blocks have been
decoded. -/
structure DecodedUpTo (src : AudioSource) (p : RAMAudioProvider) (k : Nat) : Prop where
  source : p.source = src
  channels : p.channels = src.channels
  bytes_per_sample : p.bytes_per_sample = src.bytes_per_sample
  num_samples : p.num_samples = src.num_samples
  length : p.blockcache.length = blockCount src.num_samples src.bytes_per_sample src.channels
  le : k ≤ p.blockcache.length
  decoded : p.decoded_samples =
    min ((k : Int) * samplesPerBlock src.bytes_per_sample src.channels) src.num_samples
  blocks : ∀ (i : Nat) (blk : Block), p.blockcache[i]? = some blk → blk = decodedBlock src k i
  status : (p.decoder = .running k ∧
        p.calls = decodeSchedule src.num_samples src.bytes_per_sample src.channels k) ∨
      (p.decoder = .finished ∧
        p.calls = decodeSchedule src.num_samples src.bytes_per_sample src.channels k) ∨
      (p.decoder = .terminated ∧ k < p.blockcache.length ∧
        p.calls = decodeSchedule src.num_samples src.bytes_per_sample src.channels (k + 1))

/-- The state `q` is reached from `p` by loop iterations of the decoder thread and
requests for cancellation, in any order. -/
inductive Steps : RAMAudioProvider → RAMAudioProvider → Prop where
  | refl (p : RAMAudioProvider) : Steps p p
  | step {p q : RAMAudioProvider} : Steps p q → Steps p q.decoderStep
  | cancel {p q : RAMAudioProvider} : Steps p q → Steps p q.cancel

/-- The states a provider constructed over `src` can be in. -/
def Reachable (alloc : Nat → Bool) (src : AudioSource) (p : RAMAudioProvider) : Prop :=
  ∃ p0, RAMAudioProvider.new alloc src = .ok p0 ∧ Steps p0 p

/-! ## A concrete stream -/

/-- A 16-bit stereo stream of 2000000 samples whose bytes are all non-zero and
whose decode never throws. -/
def stereoSource : AudioSource :=
  { channels := 2
    bytes_per_sample := 2
    num_samples := 2000000
    data := fun b => (b % 255).toNat + 1
    fails := fun _ _ => false }

/-- An allocator that always succeeds. -/
def allocAlways : Nat → Bool := fun _ => true

/-- The provider the constructor builds over `stereoSource`: two zeroed blocks,
the decoder thread about to start. -/
def stereoProvider : RAMAudioProvider :=
  { source := stereoSource
    channels := 2
    bytes_per_sample := 2
    num_samples := 2000000
    decoded_samples := 0
    blockcache := [zeroBlock, zeroBlock]
    cancelled := false
    decoder := .running 0
    calls := [] }

/-- A 16-bit stereo stream of `2^30` samples (4 GiB of audio, 1024 blocks). -/
def longSource : AudioSource :=
  { channels := 2
    bytes_per_sample := 2
    num_samples := 1073741824
    data := fun b => (b % 255).toNat + 1
    fails := fun _ _ => false }

/-- The provider the constructor builds over `longSource`. -/
def longProvider : RAMAudioProvider :=
  { source := longSource
    channels := 2
    bytes_per_sample := 2
    num_samples := 1073741824
    decoded_samples := 0
    blockcache := List.replicate 1024 zeroBlock
    cancelled := false
    decoder := .running 0
    calls := [] }

/-- A 24-bit mono stream of `2^22` samples: its frame size 3 does not divide the
block size. -/
def mono24Source : AudioSource :=
  { channels := 1
    bytes_per_sample := 3
    num_samples := 4194304
    data := fun b => (b % 255).toNat + 1
    fails := fun _ _ => false }

/-- The provider the constructor builds over `mono24Source`: three blocks. -/
def mono24Provider : RAMAudioProvider :=
  { source := mono24Source
    channels := 1
    bytes_per_sample := 3
    num_samples := 4194304
    decoded_samples := 0
    blockcache := [zeroBlock, zeroBlock, zeroBlock]
    cancelled := false
    decoder := .running 0
    calls := [] }

/-- A 16-bit stereo stream of 2000000 samples whose decode throws for every range
that starts at sample 1048576, the first sample of block 1. -/
def brokenSource : AudioSource :=
  { channels := 2
    bytes_per_sample := 2
    num_samples := 2000000
    data := fun b => (b % 255).toNat + 1
    fails := fun start _ => start == 1048576 }

/-- The provider the constructor builds over `brokenSource`. -/
def brokenProvider : RAMAudioProvider :=
  { source := brokenSource
    channels := 2
    bytes_per_sample := 2
    num_samples := 2000000
    decoded_samples := 0
    blockcache := [zeroBlock, zeroBlock]
    cancelled := false
    decoder := .running 0
    calls := [] }

/-- An allocator that always fails. -/
def allocNever : Nat → Bool := fun _ => false

/-- The `GetAudio` calls made on the source by the time the decoder thread of a
newly constructed provider has run `m` iterations; when the constructor throws
there is no provider and no thread, hence no call. -/
def callsAfterConstruction (alloc : Nat → Bool) (src : AudioSource) (m : Nat) :
    List (Int × Int) :=
  match RAMAudioProvider.new alloc src with
  | .ok p => (p.decoderRun m).calls
  | .error _ => []

/-- A run of the decoder thread next to a reader of the stereo stream: the first run
of the reader's loop body happens before block 0 is decoded, all later ones after
block 0 and before block 1. -/
def progressSchedule : Nat → RAMAudioProvider := fun j =>
  stereoProvider.decoderRun (if j = 0 then 0 else 1)

/-- The memory the reader finds under `progressSchedule`: the block the decoder
thread is working on holds bytes of value 255 throughout. -/
def tornView : Nat → RAMAudioProvider := fun j =>
  { progressSchedule j with
    blockcache := (progressSchedule j).blockcache.set (if j = 0 then 0 else 1) (fun _ => 255) }

/-- The loop variables `c` occur in the run of the loop of `FillBuffer` on provider
`p` that starts with the loop variables `c0`. -/
inductive LoopReaches (p : RAMAudioProvider) (c0 : Cursor) : Cursor → Prop where
  | start : LoopReaches p c0 c0
  | next {c c' : Cursor} : LoopReaches p c0 c → c.bytes_remaining ≠ 0 →
      p.fillIter c = .next c' → LoopReaches p c0 c'

/-! ## Character set detection (`libaegisub/common/charset.cpp`) -/

/-- The C library function `strncmp(s1, s2, n)` on byte strings given as lists: at
most `n` bytes are compared, as `unsigned char`, and the comparison stops after a
NUL byte that both strings have at the same place.  A string literal is given
with its terminating NUL; the last clause (a string shorter than what is read of
it) is not reached by any call in `Detect`. -/
def strncmp : List Byte → List Byte → Nat → Int
  | _, _, 0 => 0
  | a :: as, b :: bs, n + 1 =>
    if a ≠ b then (a : Int) - (b : Int)
    else if a = 0 then 0
    else strncmp as bs n
  | _, _, _ + 1 => 0

/-- The magic-byte stage of `agi::charset::Detect`, on the four bytes `header`:
the chain of `if (!strncmp(header, ..., n)) return ...;`, with `none` when no
test succeeds and control falls through. -/
def detectMagic (header : List Byte) : Option String :=
  if strncmp header [0xef, 0xbb, 0xbf, 0] 3 = 0 then some "utf-8"
  else if strncmp header [0x00, 0x00, 0xfe, 0xff, 0] 4 = 0 then some "utf-32be"
  else if strncmp header [0xff, 0xfe, 0x00, 0x00, 0] 4 = 0 then some "utf-32le"
  else if strncmp header [0xfe, 0xff, 0] 2 = 0 then some "utf-16be"
  else if strncmp header [0xff, 0xfe, 0] 2 = 0 then some "utf-16le"
  else if strncmp header [0x1a, 0x45, 0xdf, 0xa3, 0] 4 = 0 then some "binary"
  else none

/-- The loop `for (size_t i = 0; i < read; ++i) if (...) ++binaryish;` of `Detect`
over the bytes `buf[0 .. read-1]`, from the current value of `binaryish`. -/
def binaryishLoop : List Byte → Nat → Nat
  | [], binaryish => binaryish
  | b :: rest, binaryish =>
    binaryishLoop rest
      (if b < 32 ∧ (b ≠ 13 ∧ b ≠ 10 ∧ b ≠ 9) then binaryish + 1 else binaryish)

/-- The function `agi::charset::Detect` in a build without uchardet (the `#else`
branch), as a function of the content of the file, one `Byte` below 256 per
byte. -/
def Detect (content : List Byte) : String :=
  if content.length = 0 then "ascii"
  else
    match (if content.length ≥ 4 then detectMagic (content.take 4) else none) with
    | some encoding => encoding
    | none =>
      if content.length > 100 * 1024 * 1024 then "binary"
      else
        let read := min 65536 content.length
        let buf := content.take read
        let binaryish := binaryishLoop buf 0
        if binaryish > read / 8 then "binary" else "utf-8"

/-! ## File names (`libaegisub/common/fs.cpp`) -/

/-- A `std::filesystem::path`, of which `HasExtension` uses only the final
component `p.filename().string()`, a string of `char`. -/
structure Path where
  filename : List Byte

/-- The function `std::toupper(c, loc)` in the classic locale: the ASCII letters
`a .. z` go to `A .. Z`, every other `char` is left alone. -/
def toupper (c : Byte) : Byte := if 97 ≤ c ∧ c ≤ 122 then c - 32 else c

/-- The loop of `boost::algorithm::ends_with` with the comparison `is_iequal`, on the
two strings read backwards from their ends: step by step while both have
characters left, `false` at the first pair that differs in upper case, and at
the end whether the test string is used up. -/
def iendsLoop : List Byte → List Byte → Bool
  | _, [] => true
  | [], _ :: _ => false
  | a :: as, b :: bs => if toupper a = toupper b then iendsLoop as bs else false

/-- The call `boost::iends_with(input, test)`. -/
def iends_with (input test : List Byte) : Bool :=
  iendsLoop input.reverse test.reverse

/-- What a read through a `std::string_view` finds once the `std::string` it was
taken from has been destroyed: `storage s i` is the `char` now at index `i` of the
storage that held the string `s`.  C++ leaves such a read undefined, so the
storage is a parameter of the embedding. -/
abbrev Storage := List Byte → Nat → Byte

/-- A storage that still holds the characters of the string. -/
def intactStorage : Storage := fun s i => s.getD i 0

/-- A storage as a string implementation with a 15-character inline buffer leaves
it: a string of up to 15 characters lies inside the string object, whose bytes
are still in place after its destruction; a longer one lies in a heap block,
which no longer holds it once freed (it reads as 0 here). -/
def freedStorage : Storage := fun s i => if s.length ≤ 15 then s.getD i 0 else 0

/-- The function `agi::fs::HasExtension(p, ext)`.  Its first statement,
`std::string_view filename = p.filename().string();`, makes `filename` a view of
a temporary string that is destroyed at the end of that very statement.  The
view keeps the size of the name; the characters that the next three lines read
through it are those the storage holds by then, `storage p.filename`. -/
def HasExtension (storage : Storage) (p : Path) (ext : List Byte) : Bool :=
  let size := p.filename.length
  let filename := (List.range size).map (storage p.filename)
  if size < ext.length + 1 then false
  else if filename.getD (size - ext.length - 1) 0 ≠ 46 then false
  else iends_with filename ext

end Heliosub

/-! # Theorems -/

namespace Heliosub

theorem toInt32_eq {x : Int} (h1 : -2 ^ 31 ≤ x) (h2 : x < 2 ^ 31) : toInt32 x = x := by
  unfold toInt32; omega

theorem toInt64_eq {x : Int} (h1 : -2 ^ 63 ≤ x) (h2 : x < 2 ^ 63) : toInt64 x = x := by
  unfold toInt64; omega

theorem toUInt64_eq {x : Int} (h1 : 0 ≤ x) (h2 : x < 2 ^ 64) : toUInt64 x = x := by
  unfold toUInt64; omega

theorem same_sign_of_mul_pos {b c : Int} (h : 1 ≤ b * c) :
    (0 < b ∧ 0 < c) ∨ (b < 0 ∧ c < 0) := by
  rcases lt_trichotomy b 0 with hb | hb | hb
  · right
    refine ⟨hb, ?_⟩
    by_contra hc
    have : b * c ≤ 0 := mul_nonpos_of_nonpos_of_nonneg hb.le (not_lt.mp hc)
    omega
  · subst hb; simp at h
  · left
    refine ⟨hb, ?_⟩
    by_contra hc
    have : b * c ≤ 0 := mul_nonpos_of_nonneg_of_nonpos hb.le (not_lt.mp hc)
    omega

theorem ediv_ediv_pos {x b c : Int} (hb : 0 < b) (hc : 0 < c) :
    x / b / c = x / (b * c) := by
  have hbc : 0 < b * c := Int.mul_pos hb hc
  apply le_antisymm
  · rw [Int.le_ediv_iff_mul_le hbc]
    calc x / b / c * (b * c) = (x / b / c * c) * b := by ring
      _ ≤ (x / b) * b := Int.mul_le_mul_of_nonneg_right (Int.ediv_mul_le _ hc.ne') hb.le
      _ ≤ x := Int.ediv_mul_le _ hb.ne'
  · rw [Int.le_ediv_iff_mul_le hc, Int.le_ediv_iff_mul_le hb]
    calc x / (b * c) * c * b = x / (b * c) * (b * c) := by ring
      _ ≤ x := Int.ediv_mul_le _ hbc.ne'

theorem tdiv_tdiv_eq {x b c : Int} (hx : 0 ≤ x) (h : 1 ≤ b * c) :
    (x.tdiv b).tdiv c = x / (b * c) := by
  rcases same_sign_of_mul_pos h with ⟨hb, hc⟩ | ⟨hb, hc⟩
  · rw [Int.tdiv_eq_ediv hx hb.le, Int.tdiv_eq_ediv (Int.ediv_nonneg hx hb.le) hc.le,
      ediv_ediv_pos hb hc]
  · obtain ⟨b', rfl⟩ : ∃ b', b = -b' := ⟨-b, by simp⟩
    obtain ⟨c', rfl⟩ : ∃ c', c = -c' := ⟨-c, by simp⟩
    have hb' : 0 < b' := by omega
    have hc' : 0 < c' := by omega
    rw [Int.tdiv_neg, Int.tdiv_neg, Int.neg_tdiv, neg_neg, Int.tdiv_eq_ediv hx hb'.le,
      Int.tdiv_eq_ediv (Int.ediv_nonneg hx hb'.le) hc'.le, ediv_ediv_pos hb' hc']
    simp

theorem CacheBlockSize_eq : CacheBlockSize = 4194304 := by
  unfold CacheBlockSize CacheBits; norm_num

theorem samplesPerBlock_eq {b c : Int} (h : 1 ≤ b * c) :
    samplesPerBlock b c = 4194304 / (b * c) := by
  unfold samplesPerBlock
  rw [tdiv_tdiv_eq (by rw [CacheBlockSize_eq]; norm_num) h, CacheBlockSize_eq]

theorem spb_pos {F : Int} (h1 : 1 ≤ F) (h2 : F ≤ 4194304) : 1 ≤ 4194304 / F := by
  have := Int.le_ediv_of_mul_le (show (0:Int) < F by omega) (show 1 * F ≤ 4194304 by omega)
  exact this

theorem spb_mul_le {F : Int} (h1 : 1 ≤ F) : 4194304 / F * F ≤ 4194304 :=
  Int.ediv_mul_le _ (by omega)


theorem min_mul_right {a b F : Int} (hF : 0 ≤ F) : min (a * F) (b * F) = min a b * F := by
  rcases le_total a b with h | h
  · rw [min_eq_left h, min_eq_left (Int.mul_le_mul_of_nonneg_right h hF)]
  · rw [min_eq_right h, min_eq_right (Int.mul_le_mul_of_nonneg_right h hF)]

/-- One copying run of the loop body of `FillBuffer`, in closed form. -/
theorem fillIter_copy (p : RAMAudioProvider) (c : Cursor) (m : Int) (blk : Block)
    (hF1 : 1 ≤ p.bytes_per_sample * p.channels)
    (hF2 : p.bytes_per_sample * p.channels ≤ 4194304)
    (hstart : 0 ≤ c.start) (hdec : c.start < p.decoded_samples)
    (hm : 1 ≤ m) (hrem : c.bytes_remaining = m * (p.bytes_per_sample * p.channels))
    (hsmall : m * (p.bytes_per_sample * p.channels) < 2 ^ 31)
    (hidx : c.start / (4194304 / (p.bytes_per_sample * p.channels)) < 2 ^ 64)
    (hblk : p.blockcache[(c.start / (4194304 / (p.bytes_per_sample * p.channels))).toNat]? = some blk) :
    p.fillIter c =
      .next
        { buf := c.buf.memcpy c.charbuf blk
            (c.start % (4194304 / (p.bytes_per_sample * p.channels)) * (p.bytes_per_sample * p.channels))
            (min m (4194304 / (p.bytes_per_sample * p.channels)
              - c.start % (4194304 / (p.bytes_per_sample * p.channels)))
              * (p.bytes_per_sample * p.channels))
          charbuf := c.charbuf + min m (4194304 / (p.bytes_per_sample * p.channels)
              - c.start % (4194304 / (p.bytes_per_sample * p.channels)))
              * (p.bytes_per_sample * p.channels)
          bytes_remaining := (m - min m (4194304 / (p.bytes_per_sample * p.channels)
              - c.start % (4194304 / (p.bytes_per_sample * p.channels))))
              * (p.bytes_per_sample * p.channels)
          start := c.start + min m (4194304 / (p.bytes_per_sample * p.channels)
              - c.start % (4194304 / (p.bytes_per_sample * p.channels))) } := by
  generalize hFdef : p.bytes_per_sample * p.channels = F at *
  have hSdef := samplesPerBlock_eq (hFdef ▸ hF1 : 1 ≤ p.bytes_per_sample * p.channels)
  rw [hFdef] at hSdef
  generalize hS' : (4194304 : Int) / F = S at *
  have hS1 : 1 ≤ S := hS' ▸ spb_pos hF1 hF2
  have hSF : S * F ≤ 4194304 := hS' ▸ spb_mul_le hF1
  have hb0 : p.bytes_per_sample ≠ 0 := by rintro h; rw [h] at hFdef; simp at hFdef; omega
  have hc0 : p.channels ≠ 0 := by rintro h; rw [h] at hFdef; simp at hFdef; omega
  have hq0 : 0 ≤ c.start / S := Int.ediv_nonneg hstart (by omega)
  have hr0 : 0 ≤ c.start % S := Int.emod_nonneg _ (by omega)
  have hrS : c.start % S < S := Int.emod_lt_of_pos _ (by omega)
  set r := c.start % S with hr
  set t := min m (S - r) with ht
  have ht1 : 1 ≤ t := le_min hm (by omega)
  have htm : t ≤ m := min_le_left _ _
  have htS : t ≤ S - r := min_le_right _ _
  have hrF0 : 0 ≤ r * F := Int.mul_nonneg hr0 (by omega)
  have hrF : r * F + (S - r) * F = S * F := by ring
  have hSrF : 1 ≤ (S - r) * F := by
    have : 1 * 1 ≤ (S - r) * F := Int.mul_le_mul (by omega) hF1 (by omega) (by omega)
    simpa using this
  have htF0 : 0 ≤ t * F := Int.mul_nonneg (by omega) (by omega)
  have htF : t * F ≤ (S - r) * F := Int.mul_le_mul_of_nonneg_right htS (by omega)
  have hmF0 : 0 ≤ m * F := Int.mul_nonneg (by omega) (by omega)
  have hne : c.bytes_remaining ≠ 0 := by
    rw [hrem]
    have : 1 * 1 ≤ m * F := Int.mul_le_mul hm hF1 (by omega) (by omega)
    omega
  have e1 : c.start.tdiv S = c.start / S := Int.tdiv_eq_ediv hstart (by omega)
  have e2 : c.start.tmod S = r := Int.tmod_eq_emod hstart (by omega)
  have e3 : r * p.bytes_per_sample * p.channels = r * F := by rw [← hFdef]; ring
  have e4 : S * p.bytes_per_sample * p.channels = S * F := by rw [← hFdef]; ring
  have e5 : toInt32 (r * F) = r * F := toInt32_eq (by omega) (by omega)
  have e6 : toInt32 (S * F - r * F) = (S - r) * F := by
    rw [toInt32_eq (by omega) (by omega)]; ring
  have e7 : toInt32 (m * F) = m * F := toInt32_eq (by omega) (by omega)
  have e8 : min (m * F) ((S - r) * F) = t * F := min_mul_right (by omega)
  have e9 : ((t * F).tdiv p.bytes_per_sample).tdiv p.channels = t := by
    rw [tdiv_tdiv_eq htF0 (hFdef ▸ hF1), hFdef]
    exact Int.mul_ediv_cancel _ (by omega)
  have e10 : toUInt64 (c.start / S) = c.start / S := toUInt64_eq hq0 hidx
  have e11 : m * F - t * F = (m - t) * F := by ring
  unfold RAMAudioProvider.fillIter
  simp only [hSdef, e1, e2, e3, e4, hrem, e5, e6, e7, e8, e9, e10, hblk, e11]
  rw [if_neg (by omega), if_neg (by simp [hb0, hc0]), if_neg (by omega)]
  rw [if_neg (by rw [CacheBlockSize_eq]; omega)]

/-- One copying iteration of the loop of `FillBuffer`, in closed form. -/
theorem fillLoop_copy (p : RAMAudioProvider) (fuel : Nat) (c : Cursor) (m : Int) (blk : Block)
    (hF1 : 1 ≤ p.bytes_per_sample * p.channels)
    (hF2 : p.bytes_per_sample * p.channels ≤ 4194304)
    (hstart : 0 ≤ c.start) (hdec : c.start < p.decoded_samples)
    (hm : 1 ≤ m) (hrem : c.bytes_remaining = m * (p.bytes_per_sample * p.channels))
    (hsmall : m * (p.bytes_per_sample * p.channels) < 2 ^ 31)
    (hidx : c.start / (4194304 / (p.bytes_per_sample * p.channels)) < 2 ^ 64)
    (hblk : p.blockcache[(c.start / (4194304 / (p.bytes_per_sample * p.channels))).toNat]? = some blk) :
    p.fillLoop (fuel + 1) c =
      p.fillLoop fuel
        { buf := c.buf.memcpy c.charbuf blk
            (c.start % (4194304 / (p.bytes_per_sample * p.channels)) * (p.bytes_per_sample * p.channels))
            (min m (4194304 / (p.bytes_per_sample * p.channels)
              - c.start % (4194304 / (p.bytes_per_sample * p.channels)))
              * (p.bytes_per_sample * p.channels))
          charbuf := c.charbuf + min m (4194304 / (p.bytes_per_sample * p.channels)
              - c.start % (4194304 / (p.bytes_per_sample * p.channels)))
              * (p.bytes_per_sample * p.channels)
          bytes_remaining := (m - min m (4194304 / (p.bytes_per_sample * p.channels)
              - c.start % (4194304 / (p.bytes_per_sample * p.channels))))
              * (p.bytes_per_sample * p.channels)
          start := c.start + min m (4194304 / (p.bytes_per_sample * p.channels)
              - c.start % (4194304 / (p.bytes_per_sample * p.channels))) } := by
  have hne : c.bytes_remaining ≠ 0 := by
    rw [hrem]
    have : 1 * 1 ≤ m * (p.bytes_per_sample * p.channels) :=
      Int.mul_le_mul hm hF1 (by omega) (by omega)
    omega
  rw [RAMAudioProvider.fillLoop, if_neg hne,
    fillIter_copy p c m blk hF1 hF2 hstart hdec hm hrem hsmall hidx hblk]

theorem cachedByte_eq (p : RAMAudioProvider) (s j : Int)
    (hF1 : 1 ≤ p.bytes_per_sample * p.channels) :
    p.cachedByte s j =
      match p.blockcache[(s / (4194304 / (p.bytes_per_sample * p.channels))).toNat]? with
      | some blk => blk (s % (4194304 / (p.bytes_per_sample * p.channels))
          * (p.bytes_per_sample * p.channels) + j)
      | none => 0 := by
  unfold RAMAudioProvider.cachedByte
  simp only [samplesPerBlock_eq hF1]

/-- Inside one block the cache is addressed linearly. -/
theorem cachedByte_same_block (p : RAMAudioProvider) (start y t : Int) (blk : Block)
    (hF1 : 1 ≤ p.bytes_per_sample * p.channels)
    (hF2 : p.bytes_per_sample * p.channels ≤ 4194304)
    (hblk : p.blockcache[(start / (4194304 / (p.bytes_per_sample * p.channels))).toNat]? = some blk)
    (ht : t ≤ 4194304 / (p.bytes_per_sample * p.channels)
      - start % (4194304 / (p.bytes_per_sample * p.channels)))
    (hy0 : 0 ≤ y) (hy : y < t * (p.bytes_per_sample * p.channels)) :
    p.cachedByte (start + y / (p.bytes_per_sample * p.channels))
        (y % (p.bytes_per_sample * p.channels)) =
      blk (start % (4194304 / (p.bytes_per_sample * p.channels))
        * (p.bytes_per_sample * p.channels) + y) := by
  rw [cachedByte_eq p _ _ hF1]
  generalize p.bytes_per_sample * p.channels = F at *
  have hS1 : 1 ≤ 4194304 / F := spb_pos hF1 hF2
  generalize (4194304 : Int) / F = S at *
  have hr0 : 0 ≤ start % S := Int.emod_nonneg _ (by omega)
  have hd0 : 0 ≤ y / F := Int.ediv_nonneg hy0 (by omega)
  have hdt : y / F < t := Int.ediv_lt_of_lt_mul (by omega) hy
  have hdm := Int.ediv_add_emod y F
  have hsplit : start % S + y / F + S * (start / S) = start + y / F := by
    have := Int.emod_add_ediv start S
    omega
  have hqr := (Int.ediv_emod_unique (a := start + y / F) (b := S) (r := start % S + y / F)
    (q := start / S) (by omega)).mpr ⟨hsplit, by omega, by omega⟩
  rw [hqr.1, hqr.2, hblk]
  simp only []
  congr 1
  have : (start % S + y / F) * F = start % S * F + F * (y / F) := by ring
  omega


/-- The loop of `FillBuffer` computes `readSpec`, whenever the blocks below the
watermark exist and the cache reads as zero from the watermark on. -/
theorem fillLoop_spec (p : RAMAudioProvider)
    (hF1 : 1 ≤ p.bytes_per_sample * p.channels)
    (hF2 : p.bytes_per_sample * p.channels ≤ 4194304)
    (hlen : (p.blockcache.length : Int) < 2 ^ 64)
    (havail : ∀ s, 0 ≤ s → s < p.decoded_samples →
      s / (4194304 / (p.bytes_per_sample * p.channels)) < p.blockcache.length)
    (hzero : ∀ s j, 0 ≤ s → p.decoded_samples ≤ s → 0 ≤ j →
      j < p.bytes_per_sample * p.channels → p.cachedByte s j = 0) :
    ∀ (fuel : Nat) (c : Cursor) (m : Int), 0 ≤ c.start → 0 ≤ m →
      c.bytes_remaining = m * (p.bytes_per_sample * p.channels) →
      m * (p.bytes_per_sample * p.channels) < 2 ^ 31 → m.toNat < fuel →
      p.fillLoop fuel c = .ok (p.readSpec c.buf c.charbuf c.start c.bytes_remaining) := by
  intro fuel
  induction fuel with
  | zero => intro c m _ _ _ _ h; omega
  | succ fuel ih =>
    intro c m hstart hm hrem hsmall hfuel
    have hF0 : (0 : Int) < p.bytes_per_sample * p.channels := by omega
    rcases eq_or_lt_of_le hm with hm0 | hm1
    · -- nothing left to read
      have hz : c.bytes_remaining = 0 := by rw [hrem, ← hm0]; simp
      rw [RAMAudioProvider.fillLoop, if_pos hz, hz]
      congr 1
      ext x
      · simp only [RAMAudioProvider.readSpec]; rw [if_neg (by omega)]
      · simp only [RAMAudioProvider.readSpec]; rw [if_neg (by omega)]
    · have hmF : 1 ≤ m * (p.bytes_per_sample * p.channels) := by
        have : 1 * 1 ≤ m * (p.bytes_per_sample * p.channels) :=
          Int.mul_le_mul (by omega) hF1 (by omega) (by omega)
        simpa using this
      by_cases hdec : c.start ≥ p.decoded_samples
      · -- zero-fill of the rest
        rw [RAMAudioProvider.fillLoop, if_neg (by omega), RAMAudioProvider.fillIter,
          if_pos hdec, if_neg (by omega)]
        show Result.ok _ = Result.ok _
        congr 1
        ext x
        · simp only [RAMAudioProvider.readSpec, Buffer.memset]
          by_cases hx : c.charbuf ≤ x ∧ x < c.charbuf + c.bytes_remaining
          · rw [if_pos hx, if_pos hx, if_neg]
            have : 0 ≤ (x - c.charbuf) / (p.bytes_per_sample * p.channels) :=
              Int.ediv_nonneg (by omega) (by omega)
            omega
          · rw [if_neg hx, if_neg hx]
        · simp only [RAMAudioProvider.readSpec, Buffer.memset]
      · -- one copy, then the rest
        have hdec' : c.start < p.decoded_samples := by omega
        have hav := havail c.start hstart hdec'
        have hq0 : 0 ≤ c.start / (4194304 / (p.bytes_per_sample * p.channels)) :=
          Int.ediv_nonneg hstart (by have := spb_pos hF1 hF2; omega)
        obtain ⟨blk, hblk⟩ : ∃ blk, p.blockcache[(c.start /
            (4194304 / (p.bytes_per_sample * p.channels))).toNat]? = some blk := by
          have hlt : (c.start / (4194304 / (p.bytes_per_sample * p.channels))).toNat
              < p.blockcache.length := by omega
          exact ⟨_, List.getElem?_eq_getElem hlt⟩
        rw [fillLoop_copy p fuel c m blk hF1 hF2 hstart hdec' (by omega) hrem hsmall
          (by omega) hblk]
        have hS1 := spb_pos hF1 hF2
        generalize hF : p.bytes_per_sample * p.channels = F at *
        generalize hS : (4194304 : Int) / F = S at *
        have hr0 : 0 ≤ c.start % S := Int.emod_nonneg _ (by omega)
        have hrS : c.start % S < S := Int.emod_lt_of_pos _ (by omega)
        set t := min m (S - c.start % S) with ht
        have ht1 : 1 ≤ t := le_min (by omega) (by omega)
        have htm : t ≤ m := min_le_left _ _
        have htS : t ≤ S - c.start % S := min_le_right _ _
        have htF : t * F ≤ m * F := Int.mul_le_mul_of_nonneg_right htm (by omega)
        have htF1 : 1 ≤ t * F := by
          have : 1 * 1 ≤ t * F := Int.mul_le_mul ht1 hF1 (by omega) (by omega)
          simpa using this
        have hmt : (m - t) * F = m * F - t * F := by ring
        rw [ih _ (m - t) (by show 0 ≤ c.start + t; omega) (by omega) rfl
          (by omega) (by omega)]
        congr 1
        ext x
        · simp only [RAMAudioProvider.readSpec, Buffer.memcpy, hF, hrem]
          by_cases hx1 : c.charbuf + t * F ≤ x ∧ x < c.charbuf + t * F + (m - t) * F
          · have hx3 : c.charbuf ≤ x ∧ x < c.charbuf + m * F := by omega
            rw [if_pos hx1, if_pos hx3]
            have e1 : (x - (c.charbuf + t * F)) / F = (x - c.charbuf) / F - t := by
              have : x - (c.charbuf + t * F) = (x - c.charbuf) + (-t) * F := by ring
              rw [this, Int.add_mul_ediv_right _ _ (by omega)]; ring
            have e2 : (x - (c.charbuf + t * F)) % F = (x - c.charbuf) % F := by
              have : x - (c.charbuf + t * F) = (x - c.charbuf) + (-t) * F := by ring
              rw [this, Int.add_mul_emod_self]
            rw [e1, e2]
            have e3 : c.start + t + ((x - c.charbuf) / F - t) = c.start + (x - c.charbuf) / F := by
              ring
            rw [e3]
          · rw [if_neg hx1]
            by_cases hx2 : c.charbuf ≤ x ∧ x < c.charbuf + t * F
            · have hx3 : c.charbuf ≤ x ∧ x < c.charbuf + m * F := by omega
              rw [if_pos hx2, if_pos hx3]
              have hcb := cachedByte_same_block p c.start (x - c.charbuf) t blk
                (hF ▸ hF1) (hF ▸ hF2) (by rw [hF, hS]; exact hblk) (by rw [hF, hS]; exact htS)
                (by omega) (by rw [hF]; omega)
              rw [hF, hS] at hcb
              split
              · exact hcb.symm
              · rename_i hnd
                rw [← hcb]
                have hd0 : 0 ≤ (x - c.charbuf) / F := Int.ediv_nonneg (by omega) (by omega)
                exact hzero _ _ (by omega) (by omega) (Int.emod_nonneg _ (by omega))
                  (Int.emod_lt_of_pos _ (by omega))
            · have hx3 : ¬ (c.charbuf ≤ x ∧ x < c.charbuf + m * F) := by omega
              rw [if_neg hx2, if_neg hx3]
        · simp only [RAMAudioProvider.readSpec, Buffer.memcpy, hF, hrem]
          by_cases hx1 : c.charbuf + t * F ≤ x ∧ x < c.charbuf + t * F + (m - t) * F
          · have hx3 : c.charbuf ≤ x ∧ x < c.charbuf + m * F := by omega
            have hx2 : ¬ (c.charbuf ≤ x ∧ x < c.charbuf + t * F) := by omega
            rw [if_pos hx1, if_pos hx3, if_neg hx2]
          · rw [if_neg hx1]
            by_cases hx2 : c.charbuf ≤ x ∧ x < c.charbuf + t * F
            · have hx3 : c.charbuf ≤ x ∧ x < c.charbuf + m * F := by omega
              rw [if_pos hx2, if_pos hx3]
            · have hx3 : ¬ (c.charbuf ≤ x ∧ x < c.charbuf + m * F) := by omega
              rw [if_neg hx2, if_neg hx3]

theorem blockCount_eq {n b c : Int} (hF1 : 1 ≤ b * c) (hF2 : b * c ≤ 4194304)
    (hn : 0 ≤ n) (hn64 : n < 2 ^ 63) :
    (blockCount n b c : Int) = (n * (b * c) + 4194303) / 4194304 := by
  unfold blockCount
  rw [Int.shiftRight_eq_div_pow, CacheBlockSize_eq]
  have e : n * b * c + 4194304 - 1 = n * (b * c) + 4194303 := by ring
  rw [e]
  generalize b * c = F at *
  have h0 : 0 ≤ n * F := Int.mul_nonneg hn (by omega)
  have h1 : n * F ≤ 2 ^ 63 * 4194304 := Int.mul_le_mul (by omega) hF2 (by omega) (by norm_num)
  have h2 : ((2 ^ CacheBits : Nat) : Int) = 4194304 := by unfold CacheBits; norm_num
  rw [h2]
  have h3 : 0 ≤ (n * F + 4194303) / 4194304 := by omega
  have h4 : (n * F + 4194303) / 4194304 < 2 ^ 64 := by omega
  rw [toUInt64_eq h3 h4]
  omega

theorem blockCount_lt {n b c : Int} : (blockCount n b c : Int) < 2 ^ 64 := by
  unfold blockCount toUInt64
  omega

/-- Every block index below `blockCount` starts strictly inside the stream. -/
theorem mul_spb_lt_of_lt_blockCount {n b c : Int} {k : Nat} (hF1 : 1 ≤ b * c)
    (hF2 : b * c ≤ 4194304) (hn : 0 ≤ n) (hn64 : n < 2 ^ 63) (hk : k < blockCount n b c) :
    (k : Int) * (4194304 / (b * c)) < n := by
  have hB := blockCount_eq hF1 hF2 hn hn64
  have hk' : (k : Int) < blockCount n b c := by exact_mod_cast hk
  generalize b * c = F at *
  have hSF := spb_mul_le hF1
  have hS1 := spb_pos hF1 hF2
  generalize (4194304 : Int) / F = S at *
  have h1 : (k : Int) * 4194304 < n * F := by omega
  have h2 : (k : Int) * (S * F) ≤ k * 4194304 :=
    Int.mul_le_mul_of_nonneg_left hSF (by omega)
  by_contra hcon
  have h3 : n * F ≤ (k * S) * F := Int.mul_le_mul_of_nonneg_right (by omega) (by omega)
  have h4 : (k : Int) * S * F = k * (S * F) := by ring
  omega

theorem actualRead_eq {n S : Int} {k : Nat} (hS : 1 ≤ S) (hS2 : S ≤ 4194304)
    (hn64 : n < 2 ^ 63) (hk : (k : Int) * S < n) :
    actualRead n S k = min S (n - k * S) := by
  unfold actualRead
  have hk0 : 0 ≤ (k : Int) * S := Int.mul_nonneg (by omega) (by omega)
  rw [toUInt64_eq (x := S) (by omega) (by omega), toUInt64_eq (x := (k : Int) * S) hk0 (by omega),
    toUInt64_eq (x := n) (by omega) (by omega), toUInt64_eq (by omega) (by omega),
    toInt64_eq (by omega) (by omega)]

theorem decodeStart_eq {n S : Int} {k : Nat} (hS : 1 ≤ S) (hS2 : S ≤ 4194304)
    (hn64 : n < 2 ^ 63) (hk : (k : Int) * S < n) :
    toInt64 (toUInt64 ((k : Int) * toUInt64 S)) = k * S := by
  have hk0 : 0 ≤ (k : Int) * S := Int.mul_nonneg (by omega) (by omega)
  rw [toUInt64_eq (x := S) (by omega) (by omega), toUInt64_eq (x := (k : Int) * S) hk0 (by omega),
    toInt64_eq (by omega) (by omega)]


theorem decodeSchedule_succ (n b c : Int) (k : Nat) :
    decodeSchedule n b c (k + 1) = decodeSchedule n b c k ++
      [((k : Int) * samplesPerBlock b c,
        min (samplesPerBlock b c) (n - (k : Int) * samplesPerBlock b c))] := by
  unfold decodeSchedule
  rw [List.range_succ, List.map_append]
  rfl

theorem DecodedUpTo.init {alloc : Nat → Bool} {src : AudioSource} {p0 : RAMAudioProvider}
    (hn : 0 ≤ src.num_samples) (hnew : RAMAudioProvider.new alloc src = .ok p0) :
    DecodedUpTo src p0 0 := by
  unfold RAMAudioProvider.new at hnew
  simp only [] at hnew
  split at hnew
  · injection hnew with hp
    subst hp
    refine ⟨rfl, rfl, rfl, rfl, by simp, by simp, ?_, ?_, ?_⟩
    · simp only [Nat.cast_zero, zero_mul]
      exact (min_eq_left hn).symm
    · intro i blk hi
      rw [List.getElem?_replicate] at hi
      split at hi
      · injection hi with hi
        subst hi
        funext off
        simp [zeroBlock, decodedBlock]
      · cases hi
    · left
      exact ⟨rfl, rfl⟩
  · cases hnew

theorem DecodedUpTo.cancel {src : AudioSource} {p : RAMAudioProvider} {k : Nat}
    (h : DecodedUpTo src p k) : DecodedUpTo src p.cancel k :=
  ⟨h.source, h.channels, h.bytes_per_sample, h.num_samples, h.length, h.le, h.decoded,
    h.blocks, h.status⟩


theorem decoderStep_of_finished {p : RAMAudioProvider} (h : p.decoder = .finished) :
    p.decoderStep = p := by
  unfold RAMAudioProvider.decoderStep; rw [h]

theorem decoderStep_of_terminated {p : RAMAudioProvider} (h : p.decoder = .terminated) :
    p.decoderStep = p := by
  unfold RAMAudioProvider.decoderStep; rw [h]

/-- The loop test fails or cancellation was requested: the thread returns. -/
theorem decoderStep_exit {p : RAMAudioProvider} {k : Nat}
    (hF1 : 1 ≤ p.bytes_per_sample * p.channels) (hrun : p.decoder = .running k)
    (hex : ¬ k < p.blockcache.length ∨ p.cancelled = true) :
    p.decoderStep = { p with decoder := .finished } := by
  have hb0 : p.bytes_per_sample ≠ 0 := by rintro h; rw [h] at hF1; simp at hF1
  have hc0 : p.channels ≠ 0 := by rintro h; rw [h] at hF1; simp at hF1
  unfold RAMAudioProvider.decoderStep
  rw [hrun]
  simp only []
  rw [if_neg (by simp [hb0, hc0])]
  by_cases hk : k < p.blockcache.length
  · rw [if_neg (not_not.mpr hk), if_pos (by rcases hex with h | h; exact absurd hk h; exact h)]
  · rw [if_pos hk]

/-- An iteration that decodes: in closed form, for a stream that does not overflow
the arithmetic. -/
theorem decoderStep_decode {p : RAMAudioProvider} {k : Nat} (blk : Block)
    (hF1 : 1 ≤ p.bytes_per_sample * p.channels)
    (hF2 : p.bytes_per_sample * p.channels ≤ 4194304)
    (hn64 : p.num_samples < 2 ^ 63)
    (hrun : p.decoder = .running k) (hk : k < p.blockcache.length)
    (hcan : p.cancelled = false)
    (hks : (k : Int) * (4194304 / (p.bytes_per_sample * p.channels)) < p.num_samples)
    (hblk : p.blockcache[k]? = some blk) :
    p.decoderStep =
      match p.source.GetAudio ((k : Int) * (4194304 / (p.bytes_per_sample * p.channels)))
          (min (4194304 / (p.bytes_per_sample * p.channels))
            (p.num_samples - (k : Int) * (4194304 / (p.bytes_per_sample * p.channels)))) with
      | none =>
        { p with
          decoder := .terminated
          calls := p.calls ++ [((k : Int) * (4194304 / (p.bytes_per_sample * p.channels)),
            min (4194304 / (p.bytes_per_sample * p.channels))
              (p.num_samples - (k : Int) * (4194304 / (p.bytes_per_sample * p.channels))))] }
      | some bytes =>
        { p with
          blockcache := p.blockcache.set k (blk.store bytes
            (min (4194304 / (p.bytes_per_sample * p.channels))
              (p.num_samples - (k : Int) * (4194304 / (p.bytes_per_sample * p.channels)))
              * (p.bytes_per_sample * p.channels)))
          decoded_samples := p.decoded_samples +
            min (4194304 / (p.bytes_per_sample * p.channels))
              (p.num_samples - (k : Int) * (4194304 / (p.bytes_per_sample * p.channels)))
          decoder := .running (k + 1)
          calls := p.calls ++ [((k : Int) * (4194304 / (p.bytes_per_sample * p.channels)),
            min (4194304 / (p.bytes_per_sample * p.channels))
              (p.num_samples - (k : Int) * (4194304 / (p.bytes_per_sample * p.channels))))] } := by
  have hb0 : p.bytes_per_sample ≠ 0 := by rintro h; rw [h] at hF1; simp at hF1
  have hc0 : p.channels ≠ 0 := by rintro h; rw [h] at hF1; simp at hF1
  have hS := samplesPerBlock_eq hF1
  have hS1 := spb_pos hF1 hF2
  have hSF := spb_mul_le hF1
  have hSle : 4194304 / (p.bytes_per_sample * p.channels) ≤ 4194304 :=
    Int.ediv_le_self _ (by norm_num)
  unfold RAMAudioProvider.decoderStep
  rw [hrun]
  simp only [hS]
  rw [if_neg (by simp [hb0, hc0]), if_neg (not_not.mpr hk), if_neg (by simp [hcan])]
  rw [actualRead_eq hS1 hSle hn64 hks, decodeStart_eq hS1 hSle hn64 hks, hblk]
  generalize hF : p.bytes_per_sample * p.channels = F at *
  generalize (4194304 : Int) / F = S at *
  cases hg : p.source.GetAudio (↑k * S) (min S (p.num_samples - ↑k * S)) with
  | none => rfl
  | some bytes =>
    simp only []
    have ha1 : 1 ≤ min S (p.num_samples - ↑k * S) := le_min hS1 (by omega)
    have ha2 : min S (p.num_samples - ↑k * S) ≤ S := min_le_left _ _
    have e : min S (p.num_samples - ↑k * S) * p.bytes_per_sample * p.channels
        = min S (p.num_samples - ↑k * S) * F := by rw [← hF]; ring
    rw [e]
    have h0 : 0 ≤ min S (p.num_samples - ↑k * S) * F := Int.mul_nonneg (by omega) (by omega)
    have h1 : min S (p.num_samples - ↑k * S) * F ≤ S * F :=
      Int.mul_le_mul_of_nonneg_right ha2 (by omega)
    rw [if_neg (by rw [CacheBlockSize_eq]; omega)]


theorem min_add_min_block {S n : Int} {k : Nat} (hk : (k : Int) * S < n) :
    min ((k : Int) * S) n + min S (n - k * S) = min (((k + 1 : Nat) : Int) * S) n := by
  have e : (((k + 1 : Nat) : Int)) * S = k * S + S := by push_cast; ring
  rw [e, min_eq_left hk.le]
  rcases le_total S (n - k * S) with h | h
  · rw [min_eq_left h, min_eq_left (by omega)]
  · rw [min_eq_right h, min_eq_right (by omega)]; ring

/-- One iteration of the decoder thread, case by case.  Either no block is touched
(the thread had ended, or it returns at the loop test or at the check of
`cancelled`, or `GetAudio` throws on block `k`), or block `k` is decoded entirely
and the thread goes on to `k + 1`. -/
theorem DecodedUpTo.step {src : AudioSource} {p : RAMAudioProvider} {k : Nat}
    (hF1 : 1 ≤ src.bytes_per_sample * src.channels)
    (hF2 : src.bytes_per_sample * src.channels ≤ 4194304)
    (hn : 0 ≤ src.num_samples) (hn64 : src.num_samples < 2 ^ 63)
    (h : DecodedUpTo src p k) :
    (DecodedUpTo src p.decoderStep k ∧ p.decoderStep.blockcache = p.blockcache ∧
        p.decoderStep.decoded_samples = p.decoded_samples ∧
        p.decoderStep.cancelled = p.cancelled ∧
        (p.decoderStep.decoder = .finished ∨ p.decoderStep.decoder = .terminated) ∧
        (p.decoder = .running k → k < p.blockcache.length → p.cancelled = false →
          p.decoderStep.decoder = .terminated ∧
          src.fails (↑k * (4194304 / (src.bytes_per_sample * src.channels)))
            (min (4194304 / (src.bytes_per_sample * src.channels))
              (src.num_samples - ↑k * (4194304 / (src.bytes_per_sample * src.channels))))
            = true)) ∨
      (DecodedUpTo src p.decoderStep (k + 1) ∧ p.decoder = .running k ∧
        p.cancelled = false ∧ k < p.blockcache.length ∧
        p.decoderStep.decoder = .running (k + 1) ∧ p.decoderStep.cancelled = false ∧
        src.fails (↑k * (4194304 / (src.bytes_per_sample * src.channels)))
            (min (4194304 / (src.bytes_per_sample * src.channels))
              (src.num_samples - ↑k * (4194304 / (src.bytes_per_sample * src.channels))))
            = false) := by
  have hch := h.channels
  have hbps := h.bytes_per_sample
  have hnum := h.num_samples
  have hF1' : 1 ≤ p.bytes_per_sample * p.channels := by rw [hch, hbps]; exact hF1
  have hF2' : p.bytes_per_sample * p.channels ≤ 4194304 := by rw [hch, hbps]; exact hF2
  rcases h.status with ⟨hrun, hcalls⟩ | ⟨hfin, hcalls⟩ | ⟨hterm, hlt, hcalls⟩
  · by_cases hex : ¬ k < p.blockcache.length ∨ p.cancelled = true
    · left
      rw [decoderStep_exit hF1' hrun hex]
      refine ⟨⟨h.source, h.channels, h.bytes_per_sample, h.num_samples, h.length, h.le,
        h.decoded, h.blocks, Or.inr (Or.inl ⟨rfl, hcalls⟩)⟩, rfl, rfl, rfl, Or.inl rfl, ?_⟩
      intro _ hk hcan
      rcases hex with hex | hex
      · exact absurd hk hex
      · rw [hcan] at hex; cases hex
    · have hk : k < p.blockcache.length := by
        by_contra hc; exact hex (Or.inl hc)
      have hcan : p.cancelled = false := by
        cases hc : p.cancelled
        · rfl
        · exact absurd (Or.inr hc) hex
      have hks := mul_spb_lt_of_lt_blockCount hF1 hF2 hn hn64 (h.length ▸ hk)
      have hblk : p.blockcache[k]? = some p.blockcache[k] := List.getElem?_eq_getElem hk
      have hstep := decoderStep_decode p.blockcache[k] hF1' hF2'
        (by rw [hnum]; exact hn64) hrun hk hcan (by rw [hch, hbps, hnum]; exact hks) hblk
      rw [hch, hbps, hnum, h.source] at hstep
      have hSdef := samplesPerBlock_eq hF1
      have hS1 := spb_pos hF1 hF2
      cases hg : src.GetAudio (↑k * (4194304 / (src.bytes_per_sample * src.channels)))
          (min (4194304 / (src.bytes_per_sample * src.channels))
            (src.num_samples - ↑k * (4194304 / (src.bytes_per_sample * src.channels)))) with
      | none =>
        left
        simp only [hg] at hstep
        rw [hstep]
        have hfail : src.fails (↑k * (4194304 / (src.bytes_per_sample * src.channels)))
            (min (4194304 / (src.bytes_per_sample * src.channels))
              (src.num_samples - ↑k * (4194304 / (src.bytes_per_sample * src.channels))))
            = true := by
          unfold AudioSource.GetAudio at hg
          split at hg
          · assumption
          · cases hg
        refine ⟨⟨rfl, rfl, rfl, rfl, h.length, h.le,
          h.decoded, h.blocks, Or.inr (Or.inr ⟨rfl, hk, ?_⟩)⟩, rfl, rfl, rfl, Or.inr rfl,
          fun _ _ _ => ⟨rfl, hfail⟩⟩
        show p.calls ++ _ = _
        rw [decodeSchedule_succ, hcalls, hSdef]
      | some bytes =>
        right
        simp only [hg] at hstep
        have hbytes : bytes = (fun off =>
            src.data (↑k * (4194304 / (src.bytes_per_sample * src.channels))
              * (src.bytes_per_sample * src.channels) + off)) ∧
            src.fails (↑k * (4194304 / (src.bytes_per_sample * src.channels)))
              (min (4194304 / (src.bytes_per_sample * src.channels))
                (src.num_samples - ↑k * (4194304 / (src.bytes_per_sample * src.channels))))
              = false := by
          unfold AudioSource.GetAudio at hg
          split at hg
          · cases hg
          · injection hg with hg
            refine ⟨hg.symm, ?_⟩
            rename_i hnf
            exact Bool.eq_false_iff.mpr hnf
        refine ⟨?_, hrun, hcan, hk, ?_, ?_, hbytes.2⟩
        · rw [hstep]
          refine ⟨rfl, rfl, rfl, rfl, ?_, ?_, ?_, ?_, ?_⟩
          · show (p.blockcache.set k _).length = _
            rw [List.length_set]; exact h.length
          · show k + 1 ≤ (p.blockcache.set k _).length
            rw [List.length_set]; omega
          · show p.decoded_samples + _ = _
            rw [h.decoded, hSdef]
            exact min_add_min_block hks
          · intro i blk hi
            change (p.blockcache.set k _)[i]? = some blk at hi
            rw [List.getElem?_set] at hi
            by_cases hik : k = i
            · subst hik
              rw [if_pos rfl, if_pos hk] at hi
              injection hi with hi
              rw [← hi, h.blocks k _ hblk, hbytes.1]
              funext off
              simp only [Block.store, decodedBlock, hSdef]
              by_cases hoff : 0 ≤ off ∧
                  off < min (4194304 / (src.bytes_per_sample * src.channels))
                    (src.num_samples - ↑k * (4194304 / (src.bytes_per_sample * src.channels)))
                    * (src.bytes_per_sample * src.channels)
              · rw [if_pos hoff, if_pos ⟨Nat.lt_succ_self k, hoff⟩]
              · rw [if_neg hoff, if_neg (by omega), if_neg (by tauto)]
            · rw [if_neg hik] at hi
              rw [h.blocks i blk hi]
              funext off
              simp only [decodedBlock]
              by_cases hlt : i < k
              · have : i < k + 1 := by omega
                simp only [hlt, this, true_and]
              · have : ¬ i < k + 1 := by omega
                simp only [hlt, this, false_and]
          · left
            refine ⟨rfl, ?_⟩
            show p.calls ++ _ = _
            rw [decodeSchedule_succ, hcalls, hSdef]
        · rw [hstep]
        · rw [hstep]; exact hcan
  · left
    rw [decoderStep_of_finished hfin]
    refine ⟨h, rfl, rfl, rfl, Or.inl hfin, ?_⟩
    intro hr; rw [hfin] at hr; cases hr
  · left
    rw [decoderStep_of_terminated hterm]
    refine ⟨h, rfl, rfl, rfl, Or.inr hterm, ?_⟩
    intro hr; rw [hterm] at hr; cases hr

theorem Steps.preserves_decodedUpTo {src : AudioSource} {p0 p : RAMAudioProvider}
    (hF1 : 1 ≤ src.bytes_per_sample * src.channels)
    (hF2 : src.bytes_per_sample * src.channels ≤ 4194304)
    (hn : 0 ≤ src.num_samples) (hn64 : src.num_samples < 2 ^ 63)
    (hs : Steps p0 p) : ∀ k0, DecodedUpTo src p0 k0 → ∃ k, k0 ≤ k ∧ DecodedUpTo src p k := by
  induction hs with
  | refl => intro k0 h0; exact ⟨k0, le_refl _, h0⟩
  | step _ ih =>
    intro k0 h0
    obtain ⟨k, hk, h⟩ := ih k0 h0
    rcases h.step hF1 hF2 hn hn64 with ⟨h', _⟩ | ⟨h', _⟩
    · exact ⟨k, hk, h'⟩
    · exact ⟨k + 1, by omega, h'⟩
  | cancel _ ih =>
    intro k0 h0
    obtain ⟨k, hk, h⟩ := ih k0 h0
    exact ⟨k, hk, h.cancel⟩

theorem Reachable.exists_decodedUpTo {alloc : Nat → Bool} {src : AudioSource} {p : RAMAudioProvider}
    (hF1 : 1 ≤ src.bytes_per_sample * src.channels)
    (hF2 : src.bytes_per_sample * src.channels ≤ 4194304)
    (hn : 0 ≤ src.num_samples) (hn64 : src.num_samples < 2 ^ 63)
    (hr : Reachable alloc src p) : ∃ k, DecodedUpTo src p k := by
  obtain ⟨p0, hnew, hs⟩ := hr
  obtain ⟨k, _, h⟩ := hs.preserves_decodedUpTo hF1 hF2 hn hn64 0 (DecodedUpTo.init hn hnew)
  exact ⟨k, h⟩

theorem Steps.trans {p q r : RAMAudioProvider} (h1 : Steps p q) (h2 : Steps q r) : Steps p r := by
  induction h2 with
  | refl => exact h1
  | step _ ih => exact Steps.step ih
  | cancel _ ih => exact Steps.cancel ih

theorem decoderRun_succ (k : Nat) (p : RAMAudioProvider) :
    p.decoderRun (k + 1) = (p.decoderRun k).decoderStep := by
  induction k generalizing p with
  | zero => rfl
  | succ k ih =>
    show RAMAudioProvider.decoderRun (k + 1) p.decoderStep = _
    rw [ih]; rfl

theorem Steps.of_decoderRun (k : Nat) (p : RAMAudioProvider) : Steps p (p.decoderRun k) := by
  induction k with
  | zero => exact Steps.refl p
  | succ k ih => rw [decoderRun_succ]; exact Steps.step ih

/-- What the reader needs from a cache with its first `k` blocks decoded. -/
theorem DecodedUpTo.reader_facts {src : AudioSource} {p : RAMAudioProvider} {k : Nat}
    (hF1 : 1 ≤ src.bytes_per_sample * src.channels)
    (hF2 : src.bytes_per_sample * src.channels ≤ 4194304)
    (h : DecodedUpTo src p k) :
    (p.blockcache.length : Int) < 2 ^ 64 ∧
    (∀ s, 0 ≤ s → s < p.decoded_samples →
      s / (4194304 / (p.bytes_per_sample * p.channels)) < p.blockcache.length) ∧
    (∀ s j, 0 ≤ s → p.decoded_samples ≤ s → 0 ≤ j →
      j < p.bytes_per_sample * p.channels → p.cachedByte s j = 0) ∧
    (∀ s j, 0 ≤ s → s < p.decoded_samples → 0 ≤ j →
      j < p.bytes_per_sample * p.channels → p.cachedByte s j = src.sampleByte s j) := by
  have hF1' : 1 ≤ p.bytes_per_sample * p.channels := by
    rw [h.channels, h.bytes_per_sample]; exact hF1
  have hdec := h.decoded
  have hle := h.le
  have hblocks : ∀ (i : Nat) (blk : Block), p.blockcache[i]? = some blk → ∀ off, blk off =
      if i < k ∧ 0 ≤ off ∧ off < min (samplesPerBlock src.bytes_per_sample src.channels)
          (src.num_samples - (i : Int) * samplesPerBlock src.bytes_per_sample src.channels)
          * (src.bytes_per_sample * src.channels) then
        src.data ((i : Int) * samplesPerBlock src.bytes_per_sample src.channels
          * (src.bytes_per_sample * src.channels) + off)
      else 0 := by
    intro i blk hi off
    rw [h.blocks i blk hi]
    rfl
  have hcb : ∀ s j, p.cachedByte s j = _ := fun s j => cachedByte_eq p s j hF1'
  rw [h.channels, h.bytes_per_sample]
  rw [h.channels, h.bytes_per_sample] at hcb
  have hlen : (p.blockcache.length : Int) < 2 ^ 64 := by rw [h.length]; exact blockCount_lt
  unfold AudioSource.sampleByte
  rw [samplesPerBlock_eq hF1] at hdec hblocks
  have hS1 := spb_pos hF1 hF2
  generalize src.bytes_per_sample * src.channels = F at *
  generalize (4194304 : Int) / F = S at *
  have key : ∀ s, 0 ≤ s → s < p.decoded_samples → s / S < k := by
    intro s _ hs
    apply Int.ediv_lt_of_lt_mul (by omega)
    have := min_le_left ((k : Int) * S) src.num_samples
    omega
  refine ⟨hlen, ?_, ?_, ?_⟩
  · intro s hs0 hs
    have := key s hs0 hs
    omega
  · intro s j hs0 hs hj0 hj
    rw [hcb]
    split
    · rename_i blk hblk
      rw [hblocks _ _ hblk]
      rw [if_neg]
      rintro ⟨hi, _, hoff⟩
      have hq0 : 0 ≤ s / S := Int.ediv_nonneg hs0 (by omega)
      have hi' : s / S < k := by omega
      have hdm := Int.emod_add_ediv s S
      have hr0 := Int.emod_nonneg s (show S ≠ 0 by omega)
      have hrS := Int.emod_lt_of_pos s (show 0 < S by omega)
      have hcast : ((s / S).toNat : Int) = s / S := Int.toNat_of_nonneg hq0
      rw [hcast] at hoff
      -- the sample lies in a block below `k`, so the watermark is the end of the stream
      have hqS : (s / S + 1) * S ≤ k * S := Int.mul_le_mul_of_nonneg_right (by omega) (by omega)
      have hexp : (s / S + 1) * S = S * (s / S) + S := by ring
      have hsn : src.num_samples ≤ s := by
        rcases le_total ((k : Int) * S) src.num_samples with hc | hc
        · rw [min_eq_left hc] at hdec; omega
        · rw [min_eq_right hc] at hdec; omega
      have hmin : min S (src.num_samples - s / S * S) ≤ s % S := by
        have := min_le_right S (src.num_samples - s / S * S)
        have e : s / S * S = S * (s / S) := by ring
        omega
      have h1 : min S (src.num_samples - s / S * S) * F ≤ s % S * F :=
        Int.mul_le_mul_of_nonneg_right hmin (by omega)
      omega
    · rfl
  · intro s j hs0 hs hj0 hj
    rw [hcb]
    have hq0 : 0 ≤ s / S := Int.ediv_nonneg hs0 (by omega)
    have hi := key s hs0 hs
    have hcast : ((s / S).toNat : Int) = s / S := Int.toNat_of_nonneg hq0
    have hlt : (s / S).toNat < p.blockcache.length := by omega
    rw [List.getElem?_eq_getElem hlt]
    simp only []
    rw [hblocks _ _ (List.getElem?_eq_getElem hlt), hcast]
    have hdm := Int.emod_add_ediv s S
    have hr0 := Int.emod_nonneg s (show S ≠ 0 by omega)
    have hrS := Int.emod_lt_of_pos s (show 0 < S by omega)
    have hsn : s < src.num_samples := by
      have := min_le_right ((k : Int) * S) src.num_samples
      omega
    have hmin : s % S + 1 ≤ min S (src.num_samples - s / S * S) := by
      have e : s / S * S = S * (s / S) := by ring
      exact le_min (by omega) (by omega)
    have h1 : (s % S + 1) * F ≤ min S (src.num_samples - s / S * S) * F :=
      Int.mul_le_mul_of_nonneg_right hmin (by omega)
    have h2 : (s % S + 1) * F = s % S * F + F := by ring
    have h3 : 0 ≤ s % S * F := Int.mul_nonneg hr0 (by omega)
    rw [if_pos ⟨by omega, by omega, by omega⟩]
    congr 1
    have e : s / S * S * F + (s % S * F + j) = (s % S + S * (s / S)) * F + j := by ring
    rw [e, hdm]

/-- With a source that never throws and no cancellation, `k` iterations of the
decoder thread decode exactly the first `k` blocks, for every `k` up to the
number of blocks. -/
theorem decoderRun_decodedUpTo (alloc : Nat → Bool) (src : AudioSource) (p0 : RAMAudioProvider)
    (hF1 : 1 ≤ src.bytes_per_sample * src.channels)
    (hF2 : src.bytes_per_sample * src.channels ≤ 4194304)
    (hn : 0 ≤ src.num_samples) (hn64 : src.num_samples < 2 ^ 63)
    (hok : ∀ a b, src.fails a b = false)
    (hnew : RAMAudioProvider.new alloc src = .ok p0) (k : Nat)
    (hk : k ≤ blockCount src.num_samples src.bytes_per_sample src.channels) :
    DecodedUpTo src (p0.decoderRun k) k ∧ (p0.decoderRun k).decoder = .running k ∧
      (p0.decoderRun k).cancelled = false := by
  induction k with
  | zero =>
    have h0 := DecodedUpTo.init hn hnew
    refine ⟨h0, ?_, ?_⟩
    · unfold RAMAudioProvider.new at hnew
      simp only [] at hnew
      split at hnew
      · injection hnew with hp; subst hp; rfl
      · cases hnew
    · unfold RAMAudioProvider.new at hnew
      simp only [] at hnew
      split at hnew
      · injection hnew with hp; subst hp; rfl
      · cases hnew
  | succ k ih =>
    obtain ⟨hd, hrun, hcan⟩ := ih (by omega)
    rw [decoderRun_succ]
    have hlt : k < (p0.decoderRun k).blockcache.length := by rw [hd.length]; omega
    rcases hd.step hF1 hF2 hn hn64 with ⟨_, _, _, _, _, hf⟩ | ⟨hd', _, _, _, hrun', hcan', _⟩
    · have := (hf hrun hlt hcan).2
      rw [hok] at this
      cases this
    · exact ⟨hd', hrun', hcan'⟩

/-- The reader on a cache with its first `k` blocks decoded: `FillBuffer` returns
within `count + 1` iterations and leaves exactly the buffer `readSpec` describes. -/
theorem DecodedUpTo.fillBuffer {src : AudioSource} {p : RAMAudioProvider} {k : Nat}
    (hF1 : 1 ≤ src.bytes_per_sample * src.channels)
    (hF2 : src.bytes_per_sample * src.channels ≤ 4194304)
    (h : DecodedUpTo src p k) (buf : Buffer) (start count : Int)
    (hstart : 0 ≤ start) (hcount : 0 ≤ count)
    (hsmall : count * (src.bytes_per_sample * src.channels) < 2 ^ 31)
    (fuel : Nat) (hfuel : count.toNat < fuel) :
    p.FillBuffer fuel buf start count =
      .ok (p.readSpec buf 0 start (count * (src.bytes_per_sample * src.channels))) := by
  obtain ⟨hlen, havail, hzero, _⟩ := h.reader_facts hF1 hF2
  have hF1' : 1 ≤ p.bytes_per_sample * p.channels := by
    rw [h.channels, h.bytes_per_sample]; exact hF1
  have hF2' : p.bytes_per_sample * p.channels ≤ 4194304 := by
    rw [h.channels, h.bytes_per_sample]; exact hF2
  unfold RAMAudioProvider.FillBuffer
  have e : count * p.bytes_per_sample * p.channels = count * (p.bytes_per_sample * p.channels) := by
    ring
  rw [fillLoop_spec p hF1' hF2' hlen havail hzero fuel _ count hstart hcount e
    (by rw [h.channels, h.bytes_per_sample]; exact hsmall) hfuel]
  show Result.ok (p.readSpec buf 0 start (count * p.bytes_per_sample * p.channels)) = _
  rw [e, h.channels, h.bytes_per_sample]

theorem stereoProvider_new : RAMAudioProvider.new allocAlways stereoSource = .ok stereoProvider := by
  rfl


theorem readSpec_data_sample (p : RAMAudioProvider) (buf : Buffer) (start count s j : Int)
    (hF1 : 1 ≤ p.bytes_per_sample * p.channels)
    (hs1 : start ≤ s) (hs2 : s < start + count) (hj0 : 0 ≤ j)
    (hj : j < p.bytes_per_sample * p.channels) :
    (p.readSpec buf 0 start (count * (p.bytes_per_sample * p.channels))).data
        ((s - start) * (p.bytes_per_sample * p.channels) + j) =
      if s < p.decoded_samples then p.cachedByte s j else 0 := by
  simp only [RAMAudioProvider.readSpec]
  generalize p.bytes_per_sample * p.channels = F at *
  have h1 : 0 ≤ (s - start) * F := Int.mul_nonneg (by omega) (by omega)
  have h2 : (s - start + 1) * F ≤ count * F := Int.mul_le_mul_of_nonneg_right (by omega) (by omega)
  have h3 : (s - start + 1) * F = (s - start) * F + F := by ring
  have hq := (Int.ediv_emod_unique (a := (s - start) * F + j - 0) (b := F) (r := j)
    (q := s - start) (by omega)).mpr ⟨by ring, hj0, hj⟩
  rw [if_pos ⟨by omega, by omega⟩, hq.1, hq.2]
  have e : start + (s - start) = s := by ring
  rw [e]


/-- C1: transparency of `FillBuffer`.  Let the frame size
`bytes_per_sample * channels` lie in `1 .. 2^22` and let the cache be in the state
the decoder thread reaches by completing `k` blocks over the zero-initialised
blocks of the constructor (`0 ≤ k ≤ blockCount`).  For every `start ≥ 0`,
`count ≥ 0` with `start + count ≤ num_samples` and `count * frame < 2^31`,
`FillBuffer` returns, and for every requested sample `s` below `decoded_samples`
each of the bytes written for `s` is the byte the source yields for `s` in a
direct decode, also when the request spans several blocks. -/
theorem FillBuffer_transparent (alloc : Nat → Bool) (src : AudioSource) (p0 : RAMAudioProvider)
    (k : Nat)
    (hF1 : 1 ≤ src.bytes_per_sample * src.channels)
    (hF2 : src.bytes_per_sample * src.channels ≤ 2 ^ 22)
    (hn : 0 ≤ src.num_samples) (hn64 : src.num_samples < 2 ^ 63)
    (hok : ∀ a b, src.fails a b = false)
    (hnew : RAMAudioProvider.new alloc src = .ok p0)
    (hk : k ≤ blockCount src.num_samples src.bytes_per_sample src.channels)
    (buf : Buffer) (start count : Int) (hstart : 0 ≤ start) (hcount : 0 ≤ count)
    (_hend : start + count ≤ src.num_samples)
    (hsmall : count * (src.bytes_per_sample * src.channels) < 2 ^ 31) :
    ∃ out : Buffer,
      (∀ fuel : Nat, count.toNat < fuel →
        (p0.decoderRun k).FillBuffer fuel buf start count = .ok out) ∧
      ∀ s j : Int, start ≤ s → s < start + count → s < (p0.decoderRun k).decoded_samples →
        0 ≤ j → j < src.bytes_per_sample * src.channels →
        out.data ((s - start) * (src.bytes_per_sample * src.channels) + j) =
          src.sampleByte s j := by
  have hF2' : src.bytes_per_sample * src.channels ≤ 4194304 := by norm_num at hF2; exact hF2
  obtain ⟨hd, _, _⟩ := decoderRun_decodedUpTo alloc src p0 hF1 hF2' hn hn64 hok hnew k hk
  refine ⟨_, fun fuel hfuel =>
    hd.fillBuffer hF1 hF2' buf start count hstart hcount hsmall fuel hfuel, ?_⟩
  intro s j hs1 hs2 hsd hj0 hj
  obtain ⟨_, _, _, hdata⟩ := hd.reader_facts hF1 hF2'
  have hspec := readSpec_data_sample (p0.decoderRun k) buf start count s j
    (by rw [hd.channels, hd.bytes_per_sample]; exact hF1) hs1 hs2 hj0
    (by rw [hd.channels, hd.bytes_per_sample]; exact hj)
  rw [hd.channels, hd.bytes_per_sample] at hspec hdata
  rw [hspec, if_pos hsd]
  exact hdata s j (by omega) hsd hj0 hj

/-- Instance of C1: the 16-bit stereo stream after one decoded block, a read of 200
samples that crosses the end of block 0. -/
theorem FillBuffer_transparent_witness :
    ∃ out : Buffer,
      (∀ fuel : Nat, (200 : Int).toNat < fuel →
        (stereoProvider.decoderRun 1).FillBuffer fuel (Buffer.fresh fun _ => 7) 1048500 200
          = .ok out) ∧
      ∀ s j : Int, 1048500 ≤ s → s < 1048500 + 200 →
        s < (stereoProvider.decoderRun 1).decoded_samples →
        0 ≤ j → j < stereoSource.bytes_per_sample * stereoSource.channels →
        out.data ((s - 1048500) * (stereoSource.bytes_per_sample * stereoSource.channels) + j) =
          stereoSource.sampleByte s j :=
  FillBuffer_transparent allocAlways stereoSource stereoProvider 1 (by decide) (by decide)
    (by decide) (by decide) (fun _ _ => rfl) rfl (by decide) (Buffer.fresh fun _ => 7)
    1048500 200 (by decide) (by decide) (by decide) (by decide)

/-- C2: zero-fill beyond the watermark.  In the same states and for the same
requests as C1, every output byte of `FillBuffer` whose sample is at or above
`decoded_samples` is 0; sample by sample, the output is the source's data below
`decoded_samples` and zero from exactly `decoded_samples` on. -/
theorem FillBuffer_zero_beyond_watermark (alloc : Nat → Bool) (src : AudioSource)
    (p0 : RAMAudioProvider) (k : Nat)
    (hF1 : 1 ≤ src.bytes_per_sample * src.channels)
    (hF2 : src.bytes_per_sample * src.channels ≤ 2 ^ 22)
    (hn : 0 ≤ src.num_samples) (hn64 : src.num_samples < 2 ^ 63)
    (hok : ∀ a b, src.fails a b = false)
    (hnew : RAMAudioProvider.new alloc src = .ok p0)
    (hk : k ≤ blockCount src.num_samples src.bytes_per_sample src.channels)
    (buf : Buffer) (start count : Int) (hstart : 0 ≤ start) (hcount : 0 ≤ count)
    (_hend : start + count ≤ src.num_samples)
    (hsmall : count * (src.bytes_per_sample * src.channels) < 2 ^ 31) :
    ∃ out : Buffer,
      (∀ fuel : Nat, count.toNat < fuel →
        (p0.decoderRun k).FillBuffer fuel buf start count = .ok out) ∧
      (∀ x : Int, 0 ≤ x → x < count * (src.bytes_per_sample * src.channels) →
        (p0.decoderRun k).decoded_samples ≤ start + x / (src.bytes_per_sample * src.channels) →
        out.data x = 0) ∧
      ∀ s j : Int, start ≤ s → s < start + count →
        0 ≤ j → j < src.bytes_per_sample * src.channels →
        out.data ((s - start) * (src.bytes_per_sample * src.channels) + j) =
          if s < (p0.decoderRun k).decoded_samples then src.sampleByte s j else 0 := by
  have hF2' : src.bytes_per_sample * src.channels ≤ 4194304 := by norm_num at hF2; exact hF2
  obtain ⟨hd, _, _⟩ := decoderRun_decodedUpTo alloc src p0 hF1 hF2' hn hn64 hok hnew k hk
  refine ⟨_, fun fuel hfuel =>
    hd.fillBuffer hF1 hF2' buf start count hstart hcount hsmall fuel hfuel, ?_, ?_⟩
  · intro x hx0 hx hdx
    simp only [RAMAudioProvider.readSpec, hd.channels, hd.bytes_per_sample, sub_zero]
    rw [if_pos ⟨hx0, by omega⟩, if_neg (by omega)]
  · intro s j hs1 hs2 hj0 hj
    obtain ⟨_, _, _, hdata⟩ := hd.reader_facts hF1 hF2'
    have hspec := readSpec_data_sample (p0.decoderRun k) buf start count s j
      (by rw [hd.channels, hd.bytes_per_sample]; exact hF1) hs1 hs2 hj0
      (by rw [hd.channels, hd.bytes_per_sample]; exact hj)
    rw [hd.channels, hd.bytes_per_sample] at hspec hdata
    rw [hspec]
    split
    · rename_i hsd
      exact hdata s j (by omega) hsd hj0 hj
    · rfl

/-- Instance of C2: the 16-bit stereo stream after one decoded block, a read that
straddles the watermark. -/
theorem FillBuffer_zero_beyond_watermark_witness :
    ∃ out : Buffer,
      (∀ fuel : Nat, (100 : Int).toNat < fuel →
        (stereoProvider.decoderRun 1).FillBuffer fuel (Buffer.fresh fun _ => 9) 1048570 100
          = .ok out) ∧
      (∀ x : Int, 0 ≤ x → x < 100 * (stereoSource.bytes_per_sample * stereoSource.channels) →
        (stereoProvider.decoderRun 1).decoded_samples ≤
          1048570 + x / (stereoSource.bytes_per_sample * stereoSource.channels) →
        out.data x = 0) ∧
      ∀ s j : Int, 1048570 ≤ s → s < 1048570 + 100 →
        0 ≤ j → j < stereoSource.bytes_per_sample * stereoSource.channels →
        out.data ((s - 1048570) * (stereoSource.bytes_per_sample * stereoSource.channels) + j) =
          if s < (stereoProvider.decoderRun 1).decoded_samples then stereoSource.sampleByte s j
          else 0 :=
  FillBuffer_zero_beyond_watermark allocAlways stereoSource stereoProvider 1 (by decide)
    (by decide) (by decide) (by decide) (fun _ _ => rfl) rfl (by decide)
    (Buffer.fresh fun _ => 9) 1048570 100 (by decide) (by decide) (by decide) (by decide)

/-- For requests of less than `2^31` bytes the reader stores to each byte of the
requested range exactly once and to no other byte. -/
theorem DecodedUpTo.fillBuffer_writes_once {src : AudioSource} {p : RAMAudioProvider} {k : Nat}
    (hF1 : 1 ≤ src.bytes_per_sample * src.channels)
    (hF2 : src.bytes_per_sample * src.channels ≤ 4194304)
    (h : DecodedUpTo src p k) (buf : Buffer) (start count : Int)
    (hstart : 0 ≤ start) (hcount : 0 ≤ count)
    (hsmall : count * (src.bytes_per_sample * src.channels) < 2 ^ 31)
    (fuel : Nat) (hfuel : count.toNat < fuel) :
    ∃ out : Buffer, p.FillBuffer fuel buf start count = .ok out ∧
      ∀ x : Int, out.writes x =
        if 0 ≤ x ∧ x < count * (src.bytes_per_sample * src.channels) then buf.writes x + 1
        else buf.writes x := by
  refine ⟨_, h.fillBuffer hF1 hF2 buf start count hstart hcount hsmall fuel hfuel, ?_⟩
  intro x
  simp only [RAMAudioProvider.readSpec, zero_add]

/-- When the frame size divides the block size, the decoder thread does decode the
whole stream: after `blockCount` iterations the watermark is `num_samples`. -/
theorem decoderRun_all_of_dvd (alloc : Nat → Bool) (src : AudioSource) (p0 : RAMAudioProvider)
    (hF1 : 1 ≤ src.bytes_per_sample * src.channels)
    (hF2 : src.bytes_per_sample * src.channels ≤ 4194304)
    (hn : 0 ≤ src.num_samples) (hn64 : src.num_samples < 2 ^ 63)
    (hok : ∀ a b, src.fails a b = false)
    (hnew : RAMAudioProvider.new alloc src = .ok p0)
    (hdvd : 4194304 / (src.bytes_per_sample * src.channels)
      * (src.bytes_per_sample * src.channels) = 4194304) :
    (p0.decoderRun (blockCount src.num_samples src.bytes_per_sample src.channels)).decoded_samples
      = src.num_samples := by
  obtain ⟨hd, _, _⟩ := decoderRun_decodedUpTo alloc src p0 hF1 hF2 hn hn64 hok hnew
    (blockCount src.num_samples src.bytes_per_sample src.channels) (le_refl _)
  rw [hd.decoded, samplesPerBlock_eq hF1]
  have hB := blockCount_eq hF1 hF2 hn hn64
  generalize (blockCount src.num_samples src.bytes_per_sample src.channels : Int) = B at *
  generalize src.bytes_per_sample * src.channels = F at *
  generalize (4194304 : Int) / F = S at *
  apply min_eq_right
  have h1 : src.num_samples * F ≤ B * 4194304 := by omega
  have h2 : B * S * F = B * 4194304 := by rw [mul_assoc, hdvd]
  have h3 : src.num_samples * F ≤ B * S * F := by omega
  exact le_of_mul_le_mul_right h3 (by omega)

theorem longProvider_new : RAMAudioProvider.new allocAlways longSource = .ok longProvider := by
  rfl

/-- A read of `2^32` bytes from a decoded position makes no progress: `read_size`
is computed from `bytes_remaining` narrowed to `int`, which is 0. -/
theorem fillLoop_stuck (p : RAMAudioProvider) (blk : Block) (hb : p.bytes_per_sample = 2)
    (hc : p.channels = 2) (hd : 0 < p.decoded_samples) (hblk : p.blockcache[0]? = some blk) :
    ∀ (fuel : Nat) (buf : Buffer),
      p.fillLoop fuel { buf := buf, charbuf := 0, bytes_remaining := 4294967296, start := 0 }
        = .timeout := by
  intro fuel
  induction fuel with
  | zero => intro buf; rfl
  | succ fuel ih =>
    intro buf
    rw [RAMAudioProvider.fillLoop, RAMAudioProvider.fillIter]
    have hS : samplesPerBlock 2 2 = 1048576 := by decide
    have h1 : toInt32 4294967296 = 0 := by decide
    have h2 : toUInt64 (Int.tdiv 0 1048576) = 0 := by decide
    have h3 : toInt32 (Int.tmod 0 1048576 * 2 * 2) = 0 := by decide
    have h4 : min (0 : Int) (toInt32 (1048576 * 2 * 2 - 0)) = 0 := by decide
    simp only [hb, hc, hS, h1, h2, h3, h4, Int.toNat_zero, hblk]
    rw [if_neg (by decide), if_neg (by omega), if_neg (by decide), if_neg (by decide),
      if_neg (by decide)]
    have h5 : (0 : Int) + (Int.tdiv 0 2).tdiv 2 = 0 := by decide
    simp only [h5, add_zero, sub_zero]
    exact ih _



/-- C3 (failing input): on the 4 GiB stereo stream with one block decoded, a read of
all `2^30` samples from sample 0 (in range: `0 + 2^30 ≤ num_samples`) never
returns.  `bytes_remaining` is `2^32`, `std::min<int>` narrows it to 0, so every
iteration copies 0 bytes and leaves `bytes_remaining` and `start` as they were:
the loop reaches any bound on its iterations. -/
theorem FillBuffer_large_request_never_returns :
    RAMAudioProvider.new allocAlways longSource = .ok longProvider ∧
    (0 : Int) + 1073741824 ≤ longSource.num_samples ∧
    ∀ (fuel : Nat) (buf : Buffer),
      (longProvider.decoderRun 1).FillBuffer fuel buf 0 1073741824 = .timeout := by
  refine ⟨rfl, by decide, ?_⟩
  have hd := (decoderRun_decodedUpTo allocAlways longSource longProvider (by decide) (by decide) (by decide) (by decide) (fun _ _ => rfl)
    rfl 1 (by decide)).1
  have hdec : 0 < (longProvider.decoderRun 1).decoded_samples := by
    rw [hd.decoded]; decide
  have hlen : 0 < (longProvider.decoderRun 1).blockcache.length := by
    rw [hd.length]; decide
  have hb : (longProvider.decoderRun 1).bytes_per_sample = 2 := hd.bytes_per_sample
  have hc : (longProvider.decoderRun 1).channels = 2 := hd.channels
  intro fuel buf
  generalize longProvider.decoderRun 1 = p at *
  unfold RAMAudioProvider.FillBuffer
  rw [hb, hc]
  exact fillLoop_stuck p _ hb hc hdec (List.getElem?_eq_getElem hlen) fuel buf

/-- C4 as stated, refuted: on the 16-bit stereo stream of 2000000 samples, with
block 0 complete and block 1 not started (`decoded_samples = 1048576`),
`FillBuffer(buf, 1048500, 200)` stores 0 at byte 304, which is the first byte of
sample 1048576, the 77th of the 100 samples the claim says are real data; the
source's byte there is not 0. -/
theorem literal_example_refuted :
    RAMAudioProvider.new allocAlways stereoSource = .ok stereoProvider ∧
    (stereoProvider.decoderRun 1).decoded_samples = 1048576 ∧
    (stereoProvider.decoderRun 1).decoder = .running 1 ∧
    ∃ out : Buffer,
      (stereoProvider.decoderRun 1).FillBuffer 201 (Buffer.fresh fun _ => 0) 1048500 200
        = .ok out ∧
      out.data ((1048576 - 1048500) * 4 + 0) = 0 ∧
      stereoSource.sampleByte 1048576 0 ≠ 0 := by
  refine ⟨rfl, by decide, by decide, ?_⟩
  have hd := (decoderRun_decodedUpTo allocAlways stereoSource stereoProvider (by decide)
    (by decide) (by decide) (by decide) (fun _ _ => rfl) rfl 1 (by decide)).1
  refine ⟨_, hd.fillBuffer (by decide) (by decide) _ 1048500 200 (by decide) (by decide)
    (by decide) 201 (by decide), ?_, by decide⟩
  have hspec := readSpec_data_sample (stereoProvider.decoderRun 1) (Buffer.fresh fun _ => 0)
    1048500 200 1048576 0 (by decide) (by decide) (by decide) (by decide) (by decide)
  have hb : (stereoProvider.decoderRun 1).bytes_per_sample = 2 := hd.bytes_per_sample
  have hc : (stereoProvider.decoderRun 1).channels = 2 := hd.channels
  have hdec : (stereoProvider.decoderRun 1).decoded_samples = 1048576 := by decide
  rw [hb, hc, hdec] at hspec
  have e1 : stereoSource.bytes_per_sample * stereoSource.channels = 4 := by decide
  rw [e1]
  have e2 : ((2 : Int) * 2) = 4 := by decide
  rw [e2] at hspec
  rw [hspec]
  decide

/-- C4, amended: for every 16-bit stereo source of 2000000 samples whose decode does
not throw, once block 0 is complete and block 1 not started the watermark is
1048576, and `FillBuffer(buf, 1048500, 200)` returns the source's data for the 76
samples 1048500..1048575 (304 bytes) followed by 124 samples (496 bytes) of
zero. -/
theorem literal_example_amended (alloc : Nat → Bool) (src : AudioSource) (p0 : RAMAudioProvider)
    (hbps : src.bytes_per_sample = 2) (hch : src.channels = 2)
    (hnum : src.num_samples = 2000000) (hok : ∀ a b, src.fails a b = false)
    (hnew : RAMAudioProvider.new alloc src = .ok p0) (buf : Buffer) :
    (p0.decoderRun 1).decoded_samples = 1048576 ∧
    (p0.decoderRun 1).decoder = .running 1 ∧
    ∃ out : Buffer,
      (∀ fuel : Nat, 200 < fuel → (p0.decoderRun 1).FillBuffer fuel buf 1048500 200 = .ok out) ∧
      (∀ s j : Int, 1048500 ≤ s → s < 1048576 → 0 ≤ j → j < 4 →
        out.data ((s - 1048500) * 4 + j) = src.sampleByte s j) ∧
      (∀ x : Int, 304 ≤ x → x < 800 → out.data x = 0) ∧
      (∀ x : Int, x < 0 ∨ 800 ≤ x → out.data x = buf.data x) := by
  have hF : src.bytes_per_sample * src.channels = 4 := by rw [hbps, hch]; decide
  have hF1 : 1 ≤ src.bytes_per_sample * src.channels := by rw [hF]; decide
  have hF2 : src.bytes_per_sample * src.channels ≤ 4194304 := by rw [hF]; decide
  obtain ⟨hd, hrun, _⟩ := decoderRun_decodedUpTo alloc src p0 hF1 hF2 (by rw [hnum]; decide)
    (by rw [hnum]; decide) hok hnew 1 (by rw [hnum, hbps, hch]; decide)
  have hdec : (p0.decoderRun 1).decoded_samples = 1048576 := by
    rw [hd.decoded, hnum, hbps, hch]; decide
  refine ⟨hdec, hrun, _, fun fuel hfuel => hd.fillBuffer hF1 hF2 buf 1048500 200 (by decide)
    (by decide) (by rw [hF]; decide) fuel (by simpa using hfuel), ?_, ?_, ?_⟩
  · intro s j hs1 hs2 hj0 hj
    obtain ⟨_, _, _, hdata⟩ := hd.reader_facts hF1 hF2
    have hspec := readSpec_data_sample (p0.decoderRun 1) buf 1048500 200 s j
      (by rw [hd.channels, hd.bytes_per_sample]; exact hF1) hs1 (by omega) hj0
      (by rw [hd.channels, hd.bytes_per_sample, hF]; exact hj)
    rw [hd.channels, hd.bytes_per_sample, hF] at hspec hdata
    rw [hF, hspec, hdec, if_pos hs2]
    exact hdata s j (by omega) (by omega) hj0 hj
  · intro x hx1 hx2
    simp only [RAMAudioProvider.readSpec, hd.channels, hd.bytes_per_sample, hF, sub_zero, hdec]
    rw [if_pos ⟨by omega, by omega⟩, if_neg (by omega)]
  · intro x hx
    simp only [RAMAudioProvider.readSpec, hd.channels, hd.bytes_per_sample, hF, sub_zero]
    rw [if_neg (by omega)]

/-- Instance of the amended C4 on the stream `stereoSource`. -/
theorem literal_example_amended_witness :
    (stereoProvider.decoderRun 1).decoded_samples = 1048576 ∧
    (stereoProvider.decoderRun 1).decoder = .running 1 ∧
    ∃ out : Buffer,
      (∀ fuel : Nat, 200 < fuel →
        (stereoProvider.decoderRun 1).FillBuffer fuel (Buffer.fresh fun _ => 5) 1048500 200
          = .ok out) ∧
      (∀ s j : Int, 1048500 ≤ s → s < 1048576 → 0 ≤ j → j < 4 →
        out.data ((s - 1048500) * 4 + j) = stereoSource.sampleByte s j) ∧
      (∀ x : Int, 304 ≤ x → x < 800 → out.data x = 0) ∧
      (∀ x : Int, x < 0 ∨ 800 ≤ x → out.data x = (Buffer.fresh fun _ => 5).data x) :=
  literal_example_amended allocAlways stereoSource stereoProvider rfl rfl rfl (fun _ _ => rfl)
    rfl (Buffer.fresh fun _ => 5)

theorem decoderRun_of_finished {p : RAMAudioProvider} (h : p.decoder = .finished) (m : Nat) :
    p.decoderRun m = p := by
  induction m with
  | zero => rfl
  | succ m ih => rw [decoderRun_succ, ih, decoderStep_of_finished h]

theorem decoderRun_of_terminated {p : RAMAudioProvider} (h : p.decoder = .terminated) (m : Nat) :
    p.decoderRun m = p := by
  induction m with
  | zero => rfl
  | succ m ih => rw [decoderRun_succ, ih, decoderStep_of_terminated h]

/-- C5 (failing input): a 24-bit mono stream of `2^22` samples.  The constructor
allocates `(4194304 * 3 + 4194303) >> 22 = 3` blocks, but a block holds only
`4194304 / 3 = 1398101` samples, so the three iterations decode `4194303` samples
and the thread returns: `decoded_samples` stays one short of `num_samples`
whatever happens later, and a read of the last sample, which is in range, yields
zeros where the source has data. -/
theorem decoder_stops_short_of_stream :
    RAMAudioProvider.new allocAlways mono24Source = .ok mono24Provider ∧
    (mono24Provider.decoderRun 3).decoder = .running 3 ∧
    (mono24Provider.decoderRun 3).calls =
      [(0, 1398101), (1398101, 1398101), (2796202, 1398101)] ∧
    (mono24Provider.decoderRun 4).decoder = .finished ∧
    (∀ m : Nat, ((mono24Provider.decoderRun 4).decoderRun m).decoded_samples = 4194303) ∧
    mono24Source.num_samples = 4194304 ∧
    (∃ out : Buffer,
      (mono24Provider.decoderRun 4).FillBuffer 2 (Buffer.fresh fun _ => 7) 4194303 1 = .ok out ∧
      out.data 0 = 0) ∧
    mono24Source.sampleByte 4194303 0 ≠ 0 := by
  refine ⟨rfl, by decide, by decide, by decide, ?_, rfl, ⟨_, rfl, by decide⟩, by decide⟩
  intro m
  rw [decoderRun_of_finished (by decide)]
  decide

theorem DecodedUpTo.decoded_bounds {src : AudioSource} {p : RAMAudioProvider} {k : Nat}
    (hF1 : 1 ≤ src.bytes_per_sample * src.channels)
    (hF2 : src.bytes_per_sample * src.channels ≤ 4194304)
    (hn : 0 ≤ src.num_samples) (h : DecodedUpTo src p k) :
    0 ≤ p.decoded_samples ∧ p.decoded_samples ≤ src.num_samples := by
  rw [h.decoded, samplesPerBlock_eq hF1]
  have hS1 := spb_pos hF1 hF2
  have : 0 ≤ (k : Int) * (4194304 / (src.bytes_per_sample * src.channels)) :=
    Int.mul_nonneg (by omega) (by omega)
  exact ⟨le_min this hn, min_le_right _ _⟩

theorem DecodedUpTo.decoded_mono {src : AudioSource} {p q : RAMAudioProvider} {k l : Nat}
    (hF1 : 1 ≤ src.bytes_per_sample * src.channels)
    (hF2 : src.bytes_per_sample * src.channels ≤ 4194304)
    (hp : DecodedUpTo src p k) (hq : DecodedUpTo src q l) (hkl : k ≤ l) :
    p.decoded_samples ≤ q.decoded_samples := by
  rw [hp.decoded, hq.decoded, samplesPerBlock_eq hF1]
  have hS1 := spb_pos hF1 hF2
  have : (k : Int) * (4194304 / (src.bytes_per_sample * src.channels))
      ≤ l * (4194304 / (src.bytes_per_sample * src.channels)) :=
    Int.mul_le_mul_of_nonneg_right (by exact_mod_cast hkl) (by omega)
  exact min_le_min this (le_refl _)

/-- C6: the progress counter.  For every stream with `num_samples ≥ 0` and frame
size in `1 .. 2^22`, in every state reachable from the constructor by iterations
of the decoder thread and cancellation requests, `0 ≤ decoded_samples ≤
num_samples`; an iteration of the decoder thread never decreases
`decoded_samples`, and a cancellation request leaves it as it is.  (`FillBuffer`
is a `const` method: it takes the provider read-only and yields only the buffer,
so no call of it changes `decoded_samples`.) -/
theorem decoded_samples_invariant (alloc : Nat → Bool) (src : AudioSource)
    (p : RAMAudioProvider)
    (hF1 : 1 ≤ src.bytes_per_sample * src.channels)
    (hF2 : src.bytes_per_sample * src.channels ≤ 2 ^ 22)
    (hn : 0 ≤ src.num_samples) (hn64 : src.num_samples < 2 ^ 63)
    (hr : Reachable alloc src p) :
    0 ≤ p.decoded_samples ∧ p.decoded_samples ≤ src.num_samples ∧
      p.decoded_samples ≤ p.decoderStep.decoded_samples ∧
      p.decoderStep.decoded_samples ≤ src.num_samples ∧
      p.cancel.decoded_samples = p.decoded_samples := by
  have hF2' : src.bytes_per_sample * src.channels ≤ 4194304 := by norm_num at hF2; exact hF2
  obtain ⟨k, hd⟩ := hr.exists_decodedUpTo hF1 hF2' hn hn64
  obtain ⟨h0, h1⟩ := hd.decoded_bounds hF1 hF2' hn
  refine ⟨h0, h1, ?_, ?_, rfl⟩
  · rcases hd.step hF1 hF2' hn hn64 with ⟨_, _, he, _⟩ | ⟨hd', _⟩
    · rw [he]
    · exact hd.decoded_mono hF1 hF2' hd' (by omega)
  · rcases hd.step hF1 hF2' hn hn64 with ⟨hd', _⟩ | ⟨hd', _⟩
    · exact (hd'.decoded_bounds hF1 hF2' hn).2
    · exact (hd'.decoded_bounds hF1 hF2' hn).2

/-- Instance of C6: the stereo stream after one iteration of the decoder thread. -/
theorem decoded_samples_invariant_witness :
    0 ≤ (stereoProvider.decoderRun 1).decoded_samples ∧
      (stereoProvider.decoderRun 1).decoded_samples ≤ stereoSource.num_samples ∧
      (stereoProvider.decoderRun 1).decoded_samples
        ≤ (stereoProvider.decoderRun 1).decoderStep.decoded_samples ∧
      (stereoProvider.decoderRun 1).decoderStep.decoded_samples ≤ stereoSource.num_samples ∧
      (stereoProvider.decoderRun 1).cancel.decoded_samples
        = (stereoProvider.decoderRun 1).decoded_samples :=
  decoded_samples_invariant allocAlways stereoSource (stereoProvider.decoderRun 1) (by decide)
    (by decide) (by decide) (by decide) ⟨stereoProvider, rfl, Steps.of_decoderRun 1 _⟩

/-- C7: repeated reads are stable.  For every request with `start ≥ 0`, `count ≥ 0`
and `count * frame < 2^31`, every reachable state `s1` whose watermark has passed
`start + count`, and every state `s2` reached from `s1` by further iterations of
the decoder thread (and cancellation requests), `FillBuffer(start, count)`
returns in both states and leaves the same buffer, byte for byte. -/
theorem FillBuffer_stable (alloc : Nat → Bool) (src : AudioSource) (s1 s2 : RAMAudioProvider)
    (hF1 : 1 ≤ src.bytes_per_sample * src.channels)
    (hF2 : src.bytes_per_sample * src.channels ≤ 2 ^ 22)
    (hn : 0 ≤ src.num_samples) (hn64 : src.num_samples < 2 ^ 63)
    (h1 : Reachable alloc src s1) (h12 : Steps s1 s2)
    (buf : Buffer) (start count : Int) (hstart : 0 ≤ start) (hcount : 0 ≤ count)
    (hsmall : count * (src.bytes_per_sample * src.channels) < 2 ^ 31)
    (hpast : start + count ≤ s1.decoded_samples) :
    ∃ out : Buffer, ∀ fuel1 fuel2 : Nat, count.toNat < fuel1 → count.toNat < fuel2 →
      s1.FillBuffer fuel1 buf start count = .ok out ∧
      s2.FillBuffer fuel2 buf start count = .ok out := by
  have hF2' : src.bytes_per_sample * src.channels ≤ 4194304 := by norm_num at hF2; exact hF2
  obtain ⟨k1, hd1⟩ := h1.exists_decodedUpTo hF1 hF2' hn hn64
  obtain ⟨k2, hk, hd2⟩ := h12.preserves_decodedUpTo hF1 hF2' hn hn64 k1 hd1
  have hmono := hd1.decoded_mono hF1 hF2' hd2 hk
  refine ⟨s1.readSpec buf 0 start (count * (src.bytes_per_sample * src.channels)), ?_⟩
  intro fuel1 fuel2 hf1 hf2
  refine ⟨hd1.fillBuffer hF1 hF2' buf start count hstart hcount hsmall fuel1 hf1, ?_⟩
  rw [hd2.fillBuffer hF1 hF2' buf start count hstart hcount hsmall fuel2 hf2]
  congr 1
  obtain ⟨_, _, _, hdata1⟩ := hd1.reader_facts hF1 hF2'
  obtain ⟨_, _, _, hdata2⟩ := hd2.reader_facts hF1 hF2'
  rw [hd1.channels, hd1.bytes_per_sample] at hdata1
  rw [hd2.channels, hd2.bytes_per_sample] at hdata2
  ext x
  · simp only [RAMAudioProvider.readSpec, hd1.channels, hd1.bytes_per_sample, hd2.channels,
      hd2.bytes_per_sample, sub_zero]
    generalize src.bytes_per_sample * src.channels = F at *
    by_cases hx : 0 ≤ x ∧ x < 0 + count * F
    · rw [if_pos hx, if_pos hx]
      have hq0 : 0 ≤ x / F := Int.ediv_nonneg hx.1 (by omega)
      have hq : x / F < count := Int.ediv_lt_of_lt_mul (by omega) (by omega)
      have hr0 := Int.emod_nonneg x (show F ≠ 0 by omega)
      have hrF := Int.emod_lt_of_pos x (show 0 < F by omega)
      rw [if_pos (by omega), if_pos (by omega),
        hdata1 _ _ (by omega) (by omega) hr0 hrF, hdata2 _ _ (by omega) (by omega) hr0 hrF]
    · rw [if_neg hx, if_neg hx]
  · simp only [RAMAudioProvider.readSpec, hd1.channels, hd1.bytes_per_sample, hd2.channels,
      hd2.bytes_per_sample]

/-- Instance of C7: the stereo stream, a read inside block 0 after one and after two
iterations of the decoder thread. -/
theorem FillBuffer_stable_witness :
    ∃ out : Buffer, ∀ fuel1 fuel2 : Nat, (300 : Int).toNat < fuel1 → (300 : Int).toNat < fuel2 →
      (stereoProvider.decoderRun 1).FillBuffer fuel1 (Buffer.fresh fun _ => 3) 1048000 300
        = .ok out ∧
      ((stereoProvider.decoderRun 1).decoderRun 1).FillBuffer fuel2 (Buffer.fresh fun _ => 3)
        1048000 300 = .ok out :=
  FillBuffer_stable allocAlways stereoSource (stereoProvider.decoderRun 1)
    ((stereoProvider.decoderRun 1).decoderRun 1) (by decide) (by decide) (by decide) (by decide)
    ⟨stereoProvider, rfl, Steps.of_decoderRun 1 _⟩ (Steps.of_decoderRun 1 _)
    (Buffer.fresh fun _ => 3) 1048000 300 (by decide) (by decide) (by decide) (by decide)

/-- C9 as stated, refuted: on a stream whose decode throws at block 1, the iteration
for block 1 ends the decoder thread by an exception leaving the thread function,
for which C++ calls `std::terminate`: the failure does terminate the process. -/
theorem decode_failure_terminates :
    RAMAudioProvider.new allocAlways brokenSource = .ok brokenProvider ∧
    (brokenProvider.decoderRun 1).decoder = .running 1 ∧
    (brokenProvider.decoderRun 1).cancelled = false ∧
    brokenSource.fails 1048576 951424 = true ∧
    (brokenProvider.decoderRun 1).decoderStep.decoder = .terminated ∧
    (brokenProvider.decoderRun 1).decoderStep.calls = [(0, 1048576), (1048576, 951424)] := by
  refine ⟨rfl, by decide, by decide, by decide, by decide, by decide⟩

/-- C9, amended.  If `GetAudio` throws while the decoder thread is filling block `i`,
the exception leaves the thread function and the thread ends as `terminated`
(`std::terminate` ends the process).  At that point exactly the calls for blocks
`0 .. i` have been made, the failed one last; no further iteration makes a call
or changes anything (no retry); `decoded_samples` is `i * samplesPerBlock` and
stays so; and `FillBuffer` evaluated on the cache as it then stands returns the
source's data for the samples below `i * samplesPerBlock` and zeros from there
on. -/
theorem decode_failure_freezes_watermark (alloc : Nat → Bool) (src : AudioSource)
    (p : RAMAudioProvider) (i : Nat)
    (hF1 : 1 ≤ src.bytes_per_sample * src.channels)
    (hF2 : src.bytes_per_sample * src.channels ≤ 2 ^ 22)
    (hn : 0 ≤ src.num_samples) (hn64 : src.num_samples < 2 ^ 63)
    (hr : Reachable alloc src p) (hrun : p.decoder = .running i)
    (hi : i < p.blockcache.length) (hcan : p.cancelled = false)
    (hfail : src.fails (↑i * samplesPerBlock src.bytes_per_sample src.channels)
      (min (samplesPerBlock src.bytes_per_sample src.channels)
        (src.num_samples - ↑i * samplesPerBlock src.bytes_per_sample src.channels)) = true) :
    p.decoderStep.decoder = .terminated ∧
    p.decoderStep.calls =
      decodeSchedule src.num_samples src.bytes_per_sample src.channels (i + 1) ∧
    (∀ m : Nat, p.decoderStep.decoderRun m = p.decoderStep) ∧
    p.decoderStep.decoded_samples = ↑i * samplesPerBlock src.bytes_per_sample src.channels ∧
    ∀ (buf : Buffer) (start count : Int), 0 ≤ start → 0 ≤ count →
      start + count ≤ src.num_samples →
      count * (src.bytes_per_sample * src.channels) < 2 ^ 31 →
      ∃ out : Buffer,
        (∀ fuel : Nat, count.toNat < fuel →
          p.decoderStep.FillBuffer fuel buf start count = .ok out) ∧
        ∀ s j : Int, start ≤ s → s < start + count →
          0 ≤ j → j < src.bytes_per_sample * src.channels →
          out.data ((s - start) * (src.bytes_per_sample * src.channels) + j) =
            if s < ↑i * samplesPerBlock src.bytes_per_sample src.channels then
              src.sampleByte s j
            else 0 := by
  have hF2' : src.bytes_per_sample * src.channels ≤ 4194304 := by norm_num at hF2; exact hF2
  obtain ⟨k, hd⟩ := hr.exists_decodedUpTo hF1 hF2' hn hn64
  have hki : k = i := by
    rcases hd.status with ⟨h, _⟩ | ⟨h, _⟩ | ⟨h, _⟩ <;> rw [hrun] at h
    · injection h with h; exact h.symm
    · cases h
    · cases h
  subst hki
  have hSdef := samplesPerBlock_eq hF1
  rw [hSdef] at hfail ⊢
  have hks := mul_spb_lt_of_lt_blockCount hF1 hF2' hn hn64 (hd.length ▸ hi)
  rcases hd.step hF1 hF2' hn hn64 with ⟨hd', _, hdec, _, _, hf⟩ | ⟨_, _, _, _, _, _, hnf⟩
  · have hterm := (hf hrun hi hcan).1
    have hdec' : p.decoderStep.decoded_samples
        = ↑k * (4194304 / (src.bytes_per_sample * src.channels)) := by
      rw [hd'.decoded, hSdef]; exact min_eq_left hks.le
    refine ⟨hterm, ?_, fun m => decoderRun_of_terminated hterm m, hdec', ?_⟩
    · rcases hd'.status with ⟨h, _⟩ | ⟨h, _⟩ | ⟨_, _, h⟩
      · rw [hterm] at h; cases h
      · rw [hterm] at h; cases h
      · exact h
    · intro buf start count hstart hcount _ hsmall
      refine ⟨_, fun fuel hfuel =>
        hd'.fillBuffer hF1 hF2' buf start count hstart hcount hsmall fuel hfuel, ?_⟩
      intro s j hs1 hs2 hj0 hj
      obtain ⟨_, _, _, hdata⟩ := hd'.reader_facts hF1 hF2'
      have hspec := readSpec_data_sample p.decoderStep buf start count s j
        (by rw [hd'.channels, hd'.bytes_per_sample]; exact hF1) hs1 hs2 hj0
        (by rw [hd'.channels, hd'.bytes_per_sample]; exact hj)
      rw [hd'.channels, hd'.bytes_per_sample] at hspec hdata
      rw [hspec, hdec']
      split
      · rename_i hsd
        exact hdata s j (by omega) (by omega) hj0 hj
      · rfl
  · rw [hfail] at hnf; cases hnf

/-- Instance of the amended C9: the stream that throws at block 1, after block 0. -/
theorem decode_failure_freezes_watermark_witness :
    (brokenProvider.decoderRun 1).decoderStep.decoder = .terminated ∧
    (brokenProvider.decoderRun 1).decoderStep.calls =
      decodeSchedule brokenSource.num_samples brokenSource.bytes_per_sample
        brokenSource.channels (1 + 1) ∧
    (∀ m : Nat, (brokenProvider.decoderRun 1).decoderStep.decoderRun m
      = (brokenProvider.decoderRun 1).decoderStep) ∧
    (brokenProvider.decoderRun 1).decoderStep.decoded_samples =
      ↑(1 : Nat) * samplesPerBlock brokenSource.bytes_per_sample brokenSource.channels ∧
    ∀ (buf : Buffer) (start count : Int), 0 ≤ start → 0 ≤ count →
      start + count ≤ brokenSource.num_samples →
      count * (brokenSource.bytes_per_sample * brokenSource.channels) < 2 ^ 31 →
      ∃ out : Buffer,
        (∀ fuel : Nat, count.toNat < fuel →
          (brokenProvider.decoderRun 1).decoderStep.FillBuffer fuel buf start count = .ok out) ∧
        ∀ s j : Int, start ≤ s → s < start + count →
          0 ≤ j → j < brokenSource.bytes_per_sample * brokenSource.channels →
          out.data ((s - start) * (brokenSource.bytes_per_sample * brokenSource.channels) + j) =
            if s < ↑(1 : Nat) * samplesPerBlock brokenSource.bytes_per_sample
                brokenSource.channels then
              brokenSource.sampleByte s j
            else 0 :=
  decode_failure_freezes_watermark allocAlways brokenSource (brokenProvider.decoderRun 1) 1
    (by decide) (by decide) (by decide) (by decide)
    ⟨brokenProvider, rfl, Steps.of_decoderRun 1 _⟩ (by decide) (by decide) (by decide)
    (by decide)

/-- C10: allocation failure is a distinct construction error.  With the sizing of
the block store modelled as an operation that may fail, the constructor fails if
and only if `blockcache.resize(blockCount)` fails.  In that case the error is
`AudioProviderError("Not enough memory available to cache in RAM")`, which is not
a decode error, no provider results, and no `GetAudio` call is ever made.  When
the allocation succeeds the constructor returns a provider with `blockCount`
blocks, the watermark at 0, the decoder thread created and no call made yet. -/
theorem constructor_fails_iff_alloc_fails (alloc : Nat → Bool) (src : AudioSource) :
    ((∃ e, RAMAudioProvider.new alloc src = .error e) ↔
      alloc (blockCount src.num_samples src.bytes_per_sample src.channels) = false) ∧
    (alloc (blockCount src.num_samples src.bytes_per_sample src.channels) = false →
      RAMAudioProvider.new alloc src =
        .error (.AudioProviderError "Not enough memory available to cache in RAM") ∧
      (∀ p, RAMAudioProvider.new alloc src ≠ .ok p) ∧
      ∀ m : Nat, callsAfterConstruction alloc src m = []) ∧
    (∀ msg : String,
      AudioError.AudioProviderError "Not enough memory available to cache in RAM"
        ≠ AudioError.AudioDecodeError msg) ∧
    (alloc (blockCount src.num_samples src.bytes_per_sample src.channels) = true →
      ∃ p, RAMAudioProvider.new alloc src = .ok p ∧
        p.blockcache.length = blockCount src.num_samples src.bytes_per_sample src.channels ∧
        p.decoded_samples = 0 ∧ p.decoder = .running 0 ∧ p.calls = [] ∧ p.source = src) := by
  refine ⟨?_, ?_, ?_, ?_⟩
  · constructor
    · rintro ⟨e, he⟩
      unfold RAMAudioProvider.new at he
      simp only [] at he
      split at he
      · cases he
      · rename_i h; exact Bool.eq_false_iff.mpr h
    · intro h
      refine ⟨.AudioProviderError "Not enough memory available to cache in RAM", ?_⟩
      unfold RAMAudioProvider.new
      simp only [h]
      rfl
  · intro h
    have hnew : RAMAudioProvider.new alloc src =
        .error (.AudioProviderError "Not enough memory available to cache in RAM") := by
      unfold RAMAudioProvider.new
      simp only [h]
      rfl
    refine ⟨hnew, ?_, ?_⟩
    · intro p hp
      rw [hnew] at hp
      cases hp
    · intro m
      unfold callsAfterConstruction
      rw [hnew]
  · intro msg h
    cases h
  · intro h
    refine ⟨{ source := src
              channels := src.channels
              bytes_per_sample := src.bytes_per_sample
              num_samples := src.num_samples
              decoded_samples := 0
              blockcache := List.replicate
                (blockCount src.num_samples src.bytes_per_sample src.channels) zeroBlock
              cancelled := false
              decoder := .running 0
              calls := [] }, ?_, ?_, rfl, rfl, rfl, rfl⟩
    · unfold RAMAudioProvider.new
      simp only [h]
      rfl
    · simp

/-- Instance of C10: an allocator that always fails, on the stereo stream. -/
theorem constructor_fails_iff_alloc_fails_witness :
    RAMAudioProvider.new allocNever stereoSource =
        .error (.AudioProviderError "Not enough memory available to cache in RAM") ∧
      (∀ p, RAMAudioProvider.new allocNever stereoSource ≠ .ok p) ∧
      ∀ m : Nat, callsAfterConstruction allocNever stereoSource m = [] :=
  (constructor_fails_iff_alloc_fails allocNever stereoSource).2.1 rfl

/-- Below the watermark a run of the loop body depends on the provider only through
the frame layout and the one block it copies from. -/
theorem fillIter_congr (p q : RAMAudioProvider) (c : Cursor)
    (hp : c.start < p.decoded_samples) (hq : c.start < q.decoded_samples)
    (hb : q.bytes_per_sample = p.bytes_per_sample) (hc : q.channels = p.channels)
    (hblk : q.blockcache[(toUInt64 (c.start.tdiv
        (samplesPerBlock p.bytes_per_sample p.channels))).toNat]?
      = p.blockcache[(toUInt64 (c.start.tdiv
        (samplesPerBlock p.bytes_per_sample p.channels))).toNat]?) :
    q.fillIter c = p.fillIter c := by
  have h1 : ¬ c.start ≥ q.decoded_samples := by omega
  have h2 : ¬ c.start ≥ p.decoded_samples := by omega
  unfold RAMAudioProvider.fillIter
  rw [if_neg h1, if_neg h2]
  simp only [hb, hc, hblk]

/-- At or above the watermark a run of the loop body depends on the provider only
through the watermark. -/
theorem fillIter_congr_zero (p q : RAMAudioProvider) (c : Cursor)
    (hp : c.start ≥ p.decoded_samples) (hq : q.decoded_samples = p.decoded_samples) :
    q.fillIter c = p.fillIter c := by
  have h1 : c.start ≥ q.decoded_samples := by omega
  unfold RAMAudioProvider.fillIter
  rw [if_pos hp, if_pos h1]

theorem fillIter_next_start (p : RAMAudioProvider) (c c' : Cursor)
    (hF1 : 1 ≤ p.bytes_per_sample * p.channels) (hstart : 0 ≤ c.start)
    (h : p.fillIter c = .next c') : 0 ≤ c'.start := by
  unfold RAMAudioProvider.fillIter at h
  split at h
  · split at h <;> cases h
  · split at h
    · cases h
    · simp only [] at h
      split at h
      · cases h
      · split at h
        · cases h
        · split at h
          · cases h
          · rename_i hg
            injection h with h
            rw [← h]
            simp only []
            have hrs : 0 ≤ min (toInt32 c.bytes_remaining)
                (toInt32 (samplesPerBlock p.bytes_per_sample p.channels * p.bytes_per_sample
                  * p.channels - toInt32 (c.start.tmod
                    (samplesPerBlock p.bytes_per_sample p.channels) * p.bytes_per_sample
                    * p.channels))) := by
              by_contra hneg
              exact hg (Or.inl (by omega))
            rw [tdiv_tdiv_eq hrs hF1]
            have := Int.ediv_nonneg hrs (show 0 ≤ p.bytes_per_sample * p.channels by omega)
            omega


theorem fillIter_zero_not_next (p : RAMAudioProvider) (c c' : Cursor)
    (hp : c.start ≥ p.decoded_samples) : p.fillIter c ≠ .next c' := by
  unfold RAMAudioProvider.fillIter
  rw [if_pos hp]
  split <;> intro h <;> cases h

theorem decodedBlock_below {src : AudioSource} {k l b : Nat} (hk : b < k) (hl : b < l) :
    decodedBlock src k b = decodedBlock src l b := by
  funext off
  simp only [decodedBlock, hk, hl, true_and]

/-- A block below the watermark reads the same in the memory a reader finds during
a decode and in every later state of the cache. -/
theorem MidDecode.block_eq {src : AudioSource} {p q P : RAMAudioProvider} {kp kP : Nat}
    (hF1 : 1 ≤ src.bytes_per_sample * src.channels)
    (hF2 : src.bytes_per_sample * src.channels ≤ 4194304)
    (hp : DecodedUpTo src p kp) (hP : DecodedUpTo src P kP) (hq : MidDecode p q)
    (start : Int) (hstart : 0 ≤ start) (hlt : start < p.decoded_samples)
    (hle : p.decoded_samples ≤ P.decoded_samples) :
    q.blockcache[(toUInt64 (start.tdiv
        (samplesPerBlock P.bytes_per_sample P.channels))).toNat]?
      = P.blockcache[(toUInt64 (start.tdiv
        (samplesPerBlock P.bytes_per_sample P.channels))).toNat]? := by
  rw [hP.bytes_per_sample, hP.channels, samplesPerBlock_eq hF1]
  have hS1 := spb_pos hF1 hF2
  have hdp := hp.decoded
  have hdP := hP.decoded
  rw [samplesPerBlock_eq hF1] at hdp hdP
  have hlenp : (p.blockcache.length : Int) < 2 ^ 64 := by rw [hp.length]; exact blockCount_lt
  have hkp := hp.le
  have hkP := hP.le
  have hstat := hp.status
  generalize (4194304 : Int) / (src.bytes_per_sample * src.channels) = S at *
  rw [Int.tdiv_eq_ediv hstart (by omega)]
  have hb0 : 0 ≤ start / S := Int.ediv_nonneg hstart (by omega)
  have hbp : start / S < kp := by
    apply Int.ediv_lt_of_lt_mul (by omega)
    have := min_le_left ((kp : Int) * S) src.num_samples
    omega
  have hbP : start / S < kP := by
    apply Int.ediv_lt_of_lt_mul (by omega)
    have := min_le_left ((kP : Int) * S) src.num_samples
    omega
  rw [toUInt64_eq hb0 (by omega)]
  have hcast : ((start / S).toNat : Int) = start / S := Int.toNat_of_nonneg hb0
  have hnp : (start / S).toNat < kp := by omega
  have hnP : (start / S).toNat < kP := by omega
  have hnot : p.decoder ≠ .running (start / S).toNat := by
    intro hrun
    rcases hstat with ⟨h, _⟩ | ⟨h, _⟩ | ⟨h, _⟩ <;> rw [hrun] at h
    · injection h with h; omega
    · cases h
    · cases h
  rw [hq.blocks _ hnot]
  have h1 : (start / S).toNat < p.blockcache.length := by omega
  have h2 : (start / S).toNat < P.blockcache.length := by omega
  rw [List.getElem?_eq_getElem h1, List.getElem?_eq_getElem h2]
  rw [hp.blocks _ _ (List.getElem?_eq_getElem h1), hP.blocks _ _ (List.getElem?_eq_getElem h2),
    decodedBlock_below hnp hnP]


/-- Whatever an interleaved run of the loop returns, an uninterrupted run in one of
the states it has seen returns too. -/
theorem fillLoopInterleaved_snapshot (src : AudioSource) (ps qs : Nat → RAMAudioProvider)
    (ks : Nat → Nat)
    (hF1 : 1 ≤ src.bytes_per_sample * src.channels)
    (hF2 : src.bytes_per_sample * src.channels ≤ 4194304)
    (hd : ∀ j, DecodedUpTo src (ps j) (ks j))
    (hmono : ∀ i j, i ≤ j → (ps i).decoded_samples ≤ (ps j).decoded_samples)
    (hseen : ∀ j, MidDecode (ps j) (qs j)) :
    ∀ (fuel j : Nat) (c : Cursor) (out : Buffer), 0 ≤ c.start →
      fillLoopInterleaved qs fuel j c = .ok out →
      ∃ J, j ≤ J ∧ (ps J).fillLoop fuel c = .ok out := by
  intro fuel
  induction fuel with
  | zero =>
    intro j c out _ h
    exact ⟨j, le_refl _, h⟩
  | succ fuel ih =>
    intro j c out hstart h
    rw [fillLoopInterleaved] at h
    by_cases hz : c.bytes_remaining = 0
    · rw [if_pos hz] at h
      refine ⟨j, le_refl _, ?_⟩
      rw [RAMAudioProvider.fillLoop, if_pos hz]
      exact h
    · rw [if_neg hz] at h
      by_cases hdec : c.start ≥ (ps j).decoded_samples
      · refine ⟨j, le_refl _, ?_⟩
        rw [fillIter_congr_zero (ps j) (qs j) c hdec (hseen j).decoded_samples] at h
        rw [RAMAudioProvider.fillLoop, if_neg hz]
        cases hit : (ps j).fillIter c with
        | done b => rw [hit] at h; exact h
        | fault => rw [hit] at h; cases h
        | next c' => exact absurd hit (fillIter_zero_not_next _ _ _ hdec)
      · have hlt : c.start < (ps j).decoded_samples := by omega
        have hagree : ∀ J, j ≤ J → (qs j).fillIter c = (ps J).fillIter c := by
          intro J hJ
          have hle := hmono j J hJ
          apply fillIter_congr
          · omega
          · rw [(hseen j).decoded_samples]; exact hlt
          · rw [(hseen j).bytes_per_sample, (hd j).bytes_per_sample, (hd J).bytes_per_sample]
          · rw [(hseen j).channels, (hd j).channels, (hd J).channels]
          · exact MidDecode.block_eq hF1 hF2 (hd j) (hd J) (hseen j) c.start hstart hlt hle
        cases hit : (qs j).fillIter c with
        | done b =>
          rw [hit] at h
          refine ⟨j, le_refl _, ?_⟩
          rw [RAMAudioProvider.fillLoop, if_neg hz, ← hagree j (le_refl _), hit]
          exact h
        | fault => rw [hit] at h; cases h
        | next c' =>
          rw [hit] at h
          have hc' : 0 ≤ c'.start := by
            have hit' := hit
            rw [hagree j (le_refl _)] at hit'
            exact fillIter_next_start (ps j) c c'
              (by rw [(hd j).bytes_per_sample, (hd j).channels]; exact hF1) hstart hit'
          obtain ⟨J, hJ, hfl⟩ := ih (j + 1) c' out hc' h
          refine ⟨J, by omega, ?_⟩
          rw [RAMAudioProvider.fillLoop, if_neg hz, ← hagree J (by omega), hit]
          exact hfl

/-- An interleaved run of the loop on a request of less than `2^31` bytes returns. -/
theorem fillLoopInterleaved_returns (src : AudioSource) (ps qs : Nat → RAMAudioProvider)
    (ks : Nat → Nat)
    (hF1 : 1 ≤ src.bytes_per_sample * src.channels)
    (hF2 : src.bytes_per_sample * src.channels ≤ 4194304)
    (hd : ∀ j, DecodedUpTo src (ps j) (ks j))
    (hseen : ∀ j, MidDecode (ps j) (qs j)) :
    ∀ (fuel j : Nat) (c : Cursor) (m : Int), 0 ≤ c.start → 0 ≤ m →
      c.bytes_remaining = m * (src.bytes_per_sample * src.channels) →
      m * (src.bytes_per_sample * src.channels) < 2 ^ 31 → m.toNat < fuel →
      ∃ out, fillLoopInterleaved qs fuel j c = .ok out := by
  intro fuel
  induction fuel with
  | zero => intro j c m _ _ _ _ h; omega
  | succ fuel ih =>
    intro j c m hstart hm hrem hsmall hfuel
    rw [fillLoopInterleaved]
    by_cases hz : c.bytes_remaining = 0
    · rw [if_pos hz]; exact ⟨_, rfl⟩
    · rw [if_neg hz]
      have hm1 : 1 ≤ m := by
        rcases eq_or_lt_of_le hm with h0 | h1
        · rw [← h0] at hrem; simp at hrem; exact absurd hrem hz
        · omega
      have hF1' : 1 ≤ (ps j).bytes_per_sample * (ps j).channels := by
        rw [(hd j).channels, (hd j).bytes_per_sample]; exact hF1
      have hF2' : (ps j).bytes_per_sample * (ps j).channels ≤ 4194304 := by
        rw [(hd j).channels, (hd j).bytes_per_sample]; exact hF2
      by_cases hdec : c.start ≥ (ps j).decoded_samples
      · rw [fillIter_congr_zero (ps j) (qs j) c hdec (hseen j).decoded_samples]
        unfold RAMAudioProvider.fillIter
        have hnn : ¬ c.bytes_remaining < 0 := by
          rw [hrem]
          have := Int.mul_nonneg hm (show 0 ≤ src.bytes_per_sample * src.channels by omega)
          omega
        rw [if_pos hdec, if_neg hnn]
        exact ⟨_, rfl⟩
      · have hlt : c.start < (ps j).decoded_samples := by omega
        obtain ⟨hlen, havail, _, _⟩ := (hd j).reader_facts hF1 hF2
        have hav := havail c.start hstart hlt
        have hq0 : 0 ≤ c.start / (4194304 / ((ps j).bytes_per_sample * (ps j).channels)) :=
          Int.ediv_nonneg hstart (by have := spb_pos hF1' hF2'; omega)
        have hidx : (c.start / (4194304 / ((ps j).bytes_per_sample * (ps j).channels))).toNat
            < (ps j).blockcache.length := by omega
        have hcopy := fillIter_copy (ps j) c m _ hF1' hF2' hstart hlt hm1
          (by rw [(hd j).channels, (hd j).bytes_per_sample]; exact hrem)
          (by rw [(hd j).channels, (hd j).bytes_per_sample]; exact hsmall)
          (by omega) (List.getElem?_eq_getElem hidx)
        have hagree : (qs j).fillIter c = (ps j).fillIter c := by
          apply fillIter_congr
          · exact hlt
          · rw [(hseen j).decoded_samples]; exact hlt
          · exact (hseen j).bytes_per_sample
          · exact (hseen j).channels
          · exact MidDecode.block_eq hF1 hF2 (hd j) (hd j) (hseen j) c.start hstart hlt
              (le_refl _)
        rw [hagree, hcopy]
        have hFeq : (ps j).bytes_per_sample * (ps j).channels
            = src.bytes_per_sample * src.channels := by
          rw [(hd j).channels, (hd j).bytes_per_sample]
        have hS1 := spb_pos hF1' hF2'
        have hr0 : 0 ≤ c.start % (4194304 / ((ps j).bytes_per_sample * (ps j).channels)) :=
          Int.emod_nonneg _ (by omega)
        have hrS : c.start % (4194304 / ((ps j).bytes_per_sample * (ps j).channels))
            < 4194304 / ((ps j).bytes_per_sample * (ps j).channels) :=
          Int.emod_lt_of_pos _ (by omega)
        have ht1 : 1 ≤ min m (4194304 / ((ps j).bytes_per_sample * (ps j).channels)
            - c.start % (4194304 / ((ps j).bytes_per_sample * (ps j).channels))) :=
          le_min (by omega) (by omega)
        have htm : min m (4194304 / ((ps j).bytes_per_sample * (ps j).channels)
            - c.start % (4194304 / ((ps j).bytes_per_sample * (ps j).channels))) ≤ m :=
          min_le_left _ _
        generalize min m (4194304 / ((ps j).bytes_per_sample * (ps j).channels)
            - c.start % (4194304 / ((ps j).bytes_per_sample * (ps j).channels))) = t at *
        have hle : (m - t) * (src.bytes_per_sample * src.channels)
            ≤ m * (src.bytes_per_sample * src.channels) :=
          Int.mul_le_mul_of_nonneg_right (by omega) (by omega)
        exact ih (j + 1) _ (m - t) (by show 0 ≤ c.start + t; omega) (by omega)
          (by show (m - t) * _ = _; rw [hFeq]) (by omega) (by omega)

theorem Reachable.steps {alloc : Nat → Bool} {src : AudioSource} {p q : RAMAudioProvider}
    (hp : Reachable alloc src p) (hs : Steps p q) : Reachable alloc src q := by
  obtain ⟨p0, hnew, h0⟩ := hp
  exact ⟨p0, hnew, h0.trans hs⟩

/-- C8: snapshot consistency under concurrency, in the interleaving model of the
claim.  Let `ps 0, ps 1, ...` be the states of the cache at the successive runs of
the loop body of one `FillBuffer` call (`ps 0` reachable, each `ps (j+1)` reached
from `ps j` by zero or more iterations of the decoder thread or cancellation), and
let `qs j` be the memory the reader finds at run `j`, in which the block the
decoder thread is working on may be partly written, holding anything.  Then for
every `start ≥ 0`: whatever buffer the interleaved call returns, an uninterrupted
`FillBuffer` on the state `ps J` of one of its runs returns the same buffer, so
the output is that of a single value `(ps J).decoded_samples` of the counter,
held during the call, and does not depend on the partly written block; and for
`count ≥ 0` with `count * frame < 2^31` the interleaved call does return.  The
reader changes no state, so this holds for each of any number of calls running
at once, whatever their ranges. -/
theorem FillBuffer_interleaved_snapshot (alloc : Nat → Bool) (src : AudioSource)
    (ps qs : Nat → RAMAudioProvider)
    (hF1 : 1 ≤ src.bytes_per_sample * src.channels)
    (hF2 : src.bytes_per_sample * src.channels ≤ 2 ^ 22)
    (hn : 0 ≤ src.num_samples) (hn64 : src.num_samples < 2 ^ 63)
    (h0 : Reachable alloc src (ps 0)) (hsteps : ∀ j, Steps (ps j) (ps (j + 1)))
    (hseen : ∀ j, MidDecode (ps j) (qs j))
    (buf : Buffer) (start count : Int) (hstart : 0 ≤ start) :
    (∀ (fuel : Nat) (out : Buffer),
      FillBufferInterleaved qs fuel buf start count = .ok out →
      ∃ J, (ps J).FillBuffer fuel buf start count = .ok out) ∧
    (0 ≤ count → count * (src.bytes_per_sample * src.channels) < 2 ^ 31 →
      ∀ fuel : Nat, count.toNat < fuel →
        ∃ (J : Nat) (out : Buffer),
          FillBufferInterleaved qs fuel buf start count = .ok out ∧
          (ps J).FillBuffer fuel buf start count = .ok out) := by
  have hF2' : src.bytes_per_sample * src.channels ≤ 4194304 := by norm_num at hF2; exact hF2
  have hreach : ∀ j, Reachable alloc src (ps j) := by
    intro j
    induction j with
    | zero => exact h0
    | succ j ih => exact ih.steps (hsteps j)
  have hdj : ∀ j, ∃ k, DecodedUpTo src (ps j) k := fun j =>
    (hreach j).exists_decodedUpTo hF1 hF2' hn hn64
  choose ks hd using hdj
  have hmono1 : ∀ j, (ps j).decoded_samples ≤ (ps (j + 1)).decoded_samples := by
    intro j
    obtain ⟨k', hk', hd'⟩ := (hsteps j).preserves_decodedUpTo hF1 hF2' hn hn64 (ks j) (hd j)
    exact (hd j).decoded_mono hF1 hF2' hd' hk'
  have hmono : ∀ i j, i ≤ j → (ps i).decoded_samples ≤ (ps j).decoded_samples := by
    intro i j hij
    induction j with
    | zero =>
      have : i = 0 := by omega
      subst this; exact le_refl _
    | succ j ih =>
      rcases Nat.eq_or_lt_of_le hij with h | h
      · subst h; exact le_refl _
      · exact le_trans (ih (by omega)) (hmono1 j)
  have hcur : ∀ J, count * (qs 0).bytes_per_sample * (qs 0).channels
      = count * (ps J).bytes_per_sample * (ps J).channels := by
    intro J
    rw [(hseen 0).bytes_per_sample, (hseen 0).channels, (hd 0).bytes_per_sample,
      (hd 0).channels, (hd J).bytes_per_sample, (hd J).channels]
  have hsnap : ∀ (fuel : Nat) (out : Buffer),
      FillBufferInterleaved qs fuel buf start count = .ok out →
      ∃ J, (ps J).FillBuffer fuel buf start count = .ok out := by
    intro fuel out h
    obtain ⟨J, _, hJ⟩ := fillLoopInterleaved_snapshot src ps qs ks hF1 hF2' hd hmono hseen
      fuel 0 _ out hstart h
    refine ⟨J, ?_⟩
    unfold RAMAudioProvider.FillBuffer
    rw [← hcur J]
    exact hJ
  refine ⟨hsnap, ?_⟩
  intro hcount hsmall fuel hfuel
  obtain ⟨out, hout⟩ := fillLoopInterleaved_returns src ps qs ks hF1 hF2' hd hseen fuel 0
    { buf := buf, charbuf := 0,
      bytes_remaining := count * (qs 0).bytes_per_sample * (qs 0).channels, start := start }
    count hstart hcount
    (by
      show count * (qs 0).bytes_per_sample * (qs 0).channels = _
      rw [(hseen 0).bytes_per_sample, (hseen 0).channels, (hd 0).bytes_per_sample,
        (hd 0).channels]
      ring)
    hsmall hfuel
  obtain ⟨J, hJ⟩ := hsnap fuel out hout
  exact ⟨J, out, hout, hJ⟩

theorem progressSchedule_steps (j : Nat) : Steps (progressSchedule j) (progressSchedule (j + 1)) := by
  unfold progressSchedule
  by_cases h : j = 0
  · subst h
    exact Steps.of_decoderRun 1 _
  · rw [if_neg h, if_neg (by omega)]
    exact Steps.refl _

theorem tornView_midDecode (j : Nat) : MidDecode (progressSchedule j) (tornView j) := by
  refine ⟨rfl, rfl, rfl, ?_, ?_⟩
  · show ((progressSchedule j).blockcache.set _ _).length = _
    rw [List.length_set]
  · intro b hb
    show ((progressSchedule j).blockcache.set _ _)[b]? = _
    by_cases h : j = 0
    · subst h
      have hrun : (progressSchedule 0).decoder = .running 0 := by decide
      have hne : (0 : Nat) ≠ b := by
        intro h0; subst h0; exact hb hrun
      simp only [if_true]
      rw [List.getElem?_set_ne hne]
    · have hp : progressSchedule j = stereoProvider.decoderRun 1 := by
        unfold progressSchedule; rw [if_neg h]
      have hrun : (progressSchedule j).decoder = .running 1 := by rw [hp]; decide
      have hne : (1 : Nat) ≠ b := by
        intro h0; subst h0; exact hb hrun
      rw [if_neg h, List.getElem?_set_ne hne]

/-- Instance of C8: a read of samples 0..99 of the stereo stream that starts before
block 0 is decoded, with the block in progress full of bytes 255. -/
theorem FillBuffer_interleaved_snapshot_witness :
    (∀ (fuel : Nat) (out : Buffer),
      FillBufferInterleaved tornView fuel (Buffer.fresh fun _ => 1) 0 100 = .ok out →
      ∃ J, (progressSchedule J).FillBuffer fuel (Buffer.fresh fun _ => 1) 0 100 = .ok out) ∧
    (0 ≤ (100 : Int) →
      100 * (stereoSource.bytes_per_sample * stereoSource.channels) < 2 ^ 31 →
      ∀ fuel : Nat, (100 : Int).toNat < fuel →
        ∃ (J : Nat) (out : Buffer),
          FillBufferInterleaved tornView fuel (Buffer.fresh fun _ => 1) 0 100 = .ok out ∧
          (progressSchedule J).FillBuffer fuel (Buffer.fresh fun _ => 1) 0 100 = .ok out) :=
  FillBuffer_interleaved_snapshot allocAlways stereoSource progressSchedule tornView (by decide)
    (by decide) (by decide) (by decide) ⟨stereoProvider, rfl, Steps.refl _⟩
    progressSchedule_steps tornView_midDecode (Buffer.fresh fun _ => 1) 0 100 (by decide)

/-- A block that holds at least one sample means a frame of 1 to `2^22` bytes. -/
theorem frame_bounds_of_spb_pos {b c : Int} (h : 1 ≤ samplesPerBlock b c) :
    1 ≤ b * c ∧ b * c ≤ 4194304 := by
  unfold samplesPerBlock at h
  rw [CacheBlockSize_eq] at h
  have hpos : 1 ≤ b * c := by
    rcases lt_trichotomy b 0 with hb | hb | hb
    · rcases lt_trichotomy c 0 with hc | hc | hc
      · have := Int.mul_pos_of_neg_of_neg hb hc
        omega
      · subst hc; simp at h
      · exfalso
        obtain ⟨b', rfl⟩ : ∃ b', b = -b' := ⟨-b, by simp⟩
        rw [Int.tdiv_neg, Int.neg_tdiv] at h
        have h1 : 0 ≤ (Int.tdiv 4194304 b') := by
          rw [Int.tdiv_eq_ediv (by norm_num) (by omega)]
          exact Int.ediv_nonneg (by norm_num) (by omega)
        have h2 : 0 ≤ (Int.tdiv 4194304 b').tdiv c := by
          rw [Int.tdiv_eq_ediv h1 (by omega)]
          exact Int.ediv_nonneg h1 (by omega)
        omega
    · subst hb; simp at h
    · rcases lt_trichotomy c 0 with hc | hc | hc
      · exfalso
        obtain ⟨c', rfl⟩ : ∃ c', c = -c' := ⟨-c, by simp⟩
        rw [Int.tdiv_neg] at h
        have h1 : 0 ≤ (Int.tdiv 4194304 b) := by
          rw [Int.tdiv_eq_ediv (by norm_num) (by omega)]
          exact Int.ediv_nonneg (by norm_num) (by omega)
        have h2 : 0 ≤ (Int.tdiv 4194304 b).tdiv c' := by
          rw [Int.tdiv_eq_ediv h1 (by omega)]
          exact Int.ediv_nonneg h1 (by omega)
        omega
      · subst hc; simp at h
      · have := Int.mul_pos hb hc
        omega
  refine ⟨hpos, ?_⟩
  rw [tdiv_tdiv_eq (by norm_num) hpos] at h
  by_contra hgt
  have : (4194304 : Int) / (b * c) = 0 := Int.ediv_eq_zero_of_lt (by norm_num) (by omega)
  omega


theorem decodeSchedule_length (n b c : Int) (k : Nat) : (decodeSchedule n b c k).length = k := by
  simp [decodeSchedule]

theorem decodeSchedule_getElem? (n b c : Int) (k i : Nat) (hi : i < k) :
    (decodeSchedule n b c k)[i]? =
      some ((i : Int) * samplesPerBlock b c,
        min (samplesPerBlock b c) (n - (i : Int) * samplesPerBlock b c)) := by
  simp [decodeSchedule, List.getElem?_map, List.getElem?_range hi]

/-- C11: the decode schedule and the exact watermark.  With
`samplesPerBlock = 4194304 / bytes_per_sample / channels ≥ 1`, a source that does
not throw and no cancellation: after `k ≤ blockCount` iterations the decoder
thread has made exactly `k` calls, call `i` asking for the range that starts at
sample `i * samplesPerBlock` and has length `min(samplesPerBlock, num_samples -
i * samplesPerBlock)`, and `decoded_samples = min(k * samplesPerBlock,
num_samples)`.  For every block index `i < blockCount` the length `actual_read`
the code computes is that minimum and lies in `1 .. samplesPerBlock`; the
`size_t` product and difference it is computed from do not wrap. -/
theorem decode_schedule_exact (alloc : Nat → Bool) (src : AudioSource) (p0 : RAMAudioProvider)
    (k : Nat)
    (hspb : 1 ≤ samplesPerBlock src.bytes_per_sample src.channels)
    (hn : 0 ≤ src.num_samples) (hn64 : src.num_samples < 2 ^ 63)
    (hok : ∀ a b, src.fails a b = false)
    (hnew : RAMAudioProvider.new alloc src = .ok p0)
    (hk : k ≤ blockCount src.num_samples src.bytes_per_sample src.channels) :
    (p0.decoderRun k).calls.length = k ∧
    (∀ i : Nat, i < k → (p0.decoderRun k).calls[i]? =
      some ((i : Int) * samplesPerBlock src.bytes_per_sample src.channels,
        min (samplesPerBlock src.bytes_per_sample src.channels)
          (src.num_samples - (i : Int) * samplesPerBlock src.bytes_per_sample src.channels))) ∧
    (p0.decoderRun k).decoded_samples =
      min ((k : Int) * samplesPerBlock src.bytes_per_sample src.channels) src.num_samples ∧
    ∀ i : Nat, i < blockCount src.num_samples src.bytes_per_sample src.channels →
      actualRead src.num_samples (samplesPerBlock src.bytes_per_sample src.channels) i =
        min (samplesPerBlock src.bytes_per_sample src.channels)
          (src.num_samples - (i : Int) * samplesPerBlock src.bytes_per_sample src.channels) ∧
      1 ≤ actualRead src.num_samples (samplesPerBlock src.bytes_per_sample src.channels) i ∧
      actualRead src.num_samples (samplesPerBlock src.bytes_per_sample src.channels) i
        ≤ samplesPerBlock src.bytes_per_sample src.channels ∧
      toUInt64 ((i : Int) * toUInt64 (samplesPerBlock src.bytes_per_sample src.channels))
        = (i : Int) * samplesPerBlock src.bytes_per_sample src.channels ∧
      toUInt64 (toUInt64 src.num_samples
          - toUInt64 ((i : Int) * toUInt64 (samplesPerBlock src.bytes_per_sample src.channels)))
        = src.num_samples - (i : Int) * samplesPerBlock src.bytes_per_sample src.channels ∧
      0 < src.num_samples - (i : Int) * samplesPerBlock src.bytes_per_sample src.channels := by
  obtain ⟨hF1, hF2⟩ := frame_bounds_of_spb_pos hspb
  obtain ⟨hd, hrun, _⟩ := decoderRun_decodedUpTo alloc src p0 hF1 hF2 hn hn64 hok hnew k hk
  have hcalls : (p0.decoderRun k).calls
      = decodeSchedule src.num_samples src.bytes_per_sample src.channels k := by
    rcases hd.status with ⟨_, h⟩ | ⟨h, _⟩ | ⟨h, _⟩
    · exact h
    · rw [hrun] at h; cases h
    · rw [hrun] at h; cases h
  refine ⟨by rw [hcalls, decodeSchedule_length], ?_, hd.decoded, ?_⟩
  · intro i hi
    rw [hcalls, decodeSchedule_getElem? _ _ _ _ _ hi]
  · intro i hi
    have hks := mul_spb_lt_of_lt_blockCount hF1 hF2 hn hn64 hi
    rw [samplesPerBlock_eq hF1] at hspb ⊢
    have hSle : 4194304 / (src.bytes_per_sample * src.channels) ≤ 4194304 :=
      Int.ediv_le_self _ (by norm_num)
    generalize (4194304 : Int) / (src.bytes_per_sample * src.channels) = S at *
    have hi0 : 0 ≤ (i : Int) * S := Int.mul_nonneg (by omega) (by omega)
    have hact := actualRead_eq hspb hSle hn64 hks
    rw [hact]
    refine ⟨rfl, le_min hspb (by omega), min_le_left _ _, ?_, ?_, by omega⟩
    · rw [toUInt64_eq (x := S) (by omega) (by omega), toUInt64_eq hi0 (by omega)]
    · rw [toUInt64_eq (x := S) (by omega) (by omega), toUInt64_eq hi0 (by omega),
        toUInt64_eq (x := src.num_samples) (by omega) (by omega), toUInt64_eq (by omega) (by omega)]

/-- Instance of C11: the stereo stream, both blocks. -/
theorem decode_schedule_exact_witness :
    (stereoProvider.decoderRun 2).calls.length = 2 ∧
    (∀ i : Nat, i < 2 → (stereoProvider.decoderRun 2).calls[i]? =
      some ((i : Int) * samplesPerBlock stereoSource.bytes_per_sample stereoSource.channels,
        min (samplesPerBlock stereoSource.bytes_per_sample stereoSource.channels)
          (stereoSource.num_samples
            - (i : Int) * samplesPerBlock stereoSource.bytes_per_sample stereoSource.channels))) ∧
    (stereoProvider.decoderRun 2).decoded_samples =
      min (((2 : Nat) : Int) * samplesPerBlock stereoSource.bytes_per_sample stereoSource.channels)
        stereoSource.num_samples :=
  let h := decode_schedule_exact allocAlways stereoSource stereoProvider 2 (by decide) (by decide)
    (by decide) (fun _ _ => rfl) rfl (by decide)
  ⟨h.1, h.2.1, h.2.2.1⟩

/-- The arguments of the `memcpy` of one copying run of the loop body, in closed
form and with their bounds. -/
theorem fillIter_copy_args (p : RAMAudioProvider) (c : Cursor) (m : Int)
    (hF1 : 1 ≤ p.bytes_per_sample * p.channels)
    (hF2 : p.bytes_per_sample * p.channels ≤ 4194304)
    (hstart : 0 ≤ c.start)
    (hm : 1 ≤ m) (hrem : c.bytes_remaining = m * (p.bytes_per_sample * p.channels))
    (hsmall : m * (p.bytes_per_sample * p.channels) < 2 ^ 31)
    (hidx : c.start / (4194304 / (p.bytes_per_sample * p.channels)) < 2 ^ 64) :
    toUInt64 (c.start.tdiv (samplesPerBlock p.bytes_per_sample p.channels))
      = c.start / (4194304 / (p.bytes_per_sample * p.channels)) ∧
    0 ≤ toInt32 (c.start.tmod (samplesPerBlock p.bytes_per_sample p.channels)
      * p.bytes_per_sample * p.channels) ∧
    1 ≤ min (toInt32 c.bytes_remaining)
      (toInt32 (samplesPerBlock p.bytes_per_sample p.channels * p.bytes_per_sample * p.channels
        - toInt32 (c.start.tmod (samplesPerBlock p.bytes_per_sample p.channels)
          * p.bytes_per_sample * p.channels))) ∧
    toInt32 (c.start.tmod (samplesPerBlock p.bytes_per_sample p.channels)
        * p.bytes_per_sample * p.channels)
      + min (toInt32 c.bytes_remaining)
        (toInt32 (samplesPerBlock p.bytes_per_sample p.channels * p.bytes_per_sample * p.channels
          - toInt32 (c.start.tmod (samplesPerBlock p.bytes_per_sample p.channels)
            * p.bytes_per_sample * p.channels))) ≤ 4194304 := by
  have hSdef := samplesPerBlock_eq hF1
  rw [hSdef, hrem]
  generalize hFdef : p.bytes_per_sample * p.channels = F at *
  generalize hS' : (4194304 : Int) / F = S at *
  have hS1 : 1 ≤ S := hS' ▸ spb_pos hF1 hF2
  have hSF : S * F ≤ 4194304 := hS' ▸ spb_mul_le hF1
  have hq0 : 0 ≤ c.start / S := Int.ediv_nonneg hstart (by omega)
  have hr0 : 0 ≤ c.start % S := Int.emod_nonneg _ (by omega)
  have hrS : c.start % S < S := Int.emod_lt_of_pos _ (by omega)
  have hrF0 : 0 ≤ c.start % S * F := Int.mul_nonneg hr0 (by omega)
  have hrF : c.start % S * F + (S - c.start % S) * F = S * F := by ring
  have hSrF : 1 ≤ (S - c.start % S) * F := by
    have : 1 * 1 ≤ (S - c.start % S) * F := Int.mul_le_mul (by omega) hF1 (by omega) (by omega)
    simpa using this
  have hmF : 1 ≤ m * F := by
    have : 1 * 1 ≤ m * F := Int.mul_le_mul hm hF1 (by omega) (by omega)
    simpa using this
  have e1 : c.start.tdiv S = c.start / S := Int.tdiv_eq_ediv hstart (by omega)
  have e2 : c.start.tmod S = c.start % S := Int.tmod_eq_emod hstart (by omega)
  have e3 : c.start % S * p.bytes_per_sample * p.channels = c.start % S * F := by
    rw [← hFdef]; ring
  have e4 : S * p.bytes_per_sample * p.channels = S * F := by rw [← hFdef]; ring
  have e5 : toInt32 (c.start % S * F) = c.start % S * F := toInt32_eq (by omega) (by omega)
  have e6 : toInt32 (S * F - c.start % S * F) = (S - c.start % S) * F := by
    rw [toInt32_eq (by omega) (by omega)]; ring
  have e7 : toInt32 (m * F) = m * F := toInt32_eq (by omega) (by omega)
  rw [e1, e2, e3, e4, e5, e6, e7, toUInt64_eq hq0 hidx]
  refine ⟨rfl, hrF0, le_min hmF hSrF, ?_⟩
  have := min_le_right (m * F) ((S - c.start % S) * F)
  omega


/-- Along the loop of `FillBuffer`, `start` stays non-negative and `bytes_remaining`
stays a whole number of frames, no more than at the beginning. -/
theorem LoopReaches.invariant {src : AudioSource} {p : RAMAudioProvider} {k : Nat}
    (hF1 : 1 ≤ src.bytes_per_sample * src.channels)
    (hF2 : src.bytes_per_sample * src.channels ≤ 4194304)
    (hd : DecodedUpTo src p k) (c0 : Cursor) (m0 : Int)
    (hstart0 : 0 ≤ c0.start) (hm0 : 0 ≤ m0)
    (hrem0 : c0.bytes_remaining = m0 * (src.bytes_per_sample * src.channels))
    (hsmall : m0 * (src.bytes_per_sample * src.channels) < 2 ^ 31)
    (c : Cursor) (hc : LoopReaches p c0 c) :
    0 ≤ c.start ∧ ∃ m, 0 ≤ m ∧ m ≤ m0 ∧
      c.bytes_remaining = m * (src.bytes_per_sample * src.channels) := by
  induction hc with
  | start => exact ⟨hstart0, m0, hm0, le_refl _, hrem0⟩
  | @next c c' _ hne hit ih =>
    obtain ⟨hstart, m, hm, hmm0, hrem⟩ := ih
    have hF1' : 1 ≤ p.bytes_per_sample * p.channels := by
      rw [hd.channels, hd.bytes_per_sample]; exact hF1
    have hF2' : p.bytes_per_sample * p.channels ≤ 4194304 := by
      rw [hd.channels, hd.bytes_per_sample]; exact hF2
    have hFeq : p.bytes_per_sample * p.channels = src.bytes_per_sample * src.channels := by
      rw [hd.channels, hd.bytes_per_sample]
    have hlt : c.start < p.decoded_samples := by
      by_contra hge
      exact fillIter_zero_not_next p c c' (by omega) hit
    have hm1 : 1 ≤ m := by
      rcases eq_or_lt_of_le hm with h0 | h1
      · rw [← h0] at hrem; simp at hrem; exact absurd hrem hne
      · omega
    obtain ⟨hlen, havail, _, _⟩ := hd.reader_facts hF1 hF2
    have hav := havail c.start hstart hlt
    have hS1 := spb_pos hF1' hF2'
    have hq0 : 0 ≤ c.start / (4194304 / (p.bytes_per_sample * p.channels)) :=
      Int.ediv_nonneg hstart (by omega)
    have hidx : (c.start / (4194304 / (p.bytes_per_sample * p.channels))).toNat
        < p.blockcache.length := by omega
    have hle : m * (src.bytes_per_sample * src.channels)
        ≤ m0 * (src.bytes_per_sample * src.channels) :=
      Int.mul_le_mul_of_nonneg_right hmm0 (by omega)
    have hcopy := fillIter_copy p c m _ hF1' hF2' hstart hlt hm1
      (by rw [hFeq]; exact hrem) (by rw [hFeq]; omega) (by omega)
      (List.getElem?_eq_getElem hidx)
    rw [hcopy] at hit
    injection hit with hit
    have hr0 : 0 ≤ c.start % (4194304 / (p.bytes_per_sample * p.channels)) :=
      Int.emod_nonneg _ (by omega)
    have hrS : c.start % (4194304 / (p.bytes_per_sample * p.channels))
        < 4194304 / (p.bytes_per_sample * p.channels) :=
      Int.emod_lt_of_pos _ (by omega)
    have ht1 : 1 ≤ min m (4194304 / (p.bytes_per_sample * p.channels)
        - c.start % (4194304 / (p.bytes_per_sample * p.channels))) :=
      le_min (by omega) (by omega)
    have htm : min m (4194304 / (p.bytes_per_sample * p.channels)
        - c.start % (4194304 / (p.bytes_per_sample * p.channels))) ≤ m :=
      min_le_left _ _
    rw [← hit]
    refine ⟨by show 0 ≤ c.start + _; omega,
      m - min m (4194304 / (p.bytes_per_sample * p.channels)
        - c.start % (4194304 / (p.bytes_per_sample * p.channels))), ?_, ?_,
      by show _ * _ = _; rw [hFeq]⟩
    · omega
    · omega

/-- C12 as stated, refuted: `count * frame < 2^31` also admits a negative `count`.  On
the stereo stream with block 0 decoded, `FillBuffer(buf, 0, -1)` enters the loop
with `bytes_remaining = -4` below the watermark, so the iteration copies with
`read_size = -4`, not `≥ 1`: the `memcpy` is handed a negative length. -/
theorem negative_count_breaks_read_size :
    RAMAudioProvider.new allocAlways stereoSource = .ok stereoProvider ∧
    (0 : Int) ≤ 0 ∧
    (-1 : Int) * (stereoSource.bytes_per_sample * stereoSource.channels) < 2 ^ 31 ∧
    (0 : Int) < (stereoProvider.decoderRun 1).decoded_samples ∧
    min (toInt32 ((-1 : Int) * 2 * 2))
      (toInt32 (samplesPerBlock 2 2 * 2 * 2
        - toInt32 (Int.tmod 0 (samplesPerBlock 2 2) * 2 * 2))) = -4 ∧
    (stereoProvider.decoderRun 1).fillIter
      { buf := Buffer.fresh fun _ => 0, charbuf := 0, bytes_remaining := (-1) * 2 * 2,
        start := 0 } = .fault ∧
    (stereoProvider.decoderRun 1).FillBuffer 1 (Buffer.fresh fun _ => 0) 0 (-1) = .fault := by
  refine ⟨rfl, by decide, by decide, by decide, by decide, rfl, rfl⟩


/-- C12, amended (the reader part needs `count ≥ 0`).  With frame size in
`1 .. 2^22`, in every reachable state: (a) the block store has `blockCount`
blocks, an iteration of the decoder thread never runs into undefined behaviour,
and a decode into block `i` (which happens only for `i < blockCount`) stores
`actual_read * frame` bytes, between 0 and 4194304, from offset 0; (b) for every
`FillBuffer` call with `start ≥ 0`, `count ≥ 0` and `count * frame < 2^31`, each
loop iteration that copies has its block index below `blockCount`,
`0 ≤ start_offset`, `read_size ≥ 1` and `start_offset + read_size ≤ 4194304`,
and does not take an out-of-range branch. -/
theorem block_accesses_in_bounds (alloc : Nat → Bool) (src : AudioSource) (p : RAMAudioProvider)
    (hF1 : 1 ≤ src.bytes_per_sample * src.channels)
    (hF2 : src.bytes_per_sample * src.channels ≤ 2 ^ 22)
    (hn : 0 ≤ src.num_samples) (hn64 : src.num_samples < 2 ^ 63)
    (hr : Reachable alloc src p) :
    p.blockcache.length = blockCount src.num_samples src.bytes_per_sample src.channels ∧
    p.decoder ≠ .faulted ∧ p.decoderStep.decoder ≠ .faulted ∧
    (∀ i : Nat, p.decoder = .running i → i < p.blockcache.length →
      0 ≤ actualRead p.num_samples (samplesPerBlock p.bytes_per_sample p.channels) i
        * p.bytes_per_sample * p.channels ∧
      actualRead p.num_samples (samplesPerBlock p.bytes_per_sample p.channels) i
        * p.bytes_per_sample * p.channels ≤ CacheBlockSize) ∧
    ∀ (buf : Buffer) (start count : Int), 0 ≤ start → 0 ≤ count →
      count * (src.bytes_per_sample * src.channels) < 2 ^ 31 →
      ∀ c : Cursor,
        LoopReaches p
          { buf := buf, charbuf := 0,
            bytes_remaining := count * p.bytes_per_sample * p.channels, start := start } c →
        c.bytes_remaining ≠ 0 → c.start < p.decoded_samples →
        (toUInt64 (c.start.tdiv (samplesPerBlock p.bytes_per_sample p.channels))).toNat
          < blockCount src.num_samples src.bytes_per_sample src.channels ∧
        0 ≤ toInt32 (c.start.tmod (samplesPerBlock p.bytes_per_sample p.channels)
          * p.bytes_per_sample * p.channels) ∧
        1 ≤ min (toInt32 c.bytes_remaining)
          (toInt32 (samplesPerBlock p.bytes_per_sample p.channels * p.bytes_per_sample
            * p.channels
            - toInt32 (c.start.tmod (samplesPerBlock p.bytes_per_sample p.channels)
              * p.bytes_per_sample * p.channels))) ∧
        toInt32 (c.start.tmod (samplesPerBlock p.bytes_per_sample p.channels)
            * p.bytes_per_sample * p.channels)
          + min (toInt32 c.bytes_remaining)
            (toInt32 (samplesPerBlock p.bytes_per_sample p.channels * p.bytes_per_sample
              * p.channels
              - toInt32 (c.start.tmod (samplesPerBlock p.bytes_per_sample p.channels)
                * p.bytes_per_sample * p.channels))) ≤ CacheBlockSize ∧
        p.fillIter c ≠ .fault := by
  have hF2' : src.bytes_per_sample * src.channels ≤ 4194304 := by norm_num at hF2; exact hF2
  obtain ⟨k, hd⟩ := hr.exists_decodedUpTo hF1 hF2' hn hn64
  have hF1p : 1 ≤ p.bytes_per_sample * p.channels := by
    rw [hd.channels, hd.bytes_per_sample]; exact hF1
  have hF2p : p.bytes_per_sample * p.channels ≤ 4194304 := by
    rw [hd.channels, hd.bytes_per_sample]; exact hF2'
  have hFeq : p.bytes_per_sample * p.channels = src.bytes_per_sample * src.channels := by
    rw [hd.channels, hd.bytes_per_sample]
  refine ⟨hd.length, ?_, ?_, ?_, ?_⟩
  · intro hf
    rcases hd.status with ⟨h, _⟩ | ⟨h, _⟩ | ⟨h, _⟩ <;> rw [hf] at h <;> cases h
  · intro hf
    rcases hd.step hF1 hF2' hn hn64 with ⟨hd', _⟩ | ⟨hd', _⟩
    · rcases hd'.status with ⟨h, _⟩ | ⟨h, _⟩ | ⟨h, _⟩ <;> rw [hf] at h <;> cases h
    · rcases hd'.status with ⟨h, _⟩ | ⟨h, _⟩ | ⟨h, _⟩ <;> rw [hf] at h <;> cases h
  · intro i _ hi
    have hks := mul_spb_lt_of_lt_blockCount hF1 hF2' hn hn64 (hd.length ▸ hi)
    rw [hd.num_samples, hd.bytes_per_sample, hd.channels, samplesPerBlock_eq hF1,
      CacheBlockSize_eq]
    have hS1 := spb_pos hF1 hF2'
    have hSF := spb_mul_le hF1
    have hSle : 4194304 / (src.bytes_per_sample * src.channels) ≤ 4194304 :=
      Int.ediv_le_self _ (by norm_num)
    rw [actualRead_eq hS1 hSle hn64 hks]
    have e : ∀ a : Int, a * src.bytes_per_sample * src.channels
        = a * (src.bytes_per_sample * src.channels) := fun a => by ring
    rw [e]
    generalize src.bytes_per_sample * src.channels = F at *
    generalize (4194304 : Int) / F = S at *
    have ha1 : 1 ≤ min S (src.num_samples - ↑i * S) := le_min hS1 (by omega)
    have ha2 : min S (src.num_samples - ↑i * S) ≤ S := min_le_left _ _
    have h0 : 0 ≤ min S (src.num_samples - ↑i * S) * F := Int.mul_nonneg (by omega) (by omega)
    have h1 : min S (src.num_samples - ↑i * S) * F ≤ S * F :=
      Int.mul_le_mul_of_nonneg_right ha2 (by omega)
    exact ⟨h0, by omega⟩
  · intro buf start count hstart hcount hsmall c hc hne hlt
    obtain ⟨hcs, m, hm, hmc, hrem⟩ := LoopReaches.invariant hF1 hF2' hd _ count hstart hcount
      (by show count * p.bytes_per_sample * p.channels = _
          rw [hd.channels, hd.bytes_per_sample]; ring)
      hsmall c hc
    have hm1 : 1 ≤ m := by
      rcases eq_or_lt_of_le hm with h0 | h1
      · rw [← h0] at hrem; simp at hrem; exact absurd hrem hne
      · omega
    obtain ⟨hlen, havail, _, _⟩ := hd.reader_facts hF1 hF2'
    have hav := havail c.start hcs hlt
    have hS1 := spb_pos hF1p hF2p
    have hq0 : 0 ≤ c.start / (4194304 / (p.bytes_per_sample * p.channels)) :=
      Int.ediv_nonneg hcs (by omega)
    have hidx : (c.start / (4194304 / (p.bytes_per_sample * p.channels))).toNat
        < p.blockcache.length := by omega
    have hle : m * (src.bytes_per_sample * src.channels)
        ≤ count * (src.bytes_per_sample * src.channels) :=
      Int.mul_le_mul_of_nonneg_right hmc (by omega)
    obtain ⟨e1, e2, e3, e4⟩ := fillIter_copy_args p c m hF1p hF2p hcs hm1
      (by rw [hFeq]; exact hrem) (by rw [hFeq]; omega) (by omega)
    have hcopy := fillIter_copy p c m _ hF1p hF2p hcs hlt hm1
      (by rw [hFeq]; exact hrem) (by rw [hFeq]; omega) (by omega)
      (List.getElem?_eq_getElem hidx)
    refine ⟨?_, e2, e3, by rw [CacheBlockSize_eq]; exact e4, ?_⟩
    · rw [e1, ← hd.length]; exact hidx
    · rw [hcopy]; intro h; cases h

/-- Instance of the amended C12: the stereo stream with block 0 decoded. -/
theorem block_accesses_in_bounds_witness :
    (stereoProvider.decoderRun 1).blockcache.length =
      blockCount stereoSource.num_samples stereoSource.bytes_per_sample stereoSource.channels ∧
    (stereoProvider.decoderRun 1).decoder ≠ .faulted ∧
    (stereoProvider.decoderRun 1).decoderStep.decoder ≠ .faulted :=
  let h := block_accesses_in_bounds allocAlways stereoSource (stereoProvider.decoderRun 1)
    (by decide) (by decide) (by decide) (by decide)
    ⟨stereoProvider, rfl, Steps.of_decoderRun 1 _⟩
  ⟨h.1, h.2.1, h.2.2.1⟩

/-- The reader looks at the provider only through the frame layout, the watermark
and the blocks. -/
theorem fillIter_congr_fields (p q : RAMAudioProvider) (c : Cursor)
    (hb : q.bytes_per_sample = p.bytes_per_sample) (hc : q.channels = p.channels)
    (hd : q.decoded_samples = p.decoded_samples) (hblk : q.blockcache = p.blockcache) :
    q.fillIter c = p.fillIter c := by
  unfold RAMAudioProvider.fillIter
  rw [hb, hc, hd, hblk]

theorem fillLoop_congr_fields (p q : RAMAudioProvider)
    (hb : q.bytes_per_sample = p.bytes_per_sample) (hc : q.channels = p.channels)
    (hd : q.decoded_samples = p.decoded_samples) (hblk : q.blockcache = p.blockcache) :
    ∀ (fuel : Nat) (c : Cursor), q.fillLoop fuel c = p.fillLoop fuel c := by
  intro fuel
  induction fuel with
  | zero => intro c; rfl
  | succ fuel ih =>
    intro c
    rw [RAMAudioProvider.fillLoop, RAMAudioProvider.fillLoop,
      fillIter_congr_fields p q c hb hc hd hblk]
    split
    · rfl
    · split
      · rfl
      · rfl
      · exact ih _

theorem FillBuffer_congr_fields (p q : RAMAudioProvider)
    (hb : q.bytes_per_sample = p.bytes_per_sample) (hc : q.channels = p.channels)
    (hd : q.decoded_samples = p.decoded_samples) (hblk : q.blockcache = p.blockcache)
    (fuel : Nat) (buf : Buffer) (start count : Int) :
    q.FillBuffer fuel buf start count = p.FillBuffer fuel buf start count := by
  unfold RAMAudioProvider.FillBuffer
  rw [fillLoop_congr_fields p q hb hc hd hblk, hb, hc]

/-- Once the decoder thread stands at the loop test with `cancelled` set, nothing but
the thread's status changes any more. -/
theorem Steps.after_cancel {p q : RAMAudioProvider} {i : Nat}
    (hF1 : 1 ≤ p.bytes_per_sample * p.channels)
    (hrun : p.decoder = .running i) (hcan : p.cancelled = true) (hs : Steps p q) :
    q.calls = p.calls ∧ q.blockcache = p.blockcache ∧
      q.decoded_samples = p.decoded_samples ∧ q.bytes_per_sample = p.bytes_per_sample ∧
      q.channels = p.channels ∧ q.cancelled = true ∧
      (q.decoder = .running i ∨ q.decoder = .finished) := by
  induction hs with
  | refl => exact ⟨rfl, rfl, rfl, rfl, rfl, hcan, Or.inl hrun⟩
  | @step q _ ih =>
    obtain ⟨h1, h2, h3, h4, h5, h6, h7⟩ := ih
    rcases h7 with h7 | h7
    · rw [decoderStep_exit (by rw [h4, h5]; exact hF1) h7 (Or.inr h6)]
      exact ⟨h1, h2, h3, h4, h5, h6, Or.inr rfl⟩
    · rw [decoderStep_of_finished h7]
      exact ⟨h1, h2, h3, h4, h5, h6, Or.inr h7⟩
  | @cancel q _ ih =>
    obtain ⟨h1, h2, h3, h4, h5, _, h7⟩ := ih
    exact ⟨h1, h2, h3, h4, h5, rfl, h7⟩

/-- C13: cooperative cancellation at block boundaries.  If `cancelled` is set when
the decoder thread is about to begin the iteration for block `i`, then in every
later state (whatever iterations and cancellation requests follow) the calls
made on the source are those for the blocks `0 .. i-1` and no more, no block has
been modified, `decoded_samples` is still `min(i * samplesPerBlock,
num_samples)`, and every `FillBuffer` call returns exactly what it returned
before; the thread itself has returned, or is about to. -/
theorem cancellation_stops_decoding (alloc : Nat → Bool) (src : AudioSource)
    (p : RAMAudioProvider) (i : Nat)
    (hF1 : 1 ≤ src.bytes_per_sample * src.channels)
    (hF2 : src.bytes_per_sample * src.channels ≤ 2 ^ 22)
    (hn : 0 ≤ src.num_samples) (hn64 : src.num_samples < 2 ^ 63)
    (hr : Reachable alloc src p) (hrun : p.decoder = .running i)
    (hcan : p.cancelled = true) :
    p.decoderStep.decoder = .finished ∧
    ∀ q : RAMAudioProvider, Steps p q →
      q.calls = decodeSchedule src.num_samples src.bytes_per_sample src.channels i ∧
      q.blockcache = p.blockcache ∧
      q.decoded_samples =
        min ((i : Int) * samplesPerBlock src.bytes_per_sample src.channels) src.num_samples ∧
      (q.decoder = .running i ∨ q.decoder = .finished) ∧
      ∀ (fuel : Nat) (buf : Buffer) (start count : Int),
        q.FillBuffer fuel buf start count = p.FillBuffer fuel buf start count := by
  have hF2' : src.bytes_per_sample * src.channels ≤ 4194304 := by norm_num at hF2; exact hF2
  obtain ⟨k, hd⟩ := hr.exists_decodedUpTo hF1 hF2' hn hn64
  have hF1p : 1 ≤ p.bytes_per_sample * p.channels := by
    rw [hd.channels, hd.bytes_per_sample]; exact hF1
  have hki : k = i ∧ p.calls
      = decodeSchedule src.num_samples src.bytes_per_sample src.channels k := by
    rcases hd.status with ⟨h, hc⟩ | ⟨h, _⟩ | ⟨h, _⟩ <;> rw [hrun] at h
    · injection h with h; exact ⟨h.symm, hc⟩
    · cases h
    · cases h
  obtain ⟨hk, hcalls⟩ := hki
  subst hk
  refine ⟨?_, ?_⟩
  · rw [decoderStep_exit hF1p hrun (Or.inr hcan)]
  · intro q hs
    obtain ⟨h1, h2, h3, h4, h5, _, h7⟩ := hs.after_cancel hF1p hrun hcan
    refine ⟨by rw [h1, hcalls], h2, by rw [h3, hd.decoded], h7, ?_⟩
    intro fuel buf start count
    exact FillBuffer_congr_fields p q h4 h5 h3 h2 fuel buf start count

/-- Instance of C13: the stereo stream, cancelled after block 0. -/
theorem cancellation_stops_decoding_witness :
    (stereoProvider.decoderRun 1).cancel.decoderStep.decoder = .finished ∧
    ∀ q : RAMAudioProvider, Steps (stereoProvider.decoderRun 1).cancel q →
      q.calls = decodeSchedule stereoSource.num_samples stereoSource.bytes_per_sample
        stereoSource.channels 1 ∧
      q.blockcache = (stereoProvider.decoderRun 1).cancel.blockcache ∧
      q.decoded_samples =
        min (((1 : Nat) : Int)
          * samplesPerBlock stereoSource.bytes_per_sample stereoSource.channels)
          stereoSource.num_samples ∧
      (q.decoder = .running 1 ∨ q.decoder = .finished) ∧
      ∀ (fuel : Nat) (buf : Buffer) (start count : Int),
        q.FillBuffer fuel buf start count
          = (stereoProvider.decoderRun 1).cancel.FillBuffer fuel buf start count :=
  cancellation_stops_decoding allocAlways stereoSource (stereoProvider.decoderRun 1).cancel 1
    (by decide) (by decide) (by decide) (by decide)
    ⟨stereoProvider, rfl, Steps.cancel (Steps.of_decoderRun 1 _)⟩ (by decide) rfl

theorem DecodedUpTo.getElem?_eq {src : AudioSource} {p : RAMAudioProvider} {k : Nat}
    (hd : DecodedUpTo src p k) (j : Nat) :
    p.blockcache[j]? =
      if j < blockCount src.num_samples src.bytes_per_sample src.channels then
        some (decodedBlock src k j)
      else none := by
  by_cases hj : j < p.blockcache.length
  · rw [if_pos (hd.length ▸ hj), List.getElem?_eq_getElem hj]
    exact congrArg some (hd.blocks j _ (List.getElem?_eq_getElem hj))
  · rw [if_neg (hd.length ▸ hj)]
    exact List.getElem?_eq_none (by omega)

theorem decodedBlock_succ_ne {src : AudioSource} {k j : Nat} (h : j ≠ k) :
    decodedBlock src (k + 1) j = decodedBlock src k j := by
  funext off
  simp only [decodedBlock]
  by_cases hlt : j < k
  · have : j < k + 1 := by omega
    simp only [hlt, this, true_and]
  · have : ¬ j < k + 1 := by omega
    simp only [hlt, this, false_and]

/-- C15: blocks are write-once.  In every reachable state, one iteration of the
decoder thread leaves the number of blocks and every block other than the one
it works on (block `i` when the thread is at `running i`) unchanged; of block
`i` it changes at most the first `actual_read * bytes_per_sample * channels`
bytes; and the blocks below `i`, and block `i` itself once its iteration has
decoded it, are the same in every later state, so no block is written by more
than one iteration.  (`FillBuffer` is a `const` method that yields only the
caller's buffer: it changes no block.) -/
theorem blocks_write_once (alloc : Nat → Bool) (src : AudioSource) (p : RAMAudioProvider)
    (hF1 : 1 ≤ src.bytes_per_sample * src.channels)
    (hF2 : src.bytes_per_sample * src.channels ≤ 2 ^ 22)
    (hn : 0 ≤ src.num_samples) (hn64 : src.num_samples < 2 ^ 63)
    (hr : Reachable alloc src p) :
    p.decoderStep.blockcache.length = p.blockcache.length ∧
    (∀ j : Nat, p.decoder ≠ .running j → p.decoderStep.blockcache[j]? = p.blockcache[j]?) ∧
    (∀ (i : Nat) (blk blk' : Block), p.decoder = .running i →
      p.blockcache[i]? = some blk → p.decoderStep.blockcache[i]? = some blk' →
      ∀ off : Int,
        ¬ (0 ≤ off ∧ off < actualRead p.num_samples
            (samplesPerBlock p.bytes_per_sample p.channels) i
            * p.bytes_per_sample * p.channels) →
        blk' off = blk off) ∧
    (∀ i : Nat, p.decoder = .running i → ∀ q : RAMAudioProvider, Steps p q →
      ∀ j : Nat, j < i → q.blockcache[j]? = p.blockcache[j]?) ∧
    (∀ i : Nat, p.decoder = .running i → p.decoderStep.decoder = .running (i + 1) →
      ∀ q : RAMAudioProvider, Steps p.decoderStep q →
      ∀ j : Nat, j ≤ i → q.blockcache[j]? = p.decoderStep.blockcache[j]?) ∧
    (p.decoderStep.channels = p.channels ∧
      p.decoderStep.bytes_per_sample = p.bytes_per_sample ∧
      p.decoderStep.num_samples = p.num_samples ∧
      p.decoderStep.cancelled = p.cancelled) := by
  have hF2' : src.bytes_per_sample * src.channels ≤ 4194304 := by norm_num at hF2; exact hF2
  obtain ⟨k, hd⟩ := hr.exists_decodedUpTo hF1 hF2' hn hn64
  have hrunk : ∀ i, p.decoder = .running i → i = k := by
    intro i hrun
    rcases hd.status with ⟨h, _⟩ | ⟨h, _⟩ | ⟨h, _⟩ <;> rw [hrun] at h
    · injection h
    · cases h
    · cases h
  have hlater : ∀ (r : RAMAudioProvider) (l : Nat), DecodedUpTo src r l →
      ∀ q : RAMAudioProvider, Steps r q → ∀ j : Nat, j < l →
      q.blockcache[j]? = r.blockcache[j]? := by
    intro r l hdr q hs j hj
    obtain ⟨l', hl', hdq⟩ := hs.preserves_decodedUpTo hF1 hF2' hn hn64 l hdr
    rw [hdq.getElem?_eq, hdr.getElem?_eq, decodedBlock_below (show j < l' by omega) hj]
  rcases hd.step hF1 hF2' hn hn64 with
    ⟨hd', hsame, _, hcs, _⟩ | ⟨hd', hrun, hc0, hk, hrun', hc1, _⟩
  · refine ⟨by rw [hsame], fun j _ => by rw [hsame], ?_, ?_, ?_,
      by rw [hd'.channels, hd.channels], by rw [hd'.bytes_per_sample, hd.bytes_per_sample],
      by rw [hd'.num_samples, hd.num_samples], hcs⟩
    · intro i blk blk' _ h1 h2 off _
      rw [hsame, h1] at h2
      injection h2 with h2
      rw [h2]
    · intro i hrun q hs j hj
      exact hlater p k hd q hs j (by rw [← hrunk i hrun]; exact hj)
    · intro i hrun hrun' q hs j hj
      rcases hd'.status with ⟨h, _⟩ | ⟨h, _⟩ | ⟨h, _⟩ <;> rw [hrun'] at h
      · injection h with h
        have := hrunk i hrun
        omega
      · cases h
      · cases h
  · refine ⟨by rw [hd'.length, hd.length], ?_, ?_, ?_, ?_,
      by rw [hd'.channels, hd.channels], by rw [hd'.bytes_per_sample, hd.bytes_per_sample],
      by rw [hd'.num_samples, hd.num_samples], by rw [hc0, hc1]⟩
    · intro j hj
      have hjk : j ≠ k := by
        intro h; subst h; exact hj hrun
      rw [hd'.getElem?_eq, hd.getElem?_eq, decodedBlock_succ_ne hjk]
    · intro i blk blk' hruni h1 h2 off hoff
      have hik := hrunk i hruni
      subst hik
      have hib : i < blockCount src.num_samples src.bytes_per_sample src.channels := by
        rw [← hd.length]; exact hk
      rw [hd.getElem?_eq, if_pos hib] at h1
      rw [hd'.getElem?_eq, if_pos hib] at h2
      injection h1 with h1
      injection h2 with h2
      rw [← h1, ← h2]
      have hks := mul_spb_lt_of_lt_blockCount hF1 hF2' hn hn64 hib
      have hS1 := spb_pos hF1 hF2'
      have hSle : 4194304 / (src.bytes_per_sample * src.channels) ≤ 4194304 :=
        Int.ediv_le_self _ (by norm_num)
      rw [hd.num_samples, hd.bytes_per_sample, hd.channels, samplesPerBlock_eq hF1,
        actualRead_eq hS1 hSle hn64 hks] at hoff
      have e : ∀ a : Int, a * src.bytes_per_sample * src.channels
          = a * (src.bytes_per_sample * src.channels) := fun a => by ring
      rw [e] at hoff
      simp only [decodedBlock, samplesPerBlock_eq hF1]
      rw [if_neg (by omega), if_neg (by tauto)]
    · intro i hruni q hs j hj
      exact hlater p k hd q hs j (by rw [← hrunk i hruni]; exact hj)
    · intro i hruni _ q hs j hj
      have hik := hrunk i hruni
      exact hlater _ (k + 1) hd' q hs j (by omega)

/-- Instance of C15: the stereo stream with block 0 decoded. -/
theorem blocks_write_once_witness :
    (stereoProvider.decoderRun 1).decoderStep.blockcache.length
      = (stereoProvider.decoderRun 1).blockcache.length ∧
    (∀ j : Nat, (stereoProvider.decoderRun 1).decoder ≠ .running j →
      (stereoProvider.decoderRun 1).decoderStep.blockcache[j]?
        = (stereoProvider.decoderRun 1).blockcache[j]?) :=
  let h := blocks_write_once allocAlways stereoSource (stereoProvider.decoderRun 1)
    (by decide) (by decide) (by decide) (by decide)
    ⟨stereoProvider, rfl, Steps.of_decoderRun 1 _⟩
  ⟨h.1, h.2.1⟩

theorem strncmp_utf8 (a b c d : Nat) :
    strncmp [a, b, c, d] [0xef, 0xbb, 0xbf, 0] 3 = 0 ↔ a = 0xef ∧ b = 0xbb ∧ c = 0xbf := by
  simp only [strncmp]
  push_cast
  split_ifs <;> constructor <;> intro h <;> dsimp only [Byte] at * <;> omega

theorem strncmp_utf32be (a b c d : Nat) :
    strncmp [a, b, c, d] [0x00, 0x00, 0xfe, 0xff, 0] 4 = 0 ↔ a = 0 := by
  simp only [strncmp]
  push_cast
  split_ifs <;> constructor <;> intro h <;> dsimp only [Byte] at * <;> omega

theorem strncmp_utf32le (a b c d : Nat) :
    strncmp [a, b, c, d] [0xff, 0xfe, 0x00, 0x00, 0] 4 = 0 ↔ a = 0xff ∧ b = 0xfe ∧ c = 0 := by
  simp only [strncmp]
  push_cast
  split_ifs <;> constructor <;> intro h <;> dsimp only [Byte] at * <;> omega

theorem strncmp_utf16be (a b c d : Nat) :
    strncmp [a, b, c, d] [0xfe, 0xff, 0] 2 = 0 ↔ a = 0xfe ∧ b = 0xff := by
  simp only [strncmp]
  push_cast
  split_ifs <;> constructor <;> intro h <;> dsimp only [Byte] at * <;> omega

theorem strncmp_utf16le (a b c d : Nat) :
    strncmp [a, b, c, d] [0xff, 0xfe, 0] 2 = 0 ↔ a = 0xff ∧ b = 0xfe := by
  simp only [strncmp]
  push_cast
  split_ifs <;> constructor <;> intro h <;> dsimp only [Byte] at * <;> omega

theorem strncmp_ebml (a b c d : Nat) :
    strncmp [a, b, c, d] [0x1a, 0x45, 0xdf, 0xa3, 0] 4 = 0 ↔
      a = 0x1a ∧ b = 0x45 ∧ c = 0xdf ∧ d = 0xa3 := by
  simp only [strncmp]
  push_cast
  split_ifs <;> constructor <;> intro h <;> dsimp only [Byte] at * <;> omega

/-- What the magic-byte stage computes on a header of four bytes: `strncmp` stops at
a NUL of the pattern, so the test for the UTF-32BE mark looks at the first byte
only and the test for the UTF-32LE mark at the first three. -/
theorem detectMagic_eq (a b c d : Nat) :
    detectMagic [a, b, c, d] =
      if a = 0xef ∧ b = 0xbb ∧ c = 0xbf then some "utf-8"
      else if a = 0 then some "utf-32be"
      else if a = 0xff ∧ b = 0xfe ∧ c = 0 then some "utf-32le"
      else if a = 0xfe ∧ b = 0xff then some "utf-16be"
      else if a = 0xff ∧ b = 0xfe then some "utf-16le"
      else if a = 0x1a ∧ b = 0x45 ∧ c = 0xdf ∧ d = 0xa3 then some "binary"
      else none := by
  unfold detectMagic
  simp only [strncmp_utf8, strncmp_utf32be, strncmp_utf32le, strncmp_utf16be, strncmp_utf16le,
    strncmp_ebml]


/-- C16 (failing input): the file of the four bytes `00 41 42 43`.  `strncmp` stops
at the first NUL of the pattern `"\x00\x00\xfe\xff"`, so the test for the UTF-32BE
mark succeeds as soon as the first byte of the file is 0, and `Detect` answers
"utf-32be" for a file that does not begin with `00 00 FE FF`.  In the same way
`FF FE 00 41` (a UTF-16LE mark followed by one character) is taken for
"utf-32le", the pattern `"\xff\xfe\x00\x00"` being compared up to its first NUL
only. -/
theorem magic_stage_stops_at_nul :
    strncmp [0x00, 0x41, 0x42, 0x43] [0x00, 0x00, 0xfe, 0xff, 0] 4 = 0 ∧
    detectMagic (List.take 4 [0x00, 0x41, 0x42, 0x43]) = some "utf-32be" ∧
    Detect [0x00, 0x41, 0x42, 0x43] = "utf-32be" ∧
    List.take 4 ([0x00, 0x41, 0x42, 0x43] : List Byte) ≠ [0x00, 0x00, 0xfe, 0xff] ∧
    detectMagic (List.take 4 [0xff, 0xfe, 0x00, 0x41]) = some "utf-32le" ∧
    Detect [0xff, 0xfe, 0x00, 0x41] = "utf-32le" ∧
    List.take 4 ([0xff, 0xfe, 0x00, 0x41] : List Byte) ≠ [0xff, 0xfe, 0x00, 0x00] := by
  refine ⟨by decide, by decide, by decide, by decide, by decide, by decide, by decide⟩

theorem binaryishLoop_eq (buf : List Byte) (acc : Nat) :
    binaryishLoop buf acc =
      acc + List.countP (fun b => decide (b < 32 ∧ b ≠ 13 ∧ b ≠ 10 ∧ b ≠ 9)) buf := by
  induction buf generalizing acc with
  | nil => simp [binaryishLoop]
  | cons b rest ih =>
    rw [binaryishLoop, ih, List.countP_cons]
    by_cases hb : b < 32 ∧ b ≠ 13 ∧ b ≠ 10 ∧ b ≠ 9
    · rw [if_pos hb, if_pos (decide_eq_true hb)]
      omega
    · rw [if_neg hb, if_neg (by rw [decide_eq_false hb]; simp)]
      omega

theorem detectMagic_mem (header : List Byte) (r : String) (h : detectMagic header = some r) :
    r ∈ ["utf-8", "utf-32be", "utf-32le", "utf-16be", "utf-16le", "binary"] := by
  unfold detectMagic at h
  split_ifs at h <;> injection h with h <;> subst h <;> simp

/-- C17: the fallback classification of `Detect` in a build without uchardet.  An
empty file yields "ascii".  For a file shorter than 4 bytes the magic-byte stage
is not run.  For every non-empty content on which the magic-byte stage yields
nothing, the result is "binary" if the size exceeds `100 * 1024 * 1024` or if,
among the first `r = min(65536, size)` bytes, the bytes below 32 other than CR, LF
and TAB number strictly more than `⌊r / 8⌋`, and "utf-8" otherwise.  The result
is always one of the seven names. -/
theorem Detect_fallback (content : List Byte) :
    (content = [] → Detect content = "ascii") ∧
    (content.length < 4 →
      (if content.length ≥ 4 then detectMagic (content.take 4) else none) = none) ∧
    (content ≠ [] → (content.length < 4 ∨ detectMagic (content.take 4) = none) →
      Detect content =
        if 100 * 1024 * 1024 < content.length ∨
            min 65536 content.length / 8 <
              List.countP (fun b => decide (b < 32 ∧ b ≠ 13 ∧ b ≠ 10 ∧ b ≠ 9))
                (content.take (min 65536 content.length)) then
          "binary"
        else "utf-8") ∧
    Detect content ∈
      ["ascii", "utf-8", "utf-16be", "utf-16le", "utf-32be", "utf-32le", "binary"] := by
  have hfall : (if content.length ≥ 4 then detectMagic (content.take 4) else none) = none →
      content ≠ [] →
      Detect content =
        if 100 * 1024 * 1024 < content.length ∨
            min 65536 content.length / 8 <
              List.countP (fun b => decide (b < 32 ∧ b ≠ 13 ∧ b ≠ 10 ∧ b ≠ 9))
                (content.take (min 65536 content.length)) then
          "binary"
        else "utf-8" := by
    intro hm hne
    have hlen : content.length ≠ 0 := by
      intro h; exact hne (List.length_eq_zero.mp h)
    unfold Detect
    rw [if_neg hlen, hm]
    simp only [binaryishLoop_eq, zero_add]
    by_cases hbig : content.length > 100 * 1024 * 1024
    · rw [if_pos hbig, if_pos (Or.inl hbig)]
    · rw [if_neg hbig]
      by_cases hbin : min 65536 content.length / 8 <
          List.countP (fun b => decide (b < 32 ∧ b ≠ 13 ∧ b ≠ 10 ∧ b ≠ 9))
            (content.take (min 65536 content.length))
      · rw [if_pos hbin, if_pos (Or.inr hbin)]
      · rw [if_neg hbin, if_neg (by tauto)]
  refine ⟨?_, ?_, ?_, ?_⟩
  · intro h
    subst h
    rfl
  · intro h
    rw [if_neg (by omega)]
  · intro hne hm
    apply hfall _ hne
    rcases hm with h | h
    · rw [if_neg (by omega)]
    · split
      · exact h
      · rfl
  · by_cases hne : content = []
    · subst hne
      decide
    · cases hm : (if content.length ≥ 4 then detectMagic (content.take 4) else none) with
      | none =>
        rw [hfall hm hne]
        split <;> simp
      | some r =>
        have hr : detectMagic (content.take 4) = some r := by
          split at hm
          · exact hm
          · cases hm
        have hmem := detectMagic_mem _ r hr
        have hlen : content.length ≠ 0 := by
          intro h; exact hne (List.length_eq_zero.mp h)
        have hD : Detect content = r := by
          unfold Detect
          rw [if_neg hlen, hm]
        rw [hD]
        simp only [List.mem_cons, List.mem_singleton, List.not_mem_nil, or_false] at hmem ⊢
        tauto

/-- Instance of C17: a file of two control bytes and six letters. -/
theorem Detect_fallback_witness :
    Detect [1, 2, 66, 67, 68, 69, 70, 71] =
      if 100 * 1024 * 1024 < ([1, 2, 66, 67, 68, 69, 70, 71] : List Byte).length ∨
          min 65536 ([1, 2, 66, 67, 68, 69, 70, 71] : List Byte).length / 8 <
            List.countP (fun b => decide (b < 32 ∧ b ≠ 13 ∧ b ≠ 10 ∧ b ≠ 9))
              (List.take (min 65536 ([1, 2, 66, 67, 68, 69, 70, 71] : List Byte).length)
                [1, 2, 66, 67, 68, 69, 70, 71]) then
        "binary"
      else "utf-8" :=
  (Detect_fallback [1, 2, 66, 67, 68, 69, 70, 71]).2.2.1 (by decide) (Or.inr (by decide))

theorem toupper_eq_dot (c : Byte) : toupper c = 46 ↔ c = 46 := by
  unfold toupper
  dsimp only [Byte] at *
  split_ifs <;> omega

theorem iendsLoop_iff (as bs : List Byte) :
    iendsLoop as bs = true ↔
      bs.length ≤ as.length ∧ (as.take bs.length).map toupper = bs.map toupper := by
  induction as generalizing bs with
  | nil =>
    cases bs with
    | nil => simp [iendsLoop]
    | cons b bs => simp [iendsLoop]
  | cons a as ih =>
    cases bs with
    | nil => simp [iendsLoop]
    | cons b bs =>
      rw [iendsLoop]
      by_cases h : toupper a = toupper b
      · rw [if_pos h, ih]
        simp [h]
      · rw [if_neg h]
        simp [h]

theorem iends_with_iff (input test : List Byte) :
    iends_with input test = true ↔
      test.length ≤ input.length ∧
        (input.drop (input.length - test.length)).map toupper = test.map toupper := by
  unfold iends_with
  rw [iendsLoop_iff]
  simp only [List.length_reverse]
  constructor
  · rintro ⟨hlen, h⟩
    refine ⟨hlen, ?_⟩
    rw [List.take_reverse, List.map_reverse, List.map_reverse] at h
    exact List.reverse_injective h
  · rintro ⟨hlen, h⟩
    refine ⟨hlen, ?_⟩
    rw [List.take_reverse, List.map_reverse, List.map_reverse, h]

theorem map_range_getD (s : List Byte) :
    (List.range s.length).map (fun i => s.getD i 0) = s := by
  apply List.ext_getElem
  · simp
  · intro i h1 h2
    simp [List.getElem?_eq_getElem h2]

theorem map_range_storage (storage : Storage) (s : List Byte)
    (hlive : ∀ i, i < s.length → storage s i = s.getD i 0) :
    (List.range s.length).map (storage s) = s := by
  have h : (List.range s.length).map (storage s)
      = (List.range s.length).map (fun i => s.getD i 0) := by
    apply List.map_congr_left
    intro i hi
    exact hlive i (List.mem_range.mp hi)
  rw [h, map_range_getD]

/-- `HasExtension` in terms of positions in the file name, as long as the storage
still holds the name. -/
theorem HasExtension_eq_true_iff (storage : Storage) (p : Path) (ext : List Byte)
    (hlive : ∀ i, i < p.filename.length → storage p.filename i = p.filename.getD i 0) :
    HasExtension storage p ext = true ↔
      ext.length + 1 ≤ p.filename.length ∧
      p.filename.getD (p.filename.length - ext.length - 1) 0 = 46 ∧
      (p.filename.drop (p.filename.length - ext.length)).map toupper = ext.map toupper := by
  unfold HasExtension
  simp only [map_range_storage storage p.filename hlive]
  by_cases h1 : p.filename.length < ext.length + 1
  · rw [if_pos h1]
    constructor
    · intro h; cases h
    · rintro ⟨h, _⟩; omega
  · rw [if_neg h1]
    by_cases h2 : p.filename.getD (p.filename.length - ext.length - 1) 0 ≠ 46
    · rw [if_pos h2]
      constructor
      · intro h; cases h
      · rintro ⟨_, h, _⟩; exact absurd h h2
    · rw [if_neg h2, iends_with_iff]
      have h2' := not_not.mp h2
      constructor
      · rintro ⟨_, h⟩; exact ⟨by omega, h2', h⟩
      · rintro ⟨_, _, h⟩; exact ⟨by omega, h⟩

/-- With the storage intact, `HasExtension(p, ext)` is true if and only if the final component of `p` is
`prefix ++ "." ++ e` for some (possibly empty) `prefix` and some `e` of the length
of `ext` that equals `ext` up to the case of ASCII letters.  Equivalently it is
false exactly when the file name is shorter than `|ext| + 1`, or the character
just before its last `|ext|` characters is not `'.'`, or those last characters
differ from `ext` beyond case.  The result does not change when the file name
or `ext` is replaced by a case variant. -/
theorem HasExtension_intact_iff (p : Path) (ext : List Byte) :
    (HasExtension intactStorage p ext = true ↔
      ∃ pre e : List Byte, p.filename = pre ++ 46 :: e ∧ e.length = ext.length ∧
        e.map toupper = ext.map toupper) ∧
    (HasExtension intactStorage p ext = false ↔
      p.filename.length < ext.length + 1 ∨
      p.filename.getD (p.filename.length - ext.length - 1) 0 ≠ 46 ∨
      (p.filename.drop (p.filename.length - ext.length)).map toupper ≠ ext.map toupper) ∧
    (∀ (p' : Path) (ext' : List Byte),
      p'.filename.map toupper = p.filename.map toupper →
      ext'.map toupper = ext.map toupper →
      HasExtension intactStorage p' ext' = HasExtension intactStorage p ext) := by
  have hex : ∀ (q : Path) (x : List Byte), HasExtension intactStorage q x = true ↔
      ∃ pre e : List Byte, q.filename = pre ++ 46 :: e ∧ e.length = x.length ∧
        e.map toupper = x.map toupper := by
    intro q x
    rw [HasExtension_eq_true_iff _ _ _ (fun _ _ => rfl)]
    constructor
    · rintro ⟨hlen, hdot, hend⟩
      have hk : q.filename.length - x.length - 1 < q.filename.length := by omega
      refine ⟨q.filename.take (q.filename.length - x.length - 1),
        q.filename.drop (q.filename.length - x.length), ?_, ?_, hend⟩
      · rw [List.getD_eq_getElem _ _ hk] at hdot
        have h1 := List.take_append_drop (q.filename.length - x.length - 1) q.filename
        rw [List.drop_eq_getElem_cons hk, hdot] at h1
        have e : q.filename.length - x.length - 1 + 1 = q.filename.length - x.length := by
          omega
        rw [e] at h1
        exact h1.symm
      · rw [List.length_drop]; omega
    · rintro ⟨pre, e, hf, hlen, hend⟩
      have hl : q.filename.length = pre.length + (e.length + 1) := by
        rw [hf]; simp
      have e1 : q.filename.length - x.length - 1 = pre.length := by omega
      have e2 : q.filename.length - x.length = pre.length + 1 := by omega
      refine ⟨by omega, ?_, ?_⟩
      · rw [e1, hf, List.getD_append_right _ _ _ _ (le_refl _)]
        simp
      · rw [e2, hf]
        have : pre ++ 46 :: e = (pre ++ [46]) ++ e := by simp
        rw [this, List.drop_left' (by simp)]
        exact hend
  refine ⟨hex p ext, ?_, ?_⟩
  · rw [← Bool.not_eq_true, HasExtension_eq_true_iff _ _ _ (fun _ _ => rfl)]
    constructor
    · intro h
      by_contra hcon
      push_neg at hcon
      exact h ⟨by omega, hcon.2.1, hcon.2.2⟩
    · rintro (h | h | h) ⟨h1, h2, h3⟩
      · omega
      · exact h h2
      · exact h h3
  · intro p' ext' hf hx
    have hlf : p'.filename.length = p.filename.length := by
      have := congrArg List.length hf
      simpa using this
    have hlx : ext'.length = ext.length := by
      have := congrArg List.length hx
      simpa using this
    have hiff : HasExtension intactStorage p' ext' = true ↔ HasExtension intactStorage p ext = true := by
      rw [HasExtension_eq_true_iff _ _ _ (fun _ _ => rfl),
        HasExtension_eq_true_iff _ _ _ (fun _ _ => rfl), hlf, hlx, ← hx]
      have hdrop : (p'.filename.drop (p.filename.length - ext.length)).map toupper
          = (p.filename.drop (p.filename.length - ext.length)).map toupper := by
        rw [List.map_drop, List.map_drop, hf]
      have hdot : p'.filename.getD (p.filename.length - ext.length - 1) 0 = 46 ↔
          p.filename.getD (p.filename.length - ext.length - 1) 0 = 46 := by
        have h0 : toupper 0 = 0 := by decide
        have hg : toupper (p'.filename.getD (p.filename.length - ext.length - 1) 0)
            = toupper (p.filename.getD (p.filename.length - ext.length - 1) 0) := by
          have h1 := List.getD_map (l := p'.filename) (d := 0)
            (n := p.filename.length - ext.length - 1) toupper
          have h2 := List.getD_map (l := p.filename) (d := 0)
            (n := p.filename.length - ext.length - 1) toupper
          rw [h0] at h1 h2
          rw [← h1, ← h2, hf]
        constructor
        · intro h
          rw [h] at hg
          exact (toupper_eq_dot _).mp hg.symm
        · intro h
          rw [h] at hg
          exact (toupper_eq_dot _).mp hg
      rw [hdrop, hdot]
    cases h1 : HasExtension intactStorage p' ext' <;> cases h2 : HasExtension intactStorage p ext
    · rfl
    · rw [h1, h2] at hiff; exact absurd (hiff.mpr rfl) (by simp)
    · rw [h1, h2] at hiff; exact absurd (hiff.mp rfl) (by simp)
    · rfl


/-- Whatever the file name was, `HasExtension` answers from what the storage
holds: a storage whose byte at the position of the dot is not `'.'` gives
`false`. -/
theorem HasExtension_false_of_storage (storage : Storage) (p : Path) (ext : List Byte)
    (hlen : ext.length + 1 ≤ p.filename.length)
    (hdot : storage p.filename (p.filename.length - ext.length - 1) ≠ 46) :
    HasExtension storage p ext = false := by
  unfold HasExtension
  have hk : p.filename.length - ext.length - 1 < p.filename.length := by omega
  have hg : ((List.range p.filename.length).map (storage p.filename)).getD
      (p.filename.length - ext.length - 1) 0
      = storage p.filename (p.filename.length - ext.length - 1) := by
    rw [List.getD_eq_getElem _ _ (by simpa using hk)]
    simp
  simp only [hg]
  rw [if_neg (by omega), if_pos hdot]

/-- C18 (failing input): the file name `abcdefghijkl.mkv`, of 16 characters, is
`abcdefghijkl ++ "." ++ "mkv"`, and with the storage of the name intact
`HasExtension` returns `true` for `ext = "mkv"`.  The code reads the name
through a view of a destroyed temporary string: once the heap block of that
string no longer holds the name, `HasExtension` returns `false` on this input,
where the claim says `true`. -/
theorem HasExtension_dangling_view :
    ([97, 98, 99, 100, 101, 102, 103, 104, 105, 106, 107, 108, 46, 109, 107, 118] : List Byte)
      = [97, 98, 99, 100, 101, 102, 103, 104, 105, 106, 107, 108] ++ 46 :: [109, 107, 118] ∧
    HasExtension intactStorage
      ⟨[97, 98, 99, 100, 101, 102, 103, 104, 105, 106, 107, 108, 46, 109, 107, 118]⟩
      [109, 107, 118] = true ∧
    HasExtension freedStorage
      ⟨[97, 98, 99, 100, 101, 102, 103, 104, 105, 106, 107, 108, 46, 109, 107, 118]⟩
      [109, 107, 118] = false := by
  refine ⟨rfl, ?_, ?_⟩
  · decide
  · decide

end Heliosub
